import Mathlib

/-!
# MassSpectrum: a shallow embedding of `Spectrum.h` and `SpectrumCollection.h`

The two headers of the repository are embedded function by function.

Conventions of the embedding.

* A ROOT `TString` is a list of characters.  The ROOT string primitives the
  code calls (`Contains`, `ReplaceAll`, `Tokenize`, `Atoi`, the stream
  extraction `>>`) are library code; they are modelled after the ROOT
  implementation and each model says so.
* A C++ `double` is a rational number: arithmetic is exact.
* An input file is the list of its whitespace-delimited tokens together
  with the information whether whitespace follows the last token (this
  decides when the stream raises its end-of-file flag).
* Loops that the source writes as `while(true)` take a fuel argument and
  answer `Outcome.timeout` when the fuel is used up; a store outside a
  `std::vector` answers `Outcome.undefinedStore`.
* A ROOT `TMatrixD` is its shape and its entries; `TMatrixD::Invert` is the
  exact inverse where the determinant is not zero.  What the code takes from
  outside its own text (the content ROOT leaves in a singular matrix, the
  square root, the values of uninitialised locals) is collected in
  `Platform` and passed as a parameter.
* Printing to `cout` and the histogram of `getHistogram` are left out.
-/

namespace MassSpectrum

/-! ## Strings -/

/-- A ROOT `TString`. -/
abbrev TString := List Char

/-- Embedding of `TString::Contains(pat)`: `pat` occurs as a contiguous substring. -/
def Contains (s pat : TString) : Bool := decide (pat <:+: s)

/-- Embedding of `TString::ReplaceAll(s1, s2)` with a skip counter: scanning from the left,
every occurrence of `s1` is replaced by `s2` and the search resumes right
after the replaced text.  `skip` counts the characters of a matched
occurrence that are still to be dropped. -/
def ReplaceAllAux (s1 s2 : TString) : Nat → TString → TString
  | _, [] => []
  | k + 1, _ :: cs => ReplaceAllAux s1 s2 k cs
  | 0, c :: cs =>
    if s1 ≠ [] ∧ s1.isPrefixOf (c :: cs) then s2 ++ ReplaceAllAux s1 s2 (s1.length - 1) cs
    else c :: ReplaceAllAux s1 s2 0 cs

/-- Embedding of `TString::ReplaceAll(s1, s2)`. -/
def ReplaceAll (s s1 s2 : TString) : TString := ReplaceAllAux s1 s2 0 s

/-- One call `s.Tokenize(tok, from, "[d]")` for a one-character class `[d]`,
after ROOT: answers `(found, tok, from)`.  Nothing is found in an empty
string or for `from` outside `0 .. len-1`.  Otherwise the token runs from
`from` to the next delimiter (it is empty when the delimiter stands at
`from`), and `from` moves behind that delimiter, capped at `len`; with no
delimiter left the rest of the string is the token and `from` becomes
`kNPOS = -1`. -/
def Tokenize (s : TString) (start : Int) (d : Char) : Bool × TString × Int :=
  let len : Int := s.length
  if len ≤ 0 ∨ start > len - 1 ∨ start < 0 then (false, [], start)
  else
    let rest := s.drop start.toNat
    let tok := rest.takeWhile (fun c => c != d)
    if tok.length = rest.length then (!tok.isEmpty, tok, -1)
    else (true, tok, min (start + tok.length + 1) len)

/-- The tokens seen by `while (s.Tokenize(tok, from, "[d]")) ...` started at
`from`; every successful call moves `from` forward, so `fuel = len + 1`
calls are never used up. -/
def tokensFrom (s : TString) (d : Char) : Nat → Int → List TString
  | 0, _ => []
  | fuel + 1, start =>
    match Tokenize s start d with
    | (true, tok, next) => tok :: tokensFrom s d fuel next
    | (false, _, _) => []

/-- The tokens seen by `int from = 0; while (s.Tokenize(tok, from, "[d]")) ...`. -/
def tokenizeAll (s : TString) (d : Char) : List TString :=
  tokensFrom s d (s.length + 1) 0

/-- C `isspace` in the "C" locale. -/
def isspace (c : Char) : Bool :=
  c = ' ' || c = '\t' || c = '\n' || c = '\r' || c.toNat = 11 || c.toNat = 12

/-- C `isdigit`. -/
def isdigit (c : Char) : Bool := decide ('0' ≤ c ∧ c ≤ '9')

/-- Value of the leading run of decimal digits, continuing from `acc`. -/
def digitsValue : Nat → TString → Nat
  | acc, [] => acc
  | acc, c :: cs => if isdigit c then digitsValue (10 * acc + (c.toNat - 48)) cs else acc

/-- Conversion of a mathematical integer to a 32-bit `int` (two's complement). -/
def wrapInt32 (z : Int) : Int := (z + 2 ^ 31) % 2 ^ 32 - 2 ^ 31

/-- The 64-bit `long` range that `strtol` saturates to. -/
def clampLong (z : Int) : Int := max (-(2 ^ 63)) (min (2 ^ 63 - 1) z)

/-- C `atoi`, as `(int) strtol(s, 0, 10)` on an LP64 platform: leading white
space, an optional sign, then the leading run of digits; no digits give 0. -/
def atoi (s : TString) : Int :=
  match s.dropWhile isspace with
  | '-' :: r => wrapInt32 (clampLong (-(digitsValue 0 r : Int)))
  | '+' :: r => wrapInt32 (clampLong (digitsValue 0 r))
  | r => wrapInt32 (clampLong (digitsValue 0 r))

/-- Embedding of `TString::Atoi()`: blanks are removed from the string, then `atoi`. -/
def Atoi (s : TString) : Int := atoi (s.filter (fun c => c != ' '))

/-- Conversion `(int) x` of a `double`: truncation toward zero. -/
def truncToInt (q : ℚ) : Int := Int.tdiv q.num q.den

/-! ## Outcomes of loops and stores -/

/-- Result of running code that may loop forever or store outside a vector. -/
inductive Outcome (α : Type) where
  | ok : α → Outcome α
  | timeout : Outcome α
  | undefinedStore : Outcome α
  deriving DecidableEq, Repr

/-- Sequencing of outcomes. -/
def Outcome.bind {α β : Type} (x : Outcome α) (f : α → Outcome β) : Outcome β :=
  match x with
  | Outcome.ok a => f a
  | Outcome.timeout => Outcome.timeout
  | Outcome.undefinedStore => Outcome.undefinedStore

/-- Applying a function to the value of an outcome. -/
def Outcome.map {α β : Type} (f : α → β) (x : Outcome α) : Outcome β :=
  x.bind (fun a => Outcome.ok (f a))

/-! ## Input streams -/

/-- State of an `ifstream`: the tokens not yet read, whether white space
follows the last token of the file, whether the file could be opened, and
the end-of-file flag. -/
structure IFStream where
  toks : List TString
  trailingWs : Bool
  isOpen : Bool
  eofbit : Bool
  deriving DecidableEq, Repr

/-- Stream on a file that was opened: its tokens, and whether white space
follows the last one. -/
def IFStream.ofFile (toks : List TString) (trailingWs : Bool) : IFStream :=
  { toks := toks, trailingWs := trailingWs, isOpen := true, eofbit := false }

/-- Stream on a file that could not be opened. -/
def IFStream.missing : IFStream :=
  { toks := [], trailingWs := false, isOpen := false, eofbit := false }

/-- Embedding of `InFile >> word` for a `TString` (ROOT `ReadToken`): white space is
skipped and the next token is read.  Past the last token the word is empty
and the end-of-file flag is raised; the flag is also raised when the last
token is read and no white space follows it.  A stream that is not open
answers the empty word and never raises the flag. -/
def IFStream.read (s : IFStream) : TString × IFStream :=
  if s.isOpen then
    match s.toks with
    | [] => ([], { s with eofbit := true })
    | [t] => (t, { s with toks := [], eofbit := s.eofbit || !s.trailingWs })
    | t :: rest => (t, { s with toks := rest })
  else ([], s)

/-- Embedding of `InFile.eof()`. -/
def IFStream.eof (s : IFStream) : Bool := s.eofbit

/-! ## `Spectrum` -/

/-- Number of entries of the mass spectrum vectors (`nMassSpecEntries`). -/
def nMassSpecEntries : Nat := 51

/-- Global `elementNames`. -/
def elementNames : List TString :=
  [['H'], ['C'], ['O'], ['N'], ['A', 'r'], ['D']]

/-- Global `elementNumber`. -/
def elementNumber : List Int := [1, 6, 8, 7, 18, 1]

/-- The data members of `class Spectrum`. -/
structure Spectrum where
  filename : TString
  contents : List ℚ
  MZ : List ℚ
  relInt : List ℚ
  name : TString
  Z : Int

/-- The marker `##MOLFORM=`. -/
def molformTag : TString := "##MOLFORM=".toList

/-- The token `TABLE=(XY..XY)`. -/
def tableTag : TString := "TABLE=(XY..XY)".toList

/-- The token `##END=`. -/
def endTag : TString := "##END=".toList

/-- Embedding of `relInt[index] = v` on a `std::vector<double>`: defined only for
`0 ≤ index < size`. -/
def storeAt (v : List ℚ) (index : Int) (x : ℚ) : Outcome (List ℚ) :=
  if 0 ≤ index ∧ index < v.length then Outcome.ok (v.set index.toNat x)
  else Outcome.undefinedStore

/-- State of the loop over the parts of one peak token: `index`, `first`
and the intensity vector. -/
structure PeakState where
  index : Int
  first : Bool
  relInt : List ℚ

/-- Body of `while(word3.Tokenize(tok, from, "[,]"))`. -/
def peakPart (st : PeakState) (tok : TString) : Outcome PeakState :=
  if st.first then Outcome.ok { st with index := Atoi tok - 1, first := false }
  else if st.index ≠ -1 then
    (storeAt st.relInt st.index ((Atoi tok : ℚ) / 9999)).bind
      (fun r => Outcome.ok { st with relInt := r })
  else Outcome.ok st

/-- Loop over the parts of a peak token. -/
def peakParts : PeakState → List TString → Outcome PeakState
  | st, [] => Outcome.ok st
  | st, tok :: rest => (peakPart st tok).bind (fun st1 => peakParts st1 rest)

/-- What the peak-table loop does with one token `word3` other than `##END=`. -/
def peakToken (word3 : TString) (relInt : List ℚ) : Outcome (List ℚ) :=
  (peakParts { index := -1, first := true, relInt := relInt } (tokenizeAll word3 ',')).bind
    (fun st => Outcome.ok st.relInt)

/-- The inner loop collecting the formula: reads `word2` until one contains `#`. -/
def formulaLoop : Nat → IFStream → TString → Outcome (IFStream × TString)
  | 0, _, _ => Outcome.timeout
  | fuel + 1, s, EleName =>
    let (word2, s1) := s.read
    if Contains word2 ['#'] then Outcome.ok (s1, EleName)
    else formulaLoop fuel s1 (EleName ++ ['_'] ++ word2)

/-- The inner loop reading the peak table: reads `word3` until `##END=`. -/
def tableLoop : Nat → IFStream → List ℚ → Outcome (IFStream × List ℚ)
  | 0, _, _ => Outcome.timeout
  | fuel + 1, s, relInt =>
    let (word3, s1) := s.read
    if word3 = endTag then Outcome.ok (s1, relInt)
    else (peakToken word3 relInt).bind (fun r => tableLoop fuel s1 r)

/-- The outer `while(true)` of `readFile`; `inner` is the fuel of the two
inner loops. -/
def readLoop (inner : Nat) : Nat → IFStream → TString → List ℚ → Outcome (TString × List ℚ)
  | 0, _, _, _ => Outcome.timeout
  | fuel + 1, s, EleName, relInt =>
    let (word1, s1) := s.read
    let afterFormula : Outcome (TString × IFStream × TString) :=
      if Contains word1 molformTag then
        let word1r := ReplaceAll word1 molformTag []
        (formulaLoop inner s1 (EleName ++ word1r)).bind
          (fun p => Outcome.ok (word1r, p.1, p.2))
      else Outcome.ok (word1, s1, EleName)
    afterFormula.bind (fun (word1a, s2, EleName2) =>
      let afterTable : Outcome (IFStream × List ℚ) :=
        if word1a = tableTag then tableLoop inner s2 relInt
        else Outcome.ok (s2, relInt)
      afterTable.bind (fun (s3, relInt3) =>
        if s3.eof then Outcome.ok (EleName2, relInt3)
        else readLoop inner fuel s3 EleName2 relInt3))

/-- Embedding of `Spectrum::readFile()`; `InFile` is the stream that opening `filename`
gives. -/
def Spectrum.readFile (fuel : Nat) (InFile : IFStream) (self : Spectrum) : Outcome Spectrum :=
  (readLoop fuel fuel InFile [] self.relInt).bind
    (fun p => Outcome.ok { self with name := p.1, relInt := p.2 })

/-- The multiplicity `n` that `ParseName` computes for a token. -/
def multiplicity (tok : TString) : Int :=
  if Contains tok ['1'] || Contains tok ['2'] || Contains tok ['3'] || Contains tok ['4']
      || Contains tok ['5'] || Contains tok ['6'] || Contains tok ['7'] || Contains tok ['8']
      || Contains tok ['9'] then
    Atoi (tok.drop (tok.length - 1))
  else 1

/-- The loop `for(int i=0; i<6; i++) if(tok.Contains(elementNames[i])) ... break`
from index `i` on, `names` being `elementNames[i..]`. -/
def fillContents (tok : TString) (n : Int) : Nat → List TString → List ℚ → List ℚ
  | _, [], contents => contents
  | i, nm :: rest, contents =>
    if Contains tok nm then contents.set i (n : ℚ)
    else fillContents tok n (i + 1) rest contents

/-- Body of `while(name.Tokenize(tok, from, "[_]"))` in `ParseName`. -/
def parseToken (contents : List ℚ) (tok : TString) : List ℚ :=
  fillContents tok (multiplicity tok) 0 elementNames contents

/-- The loop computing `Z`: `Z=0; for i<6: Z = Z + contents[i]*elementNumber[i]`,
the sum being a `double` converted back to `int`. -/
def computeZ (contents : List ℚ) : Int :=
  (List.range 6).foldl
    (fun Z i => truncToInt ((Z : ℚ) + contents.getD i 0 * ((elementNumber.getD i 0 : Int) : ℚ))) 0

/-- Embedding of `Spectrum::ParseName()`. -/
def Spectrum.ParseName (self : Spectrum) : Spectrum :=
  let contents := (tokenizeAll self.name '_').foldl parseToken self.contents
  { self with contents := contents, Z := computeZ contents }

/-- The vectors `MZ` (1, 2, ..) and `relInt` (all 0) that both constructors build. -/
def initMZ : List ℚ := (List.range nMassSpecEntries).map (fun i => ((i + 1 : Nat) : ℚ))

/-- The zero intensity vector of the constructors. -/
def initRelInt : List ℚ := List.replicate nMassSpecEntries 0

/-- Embedding of `Spectrum::Spectrum()`. -/
def Spectrum.default : Spectrum :=
  { filename := [], contents := List.replicate 6 0, MZ := initMZ, relInt := initRelInt,
    name := [], Z := 0 }

/-- Embedding of `Spectrum::Spectrum(TString file)`; `InFile` is the stream that opening
`file` gives.  The constructor leaves `Z` unset; `ParseName` assigns it
before any use, so the embedding starts it at 0. -/
def Spectrum.ofFile (fuel : Nat) (file : TString) (InFile : IFStream) : Outcome Spectrum :=
  (Spectrum.readFile fuel InFile
    { filename := file, contents := List.replicate 6 0, MZ := initMZ, relInt := initRelInt,
      name := [], Z := 0 }).bind
    (fun s => Outcome.ok s.ParseName)

/-- The record as `Spectrum(TString file)` holds it at the call of
`ParseName`: `contents` all zero and `name` as `readFile` left it; the other
members are those of `self`. -/
def Spectrum.beforeParseName (self : Spectrum) (name : TString) : Spectrum :=
  { self with contents := List.replicate 6 0, name := name }

/-- Embedding of `Spectrum::setFile(file)`. -/
def Spectrum.setFile (fuel : Nat) (file : TString) (InFile : IFStream) (self : Spectrum) :
    Outcome Spectrum :=
  (Spectrum.readFile fuel InFile { self with filename := file }).bind
    (fun s => Outcome.ok s.ParseName)

/-- Embedding of `Spectrum::getName()`. -/
def Spectrum.getName (self : Spectrum) : TString := self.name

/-- Embedding of `Spectrum::getRelativeIntensity()`. -/
def Spectrum.getRelativeIntensityAll (self : Spectrum) : List ℚ := self.relInt

/-- Embedding of `Spectrum::getRelativeIntensity(int zm)`. -/
def Spectrum.getRelativeIntensity (self : Spectrum) (zm : Int) : ℚ :=
  if zm < 1 ∨ zm > 50 then -1 else self.relInt.getD (zm - 1).toNat 0

/-- Embedding of `Spectrum::getZ()`. -/
def Spectrum.getZ (self : Spectrum) : Int := self.Z

/-- Embedding of `Spectrum::getFile()`. -/
def Spectrum.getFile (self : Spectrum) : TString := self.filename

/-- Embedding of `Spectrum::getMZ()`. -/
def Spectrum.getMZ (self : Spectrum) : List ℚ := self.MZ

/-- Embedding of `Spectrum::getContents()`. -/
def Spectrum.getContents (self : Spectrum) : List ℚ := self.contents

/-! ## `TMatrixD` -/

/-- A ROOT `TMatrixD`: the numbers of rows and columns and the entries.
Entries are addressed by natural numbers; the code only addresses entries
inside the matrix. -/
structure TMatrixD where
  nrows : Nat
  ncols : Nat
  elem : Nat → Nat → ℚ

/-- Embedding of `TMatrixD()`: the empty matrix. -/
def TMatrixD.empty : TMatrixD := { nrows := 0, ncols := 0, elem := fun _ _ => 0 }

/-- Embedding of `TMatrixD(r, c)`: the zero matrix with `r` rows and `c` columns. -/
def TMatrixD.zeros (r c : Nat) : TMatrixD := { nrows := r, ncols := c, elem := fun _ _ => 0 }

/-- Embedding of `GetNrows()`. -/
def TMatrixD.GetNrows (M : TMatrixD) : Nat := M.nrows

/-- Embedding of `GetNcols()`. -/
def TMatrixD.GetNcols (M : TMatrixD) : Nat := M.ncols

/-- Embedding of `ResizeTo(r, c)`: the entries in the overlap of the old and the new shape
are kept, the new entries are zero. -/
def TMatrixD.ResizeTo (M : TMatrixD) (r c : Nat) : TMatrixD :=
  { nrows := r, ncols := c,
    elem := fun i j => if i < M.nrows ∧ i < r ∧ j < M.ncols ∧ j < c then M.elem i j else 0 }

/-- Reading `M[i][j]`. -/
def TMatrixD.get (M : TMatrixD) (i j : Nat) : ℚ := M.elem i j

/-- The assignment `M[i][j] = x`. -/
def TMatrixD.set (M : TMatrixD) (i j : Nat) (x : ℚ) : TMatrixD :=
  { M with elem := fun a b => if a = i ∧ b = j then x else M.elem a b }

/-- Embedding of `dst = src` for matrices: the entries are copied when the shapes agree;
otherwise ROOT reports an error and leaves `dst` as it is. -/
def TMatrixD.assign (dst src : TMatrixD) : TMatrixD :=
  if dst.nrows = src.nrows ∧ dst.ncols = src.ncols then src else dst

/-- Embedding of `a - b` for matrices of one shape. -/
def TMatrixD.sub (a b : TMatrixD) : TMatrixD :=
  { nrows := a.nrows, ncols := a.ncols, elem := fun i j => a.elem i j - b.elem i j }

/-- Embedding of `M * x` for a number `x`. -/
def TMatrixD.scale (M : TMatrixD) (x : ℚ) : TMatrixD :=
  { M with elem := fun i j => M.elem i j * x }

/-- What the code's behaviour depends on outside its own text: the content
ROOT leaves in a matrix whose inversion it gives up as singular, the square
root of the C library, and the values the two uninitialised locals `sum`
and `sumSq` of `Evaluate` happen to hold. -/
structure Platform where
  singularInvert : TMatrixD → TMatrixD
  sqrt : ℚ → ℚ
  sum0 : ℚ
  sumSq0 : ℚ

/-- Embedding of `M.Invert()`, in exact arithmetic: a square matrix with non-zero
determinant is replaced by its inverse; for a singular one ROOT reports an
error and returns the receiver with the content its decomposition left; a
matrix that is not square is returned as it is. -/
def TMatrixD.Invert (P : Platform) (M : TMatrixD) : TMatrixD :=
  if M.nrows = M.ncols then
    let A : Matrix (Fin M.nrows) (Fin M.nrows) ℚ := fun i j => M.elem i j
    if A.det = 0 then P.singularInvert M
    else
      { nrows := M.nrows, ncols := M.ncols,
        elem := fun i j =>
          if h : i < M.nrows ∧ j < M.nrows then (A.det⁻¹ • A.adjugate) ⟨i, h.1⟩ ⟨j, h.2⟩
          else 0 }
  else M

/-- The loop `for(int i=0; i<n; i++) body`, the state being threaded through. -/
def forLoop {σ : Type} (n : Nat) (body : Nat → σ → σ) (s : σ) : σ :=
  (List.range n).foldl (fun st i => body i st) s

/-! ## `SpectrumCollection` -/

/-- Modelled from the spec: `Spectrum::getY()`, which `SpectrumCollection.h`
calls and `Spectrum.h` does not define; by the specification the column of
the design matrix holds the intensities of the record, so `getY` is the
relative-intensity vector. -/
def Spectrum.getY (self : Spectrum) : List ℚ := self.relInt

/-- The data members of `class SpectrumCollection`. -/
structure SpectrumCollection where
  X : TMatrixD
  Xt : TMatrixD
  XtX : TMatrixD
  XtXInv : TMatrixD
  gases : List Spectrum
  XtEval : Bool
  XtXEval : Bool
  XtXInvEval : Bool

/-- Embedding of `SpectrumCollection::SpectrumCollection()`. -/
def SpectrumCollection.init : SpectrumCollection :=
  { X := TMatrixD.empty, Xt := TMatrixD.empty, XtX := TMatrixD.empty,
    XtXInv := TMatrixD.empty, gases := [], XtEval := false, XtXEval := false,
    XtXInvEval := false }

/-- Embedding of `SpectrumCollection::AddSpectrum`, from the point where the record `a`
has been constructed from the file. -/
def SpectrumCollection.AddSpectrum (self : SpectrumCollection) (a : Spectrum) :
    SpectrumCollection :=
  let currentNcol := self.X.GetNcols
  let X1 := self.X.ResizeTo 50 (currentNcol + 1)
  let X2 := forLoop 50 (fun i X => X.set i currentNcol (a.getY.getD i 0)) X1
  { self with gases := self.gases ++ [a], X := X2, XtEval := false, XtXEval := false,
              XtXInvEval := false }

/-- Embedding of `SpectrumCollection::AddSpectrum(TString fname)`; `InFile` is the stream
that opening `fname` gives. -/
def SpectrumCollection.AddSpectrumFile (fuel : Nat) (fname : TString) (InFile : IFStream)
    (self : SpectrumCollection) : Outcome SpectrumCollection :=
  (Spectrum.ofFile fuel fname InFile).bind (fun a => Outcome.ok (self.AddSpectrum a))

/-- Embedding of `SpectrumCollection::Transpose()`. -/
def SpectrumCollection.Transpose (self : SpectrumCollection) : SpectrumCollection :=
  let Xt1 := self.Xt.ResizeTo self.X.GetNcols 50
  let Xt2 := forLoop 50 (fun i Xt =>
    forLoop self.X.GetNcols (fun j Xt => Xt.set j i (self.X.get i j)) Xt) Xt1
  { self with Xt := Xt2, XtEval := true }

/-- Embedding of `SpectrumCollection::MatrixMultiply(a, b)`. -/
def MatrixMultiply (a b : TMatrixD) : TMatrixD :=
  let r1 := a.GetNrows
  let c1 := a.GetNcols
  let c2 := b.GetNcols
  let mult0 := TMatrixD.zeros r1 c2
  let mult1 := forLoop r1 (fun i m => forLoop c2 (fun j m => m.set i j 0) m) mult0
  forLoop r1 (fun i m =>
    forLoop c2 (fun j m =>
      forLoop c1 (fun k m => m.set i j (m.get i j + a.get i k * b.get k j)) m) m) mult1

/-- Embedding of `SpectrumCollection::SelfMultiply()`. -/
def SpectrumCollection.SelfMultiply (self : SpectrumCollection) : SpectrumCollection :=
  let s1 := if !self.XtEval then self.Transpose else self
  let prod := MatrixMultiply s1.Xt s1.X
  let XtX1 := s1.XtX.ResizeTo prod.nrows prod.ncols
  { s1 with XtX := XtX1.assign prod, XtXEval := true }

/-- Embedding of `SpectrumCollection::InvertXtX()`: `XtX.Invert()` inverts the member
`XtX` itself, and the result is copied to `XtXInv`. -/
def SpectrumCollection.InvertXtX (P : Platform) (self : SpectrumCollection) :
    SpectrumCollection :=
  let s1 := if !self.XtXEval then self.SelfMultiply else self
  let XtXInv1 := s1.XtXInv.ResizeTo s1.XtX.nrows s1.XtX.ncols
  let XtX1 := s1.XtX.Invert P
  { s1 with XtX := XtX1, XtXInv := XtXInv1.assign XtX1, XtXInvEval := true }

/-- The part of `Evaluate` under `if(withError)`: the second column of
`soln` receives the estimated uncertainties. -/
def evaluateError (P : Platform) (self : SpectrumCollection) (input soln : TMatrixD) :
    TMatrixD :=
  let appliedSoln0 := TMatrixD.zeros input.GetNrows input.GetNcols
  let appliedSoln := forLoop input.GetNrows (fun i m =>
    forLoop self.gases.length (fun j m =>
      m.set i 0 (m.get i 0
        + soln.get j 0 * ((self.gases.getD j Spectrum.default).getY.getD i 0))) m)
    appliedSoln0
  let difference := input.sub appliedSoln
  let n := difference.GetNrows
  let sums := forLoop n (fun i (acc : ℚ × ℚ) =>
    (acc.1 + difference.get i 0, acc.2 + difference.get i 0 * difference.get i 0))
    (P.sum0, P.sumSq0)
  let sigmaSq := (sums.2 / (n : ℚ)) - (sums.1 / (n : ℚ)) * (sums.1 / (n : ℚ))
  let Var := self.XtXInv.scale sigmaSq
  let soln1 := soln.ResizeTo soln.GetNrows 2
  forLoop soln1.GetNrows (fun i m => m.set i 1 (P.sqrt (Var.get i i))) soln1

/-- Embedding of `SpectrumCollection::Evaluate(input, withError)`: the returned matrix and
the collection with its caches. -/
def SpectrumCollection.Evaluate (P : Platform) (self : SpectrumCollection) (input : TMatrixD)
    (withError : Bool) : TMatrixD × SpectrumCollection :=
  let s1 := if !self.XtEval then self.Transpose else self
  let s2 := if !s1.XtXEval then s1.SelfMultiply else s1
  let s3 := if !s2.XtXInvEval then s2.InvertXtX P else s2
  let XtY := MatrixMultiply s3.Xt input
  let soln := MatrixMultiply s3.XtXInv XtY
  if withError then (evaluateError P s3 input soln, s3) else (soln, s3)

/-- Embedding of `SpectrumCollection::getGases()`. -/
def SpectrumCollection.getGases (self : SpectrumCollection) : List Spectrum := self.gases

/-- Embedding of `SpectrumCollection::getGasNames()`. -/
def SpectrumCollection.getGasNames (self : SpectrumCollection) : List TString :=
  forLoop self.gases.length
    (fun i names => names ++ [(self.gases.getD i Spectrum.default).getName]) []

/-- Embedding of `SpectrumCollection::getX()`. -/
def SpectrumCollection.getX (self : SpectrumCollection) : TMatrixD := self.X

/-- Embedding of `SpectrumCollection::getXt()`: the returned matrix and the collection
with its caches. -/
def SpectrumCollection.getXt (self : SpectrumCollection) : TMatrixD × SpectrumCollection :=
  let s1 := if !self.XtEval then self.Transpose else self
  (s1.Xt, s1)

/-- Embedding of `SpectrumCollection::getXtX()`: the returned matrix and the collection
with its caches. -/
def SpectrumCollection.getXtX (self : SpectrumCollection) : TMatrixD × SpectrumCollection :=
  let s1 := if !self.XtXEval then self.SelfMultiply else self
  (s1.XtX, s1)

/-! ## Matrices of the least-squares statements -/

/-- The design matrix `X` of a collection, as a matrix with 50 rows. -/
def designMatrix (c : SpectrumCollection) : Matrix (Fin 50) (Fin c.X.ncols) ℚ :=
  fun i j => c.X.elem i j

/-- Column `j` of an observed matrix, as a vector of length 50. -/
def observedColumn (y : TMatrixD) (j : Nat) : Fin 50 → ℚ := fun i => y.elem i j

/-- The record whose intensities are all 1 (every peak of its table is
`i,9999`); used in examples. -/
def unitSpectrum : Spectrum :=
  { Spectrum.default with relInt := List.replicate nMassSpecEntries 1 }

/-- A platform for examples: a singular matrix is left as it is, the square
root is the identity, the uninitialised locals hold 0. -/
def examplePlatform : Platform :=
  { singularInvert := fun M => M, sqrt := fun x => x, sum0 := 0, sumSq0 := 0 }

/-! ## File layout used in the statements about `readFile` -/

/-- A piece of a token stream, as the outer loop of `readFile` consumes it:
a single token that starts nothing, a formula (`##MOLFORM=` token, the
tokens `ts` without `#`, and the closing token `h` with `#`), or a peak
table (`TABLE=(XY..XY)`, the peak tokens, `##END=`). -/
inductive Chunk where
  | plain : TString → Chunk
  | formula : TString → List TString → TString → Chunk
  | table : List TString → Chunk
  deriving DecidableEq, Repr

/-- The tokens of a chunk. -/
def Chunk.toks : Chunk → List TString
  | Chunk.plain w => [w]
  | Chunk.formula m ts h => m :: ts ++ [h]
  | Chunk.table peaks => tableTag :: peaks ++ [endTag]

/-- The tokens of a list of chunks. -/
def chunkToks : List Chunk → List TString
  | [] => []
  | c :: cs => c.toks ++ chunkToks cs

/-- Every store a peak token makes into a vector of length `len` is inside
the vector. -/
def peakInRange (len : Nat) (p : TString) : Bool :=
  match peakToken p (List.replicate len 0) with
  | Outcome.ok _ => true
  | _ => false

/-- The intensity vector after a peak token (unchanged where the token's
store is undefined). -/
def applyPeak (relInt : List ℚ) (p : TString) : List ℚ :=
  match peakToken p relInt with
  | Outcome.ok r => r
  | _ => relInt

/-- A chunk is what its constructor says, for intensity vectors of length
`len`: a plain token neither contains the marker nor is the table tag; a
formula starts with a marker token (not the table tag once the marker is
removed), continues with tokens without `#` and ends with a token
containing `#`; the peak tokens of a table are not `##END=` and store
inside the vector. -/
def Chunk.wellFormed (len : Nat) : Chunk → Bool
  | Chunk.plain w => !Contains w molformTag && decide (w ≠ tableTag)
  | Chunk.formula m ts h =>
    Contains m molformTag && decide (ReplaceAll m molformTag [] ≠ tableTag)
      && ts.all (fun t => !Contains t ['#']) && Contains h ['#']
  | Chunk.table peaks => peaks.all (fun p => decide (p ≠ endTag) && peakInRange len p)

/-- The chunk is no formula. -/
def Chunk.noFormula : Chunk → Bool
  | Chunk.formula _ _ _ => false
  | _ => true

/-- The chunk is no peak table. -/
def Chunk.noTable : Chunk → Bool
  | Chunk.table _ => false
  | _ => true

/-- The formula name as the claim words it: the marker token without the
marker, followed by the tokens `ts`, all joined with `_`. -/
def joinedName (m : TString) (ts : List TString) : TString :=
  List.intercalate ['_'] (ReplaceAll m molformTag [] :: ts)

/-- Decimal numeral of a natural number. -/
def decimal (n : Nat) : TString := Nat.toDigits 10 n

/-- The peak token `i,v`. -/
def peakOf (p : Nat × Nat) : TString := decimal p.1 ++ ',' :: decimal p.2

/-- The value of the last pair of the table whose mass index is `i`. -/
def lastWithIndex (i : Nat) : List (Nat × Nat) → Option Nat
  | [] => none
  | p :: rest =>
    match lastWithIndex i rest with
    | some v => some v
    | none => if p.1 = i then some p.2 else none

/-- The formula string after the outer loop has consumed a chunk. -/
def Chunk.nameAfter (EleName : TString) : Chunk → TString
  | Chunk.formula m ts _ =>
    ts.foldl (fun acc t => acc ++ ['_'] ++ t) (EleName ++ ReplaceAll m molformTag [])
  | _ => EleName

/-- The intensity vector after the outer loop has consumed a chunk. -/
def Chunk.relIntAfter (relInt : List ℚ) : Chunk → List ℚ
  | Chunk.table peaks => peaks.foldl applyPeak relInt
  | _ => relInt

/-- The multiplicity rule as the specification words it: the value of the
last character when it is a decimal digit, and 1 otherwise. -/
def lastDigitRule (tok : TString) : Int :=
  match tok.getLast? with
  | some c => if isdigit c then ((c.toNat - 48 : Nat) : Int) else 1
  | none => 1

/-- The token has one of the characters `1` .. `9`. -/
def hasNonzeroDigit (tok : TString) : Bool :=
  tok.any (fun c => decide ('1' ≤ c ∧ c ≤ '9'))

/-! ## Closed forms and examples for the error estimate and `setFile` -/

/-- The residual of row `i` in the error estimate of `Evaluate`. -/
def residual (s : SpectrumCollection) (input soln : TMatrixD) (i : Nat) : ℚ :=
  input.elem i 0
    - (if i < input.nrows then
        ∑ j in Finset.range s.gases.length,
          soln.elem j 0 * ((s.gases.getD j Spectrum.default).getY.getD i 0)
       else 0)

/-- The variance estimate `sigmaSq` of `Evaluate`, the two accumulators
starting from the values the platform gives them. -/
def sigmaSq (P : Platform) (s : SpectrumCollection) (input soln : TMatrixD) : ℚ :=
  (P.sumSq0 + ∑ i in Finset.range input.nrows, residual s input soln i * residual s input soln i)
      / (input.nrows : ℚ)
    - ((P.sum0 + ∑ i in Finset.range input.nrows, residual s input soln i) / (input.nrows : ℚ))
      * ((P.sum0 + ∑ i in Finset.range input.nrows, residual s input soln i)
          / (input.nrows : ℚ))

/-- A platform on which the two accumulators of the error estimate start from
the values 0 and 50 instead of 0 and 0. -/
def garbagePlatform : Platform :=
  { singularInvert := fun M => M, sqrt := fun x => x, sum0 := 0, sumSq0 := 50 }

/-- The record that loading the file
`##MOLFORM=C O2 ##END= TABLE=(XY..XY) 1,9999 ##END=` gives: name `C_O2`, one
carbon and two oxygen atoms, `Z = 22`, and intensity 1 at mass index 1. -/
def loadedExample : Spectrum :=
  { filename := [], contents := [0, 1, 2, 0, 0, 0], MZ := initMZ,
    relInt := initRelInt.set 0 1, name := "C_O2".toList, Z := 22 }

/-- The file `##MOLFORM=C O2 ##END= TABLE=(XY..XY) 1,9999 ##END=`. -/
def firstLoadExample : List Chunk :=
  [Chunk.formula "##MOLFORM=C".toList ["O2".toList] "##END=".toList,
    Chunk.table ["1,9999".toList]]

/-- The file `##MOLFORM=H2 ##END= TABLE=(XY..XY) 2,9999 ##END=`. -/
def reloadExample : List Chunk :=
  [Chunk.formula "##MOLFORM=H2".toList [] "##END=".toList, Chunk.table ["2,9999".toList]]

/-! ## Reading a file: streams, formula loop, peak table -/

theorem read_cons (t : TString) (rest : List TString) (tw : Bool) :
    (IFStream.mk (t :: rest) tw true false).read
      = (t, IFStream.mk rest tw true (rest.isEmpty && !tw)) := by
  cases rest <;> simp [IFStream.read]

theorem read_nil (tw e : Bool) :
    (IFStream.mk [] tw true e).read = ([], IFStream.mk [] tw true true) := by
  simp [IFStream.read]

/-- The formula loop on `ts ++ h :: rest`. -/
theorem formulaLoop_run (ts : List TString) (h : TString) (rest : List TString) (tw : Bool)
    (hts : ts.all (fun t => !Contains t ['#']) = true) (hh : Contains h ['#'] = true) :
    ∀ (inner : Nat) (e : TString), ts.length < inner →
      formulaLoop inner (IFStream.mk (ts ++ h :: rest) tw true false) e
        = Outcome.ok (IFStream.mk rest tw true (rest.isEmpty && !tw),
            ts.foldl (fun acc t => acc ++ ['_'] ++ t) e) := by
  induction ts with
  | nil =>
    intro inner e hlt
    obtain ⟨k, rfl⟩ : ∃ k, inner = k + 1 := ⟨inner - 1, by simp at hlt; omega⟩
    simp [formulaLoop, read_cons, hh]
  | cons t ts ih =>
    intro inner e hlt
    obtain ⟨k, rfl⟩ : ∃ k, inner = k + 1 := ⟨inner - 1, by simp at hlt; omega⟩
    simp only [List.all_cons, Bool.and_eq_true, Bool.not_eq_true', List.cons_append] at hts ⊢
    have hlt2 : ts.length < k := by simp at hlt; omega
    have hne : (ts ++ h :: rest).isEmpty = false := by cases ts <;> rfl
    simp [formulaLoop, read_cons, hts.1, hne]
    simpa using ih hts.2 k (e ++ ['_'] ++ t) hlt2

theorem storeAt_length {v r : List ℚ} {i : Int} {x : ℚ} (h : storeAt v i x = Outcome.ok r) :
    r.length = v.length := by
  unfold storeAt at h
  split at h
  · cases h; simp
  · cases h

theorem peakPart_length {st st1 : PeakState} {tok : TString}
    (h : peakPart st tok = Outcome.ok st1) : st1.relInt.length = st.relInt.length := by
  unfold peakPart at h
  split at h
  · cases h; rfl
  · split at h
    · cases hs : storeAt st.relInt st.index ((Atoi tok : ℚ) / 9999) with
      | ok r => rw [hs] at h; simp [Outcome.bind] at h; cases h; exact storeAt_length hs
      | timeout => rw [hs] at h; simp [Outcome.bind] at h
      | undefinedStore => rw [hs] at h; simp [Outcome.bind] at h
    · cases h; rfl

theorem peakParts_length : ∀ (parts : List TString) (st st1 : PeakState),
    peakParts st parts = Outcome.ok st1 → st1.relInt.length = st.relInt.length := by
  intro parts
  induction parts with
  | nil => intro st st1 h; simp [peakParts] at h; cases h; rfl
  | cons tok rest ih =>
    intro st st1 h
    simp only [peakParts] at h
    cases hp : peakPart st tok with
    | ok st2 =>
      rw [hp] at h
      simp only [Outcome.bind] at h
      rw [ih st2 st1 h, peakPart_length hp]
    | timeout => rw [hp] at h; simp [Outcome.bind] at h
    | undefinedStore => rw [hp] at h; simp [Outcome.bind] at h

/-- Whether the parts of a peak token run into an undefined store depends on
the vector only through its length. -/
theorem peakParts_defined_of_length : ∀ (parts : List TString) (st st2 : PeakState),
    st.index = st2.index → st.first = st2.first → st.relInt.length = st2.relInt.length →
    (∃ r, peakParts st parts = Outcome.ok r) → ∃ r, peakParts st2 parts = Outcome.ok r := by
  intro parts
  induction parts with
  | nil => intro st st2 _ _ _ _; exact ⟨st2, rfl⟩
  | cons tok rest ih =>
    intro st st2 hi hf hl ⟨r, hr⟩
    simp only [peakParts] at hr ⊢
    cases hp : peakPart st tok with
    | ok sa =>
      rw [hp] at hr
      simp only [Outcome.bind] at hr
      have key : ∃ sb, peakPart st2 tok = Outcome.ok sb ∧ sa.index = sb.index
          ∧ sa.first = sb.first ∧ sa.relInt.length = sb.relInt.length := by
        unfold peakPart at hp ⊢
        rw [← hi, ← hf]
        by_cases hfirst : st.first = true
        · rw [if_pos hfirst] at hp ⊢
          cases hp; exact ⟨_, rfl, rfl, rfl, hl⟩
        · rw [if_neg hfirst] at hp ⊢
          by_cases hidx : st.index ≠ -1
          · rw [if_pos hidx] at hp ⊢
            unfold storeAt at hp ⊢
            rw [← hl]
            by_cases hb : 0 ≤ st.index ∧ st.index < (st.relInt.length : Int)
            · rw [if_pos hb] at hp ⊢
              simp only [Outcome.bind] at hp ⊢
              cases hp
              exact ⟨_, rfl, rfl, rfl, by simp [hl]⟩
            · rw [if_neg hb] at hp
              simp [Outcome.bind] at hp
          · rw [if_neg hidx] at hp ⊢
            cases hp; exact ⟨_, rfl, hi, hf, hl⟩
      obtain ⟨sb, hsb, h1, h2, h3⟩ := key
      rw [hsb]
      simp only [Outcome.bind]
      exact ih sa sb h1 h2 h3 ⟨r, hr⟩
    | timeout => rw [hp] at hr; simp [Outcome.bind] at hr
    | undefinedStore => rw [hp] at hr; simp [Outcome.bind] at hr

/-- A peak token that stores inside vectors of length `len` leaves a vector
of the same length. -/
theorem peakToken_of_inRange {len : Nat} {p : TString} (h : peakInRange len p = true)
    (rel : List ℚ) (hl : rel.length = len) :
    ∃ r, peakToken p rel = Outcome.ok r ∧ r.length = len := by
  unfold peakInRange at h
  have h0 : ∃ r, peakParts { index := -1, first := true, relInt := List.replicate len 0 }
      (tokenizeAll p ',') = Outcome.ok r := by
    unfold peakToken at h
    cases hp : peakParts { index := -1, first := true, relInt := List.replicate len 0 }
        (tokenizeAll p ',') with
    | ok r => exact ⟨r, rfl⟩
    | timeout => rw [hp] at h; simp [Outcome.bind] at h
    | undefinedStore => rw [hp] at h; simp [Outcome.bind] at h
  obtain ⟨r, hr⟩ := peakParts_defined_of_length (tokenizeAll p ',')
    { index := -1, first := true, relInt := List.replicate len 0 }
    { index := -1, first := true, relInt := rel } rfl rfl (by simp [hl]) h0
  refine ⟨r.relInt, ?_, ?_⟩
  · simp [peakToken, hr, Outcome.bind]
  · rw [peakParts_length _ _ _ hr]; exact hl

theorem applyPeak_of_inRange {len : Nat} {p : TString} (h : peakInRange len p = true)
    (rel : List ℚ) (hl : rel.length = len) :
    peakToken p rel = Outcome.ok (applyPeak rel p) ∧ (applyPeak rel p).length = len := by
  obtain ⟨r, hr, hlen⟩ := peakToken_of_inRange h rel hl
  simp [applyPeak, hr, hlen]

theorem foldl_applyPeak_length (len : Nat) : ∀ (peaks : List TString) (rel : List ℚ),
    peaks.all (fun p => decide (p ≠ endTag) && peakInRange len p) = true → rel.length = len →
    (peaks.foldl applyPeak rel).length = len := by
  intro peaks
  induction peaks with
  | nil => intro rel _ hl; simpa using hl
  | cons p ps ih =>
    intro rel hall hl
    simp only [List.all_cons, Bool.and_eq_true] at hall
    simp only [List.foldl_cons]
    exact ih _ hall.2 (applyPeak_of_inRange hall.1.2 rel hl).2

/-- The peak-table loop on `peaks ++ ##END= :: rest`. -/
theorem tableLoop_run (len : Nat) (peaks : List TString) (rest : List TString) (tw : Bool)
    (hp : peaks.all (fun p => decide (p ≠ endTag) && peakInRange len p) = true) :
    ∀ (inner : Nat) (rel : List ℚ), rel.length = len → peaks.length < inner →
      tableLoop inner (IFStream.mk (peaks ++ endTag :: rest) tw true false) rel
        = Outcome.ok (IFStream.mk rest tw true (rest.isEmpty && !tw),
            peaks.foldl applyPeak rel) := by
  induction peaks with
  | nil =>
    intro inner rel _ hlt
    obtain ⟨k, rfl⟩ : ∃ k, inner = k + 1 := ⟨inner - 1, by simp at hlt; omega⟩
    simp [tableLoop, read_cons]
  | cons p ps ih =>
    intro inner rel hl hlt
    obtain ⟨k, rfl⟩ : ∃ k, inner = k + 1 := ⟨inner - 1, by simp at hlt; omega⟩
    simp only [List.all_cons, Bool.and_eq_true, decide_eq_true_eq] at hp
    have hlt2 : ps.length < k := by simp at hlt; omega
    have hne : (ps ++ endTag :: rest).isEmpty = false := by cases ps <;> rfl
    obtain ⟨h1, h2⟩ := applyPeak_of_inRange hp.1.2 rel hl
    simp only [tableLoop, List.cons_append, read_cons, hne, Bool.false_and, if_neg hp.1.1, h1,
      Outcome.bind, List.foldl_cons]
    exact ih hp.2 k _ h2 hlt2

theorem chunkToks_eq_nil {cs : List Chunk} (h : chunkToks cs = []) : cs = [] := by
  cases cs with
  | nil => rfl
  | cons c cs => cases c <;> simp [chunkToks, Chunk.toks] at h

theorem chunkToks_length (cs : List Chunk) : cs.length ≤ (chunkToks cs).length := by
  induction cs with
  | nil => simp [chunkToks]
  | cons c cs ih => cases c <;> simp [chunkToks, Chunk.toks] <;> omega

theorem chunkToks_append (a b : List Chunk) : chunkToks (a ++ b) = chunkToks a ++ chunkToks b := by
  induction a with
  | nil => rfl
  | cons c cs ih => simp [chunkToks, ih]

theorem relIntAfter_length (len : Nat) (c : Chunk) (rel : List ℚ)
    (hc : c.wellFormed len = true) (hl : rel.length = len) : (c.relIntAfter rel).length = len := by
  cases c with
  | plain w => exact hl
  | formula m ts h => exact hl
  | table peaks => exact foldl_applyPeak_length len peaks rel hc hl

/-- The outer loop of `readFile` on a stream made of well-formed chunks runs
to the end of the stream and returns the accumulated formula string and
intensity vector. -/
theorem readLoop_chunks (len : Nat) (tw : Bool) (inner : Nat) :
    ∀ (chunks : List Chunk) (fuel : Nat) (e : TString) (rel : List ℚ),
      chunks.all (Chunk.wellFormed len) = true → rel.length = len →
      chunks.length < fuel → (chunkToks chunks).length < inner →
      readLoop inner fuel (IFStream.mk (chunkToks chunks) tw true false) e rel
        = Outcome.ok (chunks.foldl Chunk.nameAfter e, chunks.foldl Chunk.relIntAfter rel) := by
  intro chunks
  induction chunks with
  | nil =>
    intro fuel e rel _ _ hf _
    obtain ⟨k, rfl⟩ : ∃ k, fuel = k + 1 := ⟨fuel - 1, by simp at hf; omega⟩
    have h1 : Contains [] molformTag = false := by decide
    have h2 : ([] : TString) ≠ tableTag := by decide
    simp [readLoop, chunkToks, read_nil, h1, h2, Outcome.bind, IFStream.eof]
  | cons c cs ih =>
    intro fuel e rel hall hl hf hin
    obtain ⟨k, rfl⟩ : ∃ k, fuel = k + 1 := ⟨fuel - 1, by simp at hf; omega⟩
    simp only [List.all_cons, Bool.and_eq_true] at hall
    have hk : cs.length < k := by simp at hf; omega
    have hin2 : (chunkToks cs).length < inner := by
      simp only [chunkToks, List.length_append] at hin; omega
    -- what happens after the chunk has been consumed
    have cont : ∀ (e1 : TString) (rel1 : List ℚ), rel1.length = len →
        (if (IFStream.mk (chunkToks cs) tw true ((chunkToks cs).isEmpty && !tw)).eof = true
          then Outcome.ok (e1, rel1)
          else readLoop inner k (IFStream.mk (chunkToks cs) tw true
            ((chunkToks cs).isEmpty && !tw)) e1 rel1)
          = Outcome.ok (cs.foldl Chunk.nameAfter e1, cs.foldl Chunk.relIntAfter rel1) := by
      intro e1 rel1 hl1
      by_cases hend : ((chunkToks cs).isEmpty && !tw) = true
      · have hnil : cs = [] := by
          apply chunkToks_eq_nil
          simp only [Bool.and_eq_true, List.isEmpty_iff] at hend
          exact hend.1
        subst hnil
        simp [IFStream.eof, hend]
      · have hend2 : ((chunkToks cs).isEmpty && !tw) = false := by simpa using hend
        rw [hend2]
        simp only [IFStream.eof, Bool.false_eq_true, if_false]
        exact ih k e1 rel1 hall.2 hl1 hk hin2
    cases c with
    | plain w =>
      simp only [Chunk.wellFormed, Bool.and_eq_true, Bool.not_eq_true', decide_eq_true_eq] at hall
      simp only [chunkToks, Chunk.toks, List.singleton_append, readLoop, read_cons, hall.1.1,
        Bool.false_eq_true, if_false, Outcome.bind, if_neg hall.1.2, List.foldl_cons,
        Chunk.nameAfter, Chunk.relIntAfter]
      exact cont e rel hl
    | formula m ts h =>
      simp only [Chunk.wellFormed, Bool.and_eq_true, decide_eq_true_eq] at hall
      obtain ⟨⟨⟨⟨hm, hm2⟩, hts⟩, hh⟩, _⟩ := hall
      have hlt : ts.length < inner := by
        simp only [chunkToks, Chunk.toks, List.length_append, List.length_cons] at hin; omega
      have hrun := formulaLoop_run ts h (chunkToks cs) tw hts hh inner
        (e ++ ReplaceAll m molformTag []) hlt
      have hshape : (ts ++ [h]) ++ chunkToks cs = ts ++ h :: chunkToks cs := by simp
      simp only [chunkToks, Chunk.toks, List.cons_append, readLoop, read_cons, hm, if_true,
        hshape, hrun, Outcome.bind, if_neg hm2, List.foldl_cons, Chunk.nameAfter,
        Chunk.relIntAfter]
      have hne : (ts ++ h :: chunkToks cs).isEmpty = false := by cases ts <;> rfl
      simp only [hne, Bool.false_and]
      rw [hrun]
      simp only [if_neg hm2]
      exact cont _ rel hl
    | table peaks =>
      simp only [Chunk.wellFormed] at hall
      have hlt : peaks.length < inner := by
        simp only [chunkToks, Chunk.toks, List.length_append, List.length_cons] at hin; omega
      have hrun := tableLoop_run len peaks (chunkToks cs) tw hall.1 inner rel hl hlt
      have hshape : (peaks ++ [endTag]) ++ chunkToks cs = peaks ++ endTag :: chunkToks cs := by
        simp
      have h1 : Contains tableTag molformTag = false := by decide
      have hne : (peaks ++ endTag :: chunkToks cs).isEmpty = false := by cases peaks <;> rfl
      simp only [chunkToks, Chunk.toks, List.cons_append, readLoop, read_cons, h1,
        Bool.false_eq_true, if_false, hshape, Outcome.bind, if_true, List.foldl_cons,
        Chunk.nameAfter, Chunk.relIntAfter, hne, Bool.false_and]
      rw [hrun]
      simp only []
      exact cont e _ (foldl_applyPeak_length len peaks rel hall.1 hl)

theorem digitChar_facts : ∀ d : Nat, d < 10 →
    isdigit (Nat.digitChar d) = true ∧ (Nat.digitChar d).toNat - 48 = d := by
  decide

theorem isdigit_facts (c : Char) (h : isdigit c = true) :
    c ≠ ',' ∧ c ≠ ' ' ∧ c ≠ '-' ∧ c ≠ '+' ∧ c ≠ '#' ∧ isspace c = false := by
  simp only [isdigit, decide_eq_true_eq] at h
  have h1 : 48 ≤ c.toNat := h.1
  have h2 : c.toNat ≤ 57 := h.2
  refine ⟨?_, ?_, ?_, ?_, ?_, ?_⟩
  · rintro rfl; revert h1; decide
  · rintro rfl; revert h1; decide
  · rintro rfl; revert h1; decide
  · rintro rfl; revert h1; decide
  · rintro rfl; revert h1; decide
  · simp only [isspace, Bool.or_eq_false_iff, decide_eq_false_iff_not]
    refine ⟨⟨⟨⟨⟨?_, ?_⟩, ?_⟩, ?_⟩, ?_⟩, ?_⟩
    · rintro rfl; revert h1; decide
    · rintro rfl; revert h1; decide
    · rintro rfl; revert h1; decide
    · rintro rfl; revert h1; decide
    · omega
    · omega

theorem digitsValue_append (xs : TString) (hxs : ∀ c ∈ xs, isdigit c = true) :
    ∀ (acc : Nat) (ys : TString),
      digitsValue acc (xs ++ ys) = digitsValue (digitsValue acc xs) ys := by
  induction xs with
  | nil => intro acc ys; rfl
  | cons c cs ih =>
    intro acc ys
    have hc : isdigit c = true := hxs c (List.mem_cons_self _ _)
    simp only [List.cons_append, digitsValue, hc, if_true]
    exact ih (fun x hx => hxs x (List.mem_cons_of_mem _ hx)) _ _

/-- The digits that `Nat.toDigitsCore` puts in front of `ds` are decimal
digits whose value is `n`. -/
theorem toDigitsCore_spec : ∀ (fuel n : Nat) (ds : TString), n < fuel →
    ∃ xs : TString, Nat.toDigitsCore 10 fuel n ds = xs ++ ds ∧ xs ≠ []
      ∧ (∀ c ∈ xs, isdigit c = true) ∧ ∀ acc, digitsValue acc xs = acc * 10 ^ xs.length + n := by
  intro fuel
  induction fuel with
  | zero => intro n ds h; omega
  | succ f ih =>
    intro n ds hlt
    have hd := digitChar_facts (n % 10) (Nat.mod_lt _ (by norm_num))
    by_cases hz : n / 10 = 0
    · refine ⟨[Nat.digitChar (n % 10)], ?_, by simp, ?_, ?_⟩
      · simp [Nat.toDigitsCore, hz]
      · intro c hc
        simp only [List.mem_singleton] at hc
        rw [hc]; exact hd.1
      · intro acc
        simp only [digitsValue, hd.1, if_true, hd.2, List.length_singleton, pow_one]
        omega
    · obtain ⟨xs, h1, h2, h3, h4⟩ := ih (n / 10) (Nat.digitChar (n % 10) :: ds) (by omega)
      refine ⟨xs ++ [Nat.digitChar (n % 10)], ?_, by simp, ?_, ?_⟩
      · simp [Nat.toDigitsCore, hz, h1]
      · intro c hc
        rcases List.mem_append.1 hc with hc | hc
        · exact h3 c hc
        · simp only [List.mem_singleton] at hc
          rw [hc]; exact hd.1
      · intro acc
        rw [digitsValue_append xs h3, h4]
        simp only [digitsValue, hd.1, if_true, hd.2, List.length_append, List.length_singleton,
          pow_succ]
        have := Nat.div_add_mod n 10
        nlinarith [this]

theorem decimal_spec (n : Nat) :
    decimal n ≠ [] ∧ (∀ c ∈ decimal n, isdigit c = true) ∧ digitsValue 0 (decimal n) = n := by
  obtain ⟨xs, h1, h2, h3, h4⟩ := toDigitsCore_spec (n + 1) n [] (Nat.lt_succ_self n)
  have : decimal n = xs := by simp [decimal, Nat.toDigits, h1]
  rw [this]
  exact ⟨h2, h3, by simpa using h4 0⟩

theorem wrap_clamp_small (n : Nat) (h : n < 2 ^ 31) : wrapInt32 (clampLong (n : Int)) = n := by
  have h1 : clampLong (n : Int) = n := by
    unfold clampLong
    have : (n : Int) < 2 ^ 31 := by exact_mod_cast h
    rw [min_eq_right (by omega), max_eq_right (by omega)]
  rw [h1]
  unfold wrapInt32
  have : (n : Int) < 2 ^ 31 := by exact_mod_cast h
  omega

/-- `Atoi` reads back a decimal numeral below `2^31`. -/
theorem Atoi_decimal (n : Nat) (h : n < 2 ^ 31) : Atoi (decimal n) = n := by
  obtain ⟨hne, hdig, hval⟩ := decimal_spec n
  have hfil : (decimal n).filter (fun c => c != ' ') = decimal n := by
    rw [List.filter_eq_self]
    intro c hc
    simpa using (isdigit_facts c (hdig c hc)).2.1
  unfold Atoi
  rw [hfil]
  cases hd : decimal n with
  | nil => exact absurd hd hne
  | cons c cs =>
    have hc := isdigit_facts c (hdig c (by rw [hd]; exact List.mem_cons_self _ _))
    rw [hd] at hval
    unfold atoi
    simp only [List.dropWhile, hc.2.2.2.2.2]
    split
    · rename_i heq; simp only [List.cons.injEq] at heq; exact absurd heq.1 hc.2.2.1
    · rename_i heq; simp only [List.cons.injEq] at heq; exact absurd heq.1 hc.2.2.2.1
    · rw [hval]; exact wrap_clamp_small n h

theorem takeWhile_ne_append (d : Char) : ∀ (a b : TString), d ∉ a →
    List.takeWhile (fun c => c != d) (a ++ d :: b) = a := by
  intro a
  induction a with
  | nil => intro b _; simp [List.takeWhile]
  | cons x xs ih =>
    intro b h
    simp only [List.mem_cons, not_or] at h
    have hx : (x != d) = true := by simpa using fun e => h.1 e.symm
    rw [List.cons_append, List.takeWhile_cons, hx, if_pos rfl, ih b h.2]

theorem takeWhile_ne_self (d : Char) : ∀ (a : TString), d ∉ a →
    List.takeWhile (fun c => c != d) a = a := by
  intro a
  induction a with
  | nil => intro _; rfl
  | cons x xs ih =>
    intro h
    simp only [List.mem_cons, not_or] at h
    have hx : (x != d) = true := by simpa using fun e => h.1 e.symm
    rw [List.takeWhile_cons, hx, if_pos rfl, ih h.2]

theorem Tokenize_inside (s : TString) (start : Int) (d : Char) (h0 : 0 ≤ start)
    (h1 : start < s.length) :
    Tokenize s start d
      = if ((s.drop start.toNat).takeWhile (fun c => c != d)).length
            = (s.drop start.toNat).length
        then (!((s.drop start.toNat).takeWhile (fun c => c != d)).isEmpty,
              (s.drop start.toNat).takeWhile (fun c => c != d), -1)
        else (true, (s.drop start.toNat).takeWhile (fun c => c != d),
              min (start + ((s.drop start.toNat).takeWhile (fun c => c != d)).length + 1)
                s.length) := by
  unfold Tokenize
  have hc : ¬ ((s.length : Int) ≤ 0 ∨ start > (s.length : Int) - 1 ∨ start < 0) := by omega
  simp only [if_neg hc]

theorem Tokenize_outside (s : TString) (start : Int) (d : Char) (h : start < 0) :
    Tokenize s start d = (false, [], start) := by
  unfold Tokenize
  have hc : ((s.length : Int) ≤ 0 ∨ start > (s.length : Int) - 1 ∨ start < 0) := by omega
  simp only [if_pos hc]

/-- A string `a,b` with non-empty second part and parts free of the delimiter
splits into `a` and `b`. -/
theorem tokenizeAll_pair (d : Char) (a b : TString) (ha : d ∉ a) (hb : d ∉ b)
    (hb0 : b ≠ []) : tokenizeAll (a ++ d :: b) d = [a, b] := by
  have hblen : 0 < b.length := List.length_pos.2 hb0
  have hlen : (a ++ d :: b).length = a.length + 1 + b.length := by simp; omega
  have step1 : Tokenize (a ++ d :: b) 0 d = (true, a, (a.length : Int) + 1) := by
    rw [Tokenize_inside _ _ _ (le_refl _) (by rw [hlen]; push_cast; omega)]
    simp only [Int.toNat_zero, List.drop_zero, takeWhile_ne_append d a b ha, hlen]
    rw [if_neg (by omega)]
    simp only [zero_add, Prod.mk.injEq, true_and]
    push_cast; omega
  have hdrop : List.drop (a.length + 1) (a ++ d :: b) = b := by
    rw [List.drop_append_eq_append_drop]
    simp
  have step2 : Tokenize (a ++ d :: b) ((a.length : Int) + 1) d = (true, b, -1) := by
    rw [Tokenize_inside _ _ _ (by omega) (by rw [hlen]; push_cast; omega)]
    have htn : ((a.length : Int) + 1).toNat = a.length + 1 := by omega
    simp only [htn, hdrop, takeWhile_ne_self d b hb, if_true]
    cases b with
    | nil => exact absurd rfl hb0
    | cons x xs => rfl
  have step3 : Tokenize (a ++ d :: b) (-1) d = (false, [], -1) :=
    Tokenize_outside _ _ _ (by norm_num)
  unfold tokenizeAll
  rw [hlen]
  have hf : a.length + 1 + b.length + 1 = (a.length + b.length - 1) + 1 + 1 + 1 := by omega
  rw [hf]
  simp only [tokensFrom, step1, step2, step3]

theorem peakToken_peakOf (p : Nat × Nat) (hi : p.1 < 2 ^ 31) (hv : p.2 < 2 ^ 31)
    (rel : List ℚ) :
    peakToken (peakOf p) rel
      = if p.1 = 0 then Outcome.ok rel
        else (storeAt rel ((p.1 : Int) - 1) ((p.2 : ℚ) / 9999)) := by
  obtain ⟨_, hdi, _⟩ := decimal_spec p.1
  obtain ⟨hnv, hdv, _⟩ := decimal_spec p.2
  have htok : tokenizeAll (peakOf p) ',' = [decimal p.1, decimal p.2] :=
    tokenizeAll_pair ',' _ _ (fun h => (isdigit_facts _ (hdi _ h)).1 rfl)
      (fun h => (isdigit_facts _ (hdv _ h)).1 rfl) hnv
  unfold peakToken
  rw [htok]
  simp only [peakParts, peakPart, if_true, Outcome.bind, Bool.false_eq_true, if_false,
    Atoi_decimal p.1 hi, Atoi_decimal p.2 hv]
  by_cases h0 : p.1 = 0
  · simp [h0]
  · have : ((p.1 : Int) - 1) ≠ -1 := by omega
    simp only [this, ne_eq, not_false_eq_true, if_true, if_neg h0]
    cases storeAt rel ((p.1 : Int) - 1) ((p.2 : ℚ) / 9999) <;> simp

theorem foldl_nameAfter_noFormula : ∀ (cs : List Chunk) (e : TString),
    cs.all Chunk.noFormula = true → cs.foldl Chunk.nameAfter e = e := by
  intro cs
  induction cs with
  | nil => intro e _; rfl
  | cons c cs ih =>
    intro e h
    simp only [List.all_cons, Bool.and_eq_true] at h
    cases c with
    | plain w => exact ih e h.2
    | formula m ts hh => simp [Chunk.noFormula] at h
    | table peaks => exact ih e h.2

theorem foldl_relIntAfter_noTable : ∀ (cs : List Chunk) (rel : List ℚ),
    cs.all Chunk.noTable = true → cs.foldl Chunk.relIntAfter rel = rel := by
  intro cs
  induction cs with
  | nil => intro e _; rfl
  | cons c cs ih =>
    intro e h
    simp only [List.all_cons, Bool.and_eq_true] at h
    cases c with
    | plain w => exact ih e h.2
    | formula m ts hh => exact ih e h.2
    | table peaks => simp [Chunk.noTable] at h

theorem intercalate_cons_eq (sep : TString) : ∀ (ts : List TString) (x : TString),
    List.intercalate sep (x :: ts) = x ++ (ts.map (fun t => sep ++ t)).flatten := by
  intro ts
  induction ts with
  | nil => intro x; simp [List.intercalate]
  | cons t ts ih =>
    intro x
    have h := ih t
    simp only [List.intercalate, List.intersperse, List.flatten_cons, List.map_cons] at h ⊢
    rw [h]
    simp

theorem foldl_underscore_eq_intercalate : ∀ (ts : List TString) (a : TString),
    ts.foldl (fun acc t => acc ++ ['_'] ++ t) a = List.intercalate ['_'] (a :: ts) := by
  intro ts a
  rw [intercalate_cons_eq]
  induction ts generalizing a with
  | nil => simp
  | cons t ts ih => rw [List.foldl_cons, ih]; simp

theorem all_and_split {α : Type} (p q : α → Bool) (l : List α)
    (h : l.all (fun c => p c && q c) = true) : l.all p = true ∧ l.all q = true := by
  induction l with
  | nil => simp
  | cons a l ih =>
    simp only [List.all_cons, Bool.and_eq_true] at h ⊢
    exact ⟨⟨h.1.1, (ih h.2).1⟩, h.1.2, (ih h.2).2⟩

/-- Claim C1 (formula extraction, `Spectrum::readFile`).  The stream consists
of well-formed chunks `pre`, then a token `m` containing `##MOLFORM=`, then
tokens `ts` without `#`, then a token `h` containing `#`, then well-formed
chunks `post`; `pre` and `post` hold no further formula (they may hold plain
tokens and complete peak tables).  With fuel above the number of tokens
`readFile` returns a record, and its name is `m` with the marker removed
followed by the tokens `ts`, joined with `_`; the closing token `h` is not
part of the name. -/
theorem formula_extraction (pre post : List Chunk) (m : TString) (ts : List TString)
    (h : TString) (tw : Bool) (self : Spectrum) (fuel : Nat)
    (hpre : pre.all (fun c => c.wellFormed self.relInt.length && c.noFormula) = true)
    (hpost : post.all (fun c => c.wellFormed self.relInt.length && c.noFormula) = true)
    (hm : Contains m molformTag = true)
    (hm2 : ReplaceAll m molformTag [] ≠ tableTag)
    (hts : ts.all (fun t => !Contains t ['#']) = true)
    (hh : Contains h ['#'] = true)
    (hfuel : (chunkToks pre ++ m :: ts ++ h :: chunkToks post).length < fuel) :
    (Spectrum.readFile fuel
        (IFStream.ofFile (chunkToks pre ++ m :: ts ++ h :: chunkToks post) tw) self).map
      Spectrum.name = Outcome.ok (joinedName m ts) := by
  obtain ⟨hpre1, hpre2⟩ := all_and_split _ _ _ hpre
  obtain ⟨hpost1, hpost2⟩ := all_and_split _ _ _ hpost
  have hshape : chunkToks pre ++ m :: ts ++ h :: chunkToks post
      = chunkToks (pre ++ Chunk.formula m ts h :: post) := by
    simp [chunkToks_append, chunkToks, Chunk.toks]
  have hall : (pre ++ Chunk.formula m ts h :: post).all (Chunk.wellFormed self.relInt.length)
      = true := by
    simp only [List.all_append, List.all_cons, Bool.and_eq_true]
    refine ⟨hpre1, ?_, hpost1⟩
    simp [Chunk.wellFormed, hm, hm2, hh]
    simpa using hts
  rw [hshape] at hfuel ⊢
  have hrun := readLoop_chunks self.relInt.length tw fuel (pre ++ Chunk.formula m ts h :: post)
    fuel [] self.relInt hall rfl
    (lt_of_le_of_lt (chunkToks_length _) hfuel) hfuel
  simp only [Spectrum.readFile, IFStream.ofFile, hrun, Outcome.bind, Outcome.map,
    List.foldl_append, List.foldl_cons, foldl_nameAfter_noFormula pre [] hpre2,
    Chunk.nameAfter, List.nil_append, foldl_underscore_eq_intercalate]
  rw [foldl_nameAfter_noFormula post _ hpost2]
  rfl

set_option maxRecDepth 100000 in
theorem formula_extraction_witness :
    (Spectrum.readFile 20
        (IFStream.ofFile (chunkToks [Chunk.plain "##TITLE=x".toList] ++ "##MOLFORM=C".toList
          :: ["O2".toList] ++ "##PEAK".toList
          :: chunkToks [Chunk.table ["1,210".toList, "2,9999".toList]]) true)
        Spectrum.default).map Spectrum.name = Outcome.ok "C_O2".toList :=
  formula_extraction [Chunk.plain "##TITLE=x".toList]
    [Chunk.table ["1,210".toList, "2,9999".toList]] "##MOLFORM=C".toList ["O2".toList]
    "##PEAK".toList true Spectrum.default 20 (by decide) (by decide) (by decide) (by decide)
    (by decide) (by decide) (by decide)

theorem storeAt_inside (rel : List ℚ) (i : Nat) (x : ℚ) (h1 : 1 ≤ i) (h2 : i ≤ rel.length) :
    storeAt rel ((i : Int) - 1) x = Outcome.ok (rel.set (i - 1) x) := by
  unfold storeAt
  have hc : 0 ≤ (i : Int) - 1 ∧ (i : Int) - 1 < (rel.length : Int) := by omega
  have ht : ((i : Int) - 1).toNat = i - 1 := by omega
  rw [if_pos hc, ht]

theorem applyPeak_peakOf (p : Nat × Nat) (rel : List ℚ) (hi : p.1 ≤ rel.length)
    (hi2 : p.1 < 2 ^ 31) (hv : p.2 < 2 ^ 31) :
    peakToken (peakOf p) rel
        = Outcome.ok (if p.1 = 0 then rel else rel.set (p.1 - 1) ((p.2 : ℚ) / 9999))
      ∧ applyPeak rel (peakOf p)
        = (if p.1 = 0 then rel else rel.set (p.1 - 1) ((p.2 : ℚ) / 9999)) := by
  have h := peakToken_peakOf p hi2 hv rel
  by_cases h0 : p.1 = 0
  · rw [if_pos h0] at h
    simp [applyPeak, h, h0]
  · rw [if_neg h0, storeAt_inside rel p.1 _ (by omega) hi] at h
    simp [applyPeak, h, h0]

theorem peakOf_ne_endTag (p : Nat × Nat) : peakOf p ≠ endTag := by
  obtain ⟨hne, hd, _⟩ := decimal_spec p.1
  intro h
  unfold peakOf at h
  cases hdec : decimal p.1 with
  | nil => exact hne hdec
  | cons c cs =>
    rw [hdec] at h
    have hc : c = '#' := by
      have := congrArg List.head? h
      simpa [endTag] using this
    exact (isdigit_facts c (hd c (by rw [hdec]; exact List.mem_cons_self _ _))).2.2.2.2.1 hc

theorem peakInRange_peakOf (len : Nat) (p : Nat × Nat) (hi : p.1 ≤ len)
    (hi2 : p.1 < 2 ^ 31) (hv : p.2 < 2 ^ 31) : peakInRange len (peakOf p) = true := by
  unfold peakInRange
  rw [(applyPeak_peakOf p (List.replicate len 0) (by simpa using hi) hi2 hv).1]

/-- The entry `k` of the intensity vector after the peak tokens of a table. -/
theorem foldl_applyPeak_getD : ∀ (table : List (Nat × Nat)) (rel : List ℚ) (k : Nat),
    (∀ p ∈ table, p.1 ≤ rel.length ∧ p.1 < 2 ^ 31 ∧ p.2 < 2 ^ 31) → k < rel.length →
    ((table.map peakOf).foldl applyPeak rel).getD k 0
      = match lastWithIndex (k + 1) table with
        | some v => (v : ℚ) / 9999
        | none => rel.getD k 0 := by
  intro table
  induction table with
  | nil => intro rel k _ _; simp [lastWithIndex]
  | cons p rest ih =>
    intro rel k hall hk
    have hp := hall p (List.mem_cons_self _ _)
    have happ := (applyPeak_peakOf p rel hp.1 hp.2.1 hp.2.2).2
    have hlen : (applyPeak rel (peakOf p)).length = rel.length := by
      rw [happ]; split <;> simp
    have hrest : ∀ q ∈ rest, q.1 ≤ (applyPeak rel (peakOf p)).length ∧ q.1 < 2 ^ 31
        ∧ q.2 < 2 ^ 31 := by
      intro q hq; rw [hlen]; exact hall q (List.mem_cons_of_mem _ hq)
    simp only [List.map_cons, List.foldl_cons, lastWithIndex]
    rw [ih (applyPeak rel (peakOf p)) k hrest (by rw [hlen]; exact hk)]
    cases hlast : lastWithIndex (k + 1) rest with
    | some v => rfl
    | none =>
      simp only
      rw [happ]
      by_cases h0 : p.1 = 0
      · have : ¬ p.1 = k + 1 := by omega
        simp [h0]
      · by_cases hpk : p.1 = k + 1
        · simp [hpk, List.getD_eq_getElem?_getD, List.getElem?_set, hk]
        · have : p.1 - 1 ≠ k := by omega
          simp [h0, hpk, List.getD_eq_getElem?_getD, List.getElem?_set, this]

/-- Claim C2 (peak normalisation, `Spectrum::readFile`).  The file holds one
peak table between `TABLE=(XY..XY)` and `##END=`, whose tokens are the
numerals `i,v` of the pairs of `table` (mass index at most 51, value below
`2^31`), surrounded by well-formed chunks without a further table.  With
fuel above the number of tokens the constructor returns a record, and for
every mass index `1 ≤ i ≤ 50` the entry `relInt[i-1]` is `v/9999` for the
last pair `(i, v)` of the table, and 0 when the table has no pair with index
`i`. -/
theorem peak_normalisation (pre post : List Chunk) (table : List (Nat × Nat)) (tw : Bool)
    (file : TString) (fuel : Nat) (i : Nat)
    (hpre : pre.all (fun c => c.wellFormed nMassSpecEntries && c.noTable) = true)
    (hpost : post.all (fun c => c.wellFormed nMassSpecEntries && c.noTable) = true)
    (htable : ∀ p ∈ table, p.1 ≤ nMassSpecEntries ∧ p.2 < 2 ^ 31)
    (hi : 1 ≤ i ∧ i ≤ 50)
    (hfuel : (chunkToks pre ++ tableTag :: table.map peakOf ++ endTag :: chunkToks post).length
      < fuel) :
    (Spectrum.ofFile fuel file
        (IFStream.ofFile
          (chunkToks pre ++ tableTag :: table.map peakOf ++ endTag :: chunkToks post) tw)).map
        (fun r => r.relInt.getD (i - 1) 0)
      = Outcome.ok (match lastWithIndex i table with
          | some v => (v : ℚ) / 9999
          | none => 0) := by
  obtain ⟨hpre1, hpre2⟩ := all_and_split _ _ _ hpre
  obtain ⟨hpost1, hpost2⟩ := all_and_split _ _ _ hpost
  have hshape : chunkToks pre ++ tableTag :: table.map peakOf ++ endTag :: chunkToks post
      = chunkToks (pre ++ Chunk.table (table.map peakOf) :: post) := by
    simp [chunkToks_append, chunkToks, Chunk.toks]
  have hlen0 : initRelInt.length = nMassSpecEntries := by simp [initRelInt]
  have htab2 : ∀ p ∈ table, p.1 ≤ initRelInt.length ∧ p.1 < 2 ^ 31 ∧ p.2 < 2 ^ 31 := by
    intro p hp
    have := htable p hp
    rw [hlen0]
    refine ⟨this.1, ?_, this.2⟩
    have h51 := this.1
    simp only [nMassSpecEntries] at h51
    omega
  have hall : (pre ++ Chunk.table (table.map peakOf) :: post).all
      (Chunk.wellFormed nMassSpecEntries) = true := by
    simp only [List.all_append, List.all_cons, Bool.and_eq_true]
    refine ⟨hpre1, ?_, hpost1⟩
    simp only [Chunk.wellFormed, List.all_eq_true, List.mem_map, Bool.and_eq_true,
      decide_eq_true_eq]
    rintro q ⟨p, hp, rfl⟩
    have := htab2 p hp
    exact ⟨peakOf_ne_endTag p, peakInRange_peakOf _ p (by rw [← hlen0]; exact this.1)
      this.2.1 this.2.2⟩
  rw [hshape] at hfuel ⊢
  have hrun := readLoop_chunks nMassSpecEntries tw fuel
    (pre ++ Chunk.table (table.map peakOf) :: post) fuel [] initRelInt hall hlen0
    (lt_of_le_of_lt (chunkToks_length _) hfuel) hfuel
  simp only [Spectrum.ofFile, Spectrum.readFile, IFStream.ofFile, hrun, Outcome.bind,
    Outcome.map, Outcome.ok.injEq]
  simp only [Spectrum.ParseName, List.foldl_append, List.foldl_cons,
    foldl_relIntAfter_noTable pre _ hpre2, Chunk.relIntAfter]
  rw [foldl_relIntAfter_noTable post _ hpost2]
  have hk : i - 1 < initRelInt.length := by rw [hlen0]; simp only [nMassSpecEntries]; omega
  have := foldl_applyPeak_getD table initRelInt (i - 1) htab2 hk
  rw [this]
  have hi1 : i - 1 + 1 = i := by omega
  rw [hi1]
  cases lastWithIndex i table with
  | some v => rfl
  | none => simp [initRelInt, List.getD_eq_getElem?_getD]

set_option maxRecDepth 100000 in
theorem peak_normalisation_witness :
    (Spectrum.ofFile 20 []
        (IFStream.ofFile
          (chunkToks [Chunk.formula "##MOLFORM=C".toList ["O2".toList] "##PEAK".toList]
            ++ tableTag :: [(1, 9999), (2, 0)].map peakOf ++ endTag :: chunkToks []) true)).map
        (fun r => r.relInt.getD (1 - 1) 0)
      = Outcome.ok 1
    ∧ (Spectrum.ofFile 20 []
        (IFStream.ofFile
          (chunkToks [Chunk.formula "##MOLFORM=C".toList ["O2".toList] "##PEAK".toList]
            ++ tableTag :: [(1, 9999), (2, 0)].map peakOf ++ endTag :: chunkToks []) true)).map
        (fun r => r.relInt.getD (2 - 1) 0)
      = Outcome.ok 0 := by
  constructor
  · have h := peak_normalisation
      [Chunk.formula "##MOLFORM=C".toList ["O2".toList] "##PEAK".toList] []
      [(1, 9999), (2, 0)] true [] 20 1 (by decide) (by decide) (by decide) (by decide)
      (by decide)
    rw [h]
    norm_num [lastWithIndex]
  · have h := peak_normalisation
      [Chunk.formula "##MOLFORM=C".toList ["O2".toList] "##PEAK".toList] []
      [(1, 9999), (2, 0)] true [] 20 2 (by decide) (by decide) (by decide) (by decide)
      (by decide)
    rw [h]
    norm_num [lastWithIndex]

/-! ## `ParseName` -/

theorem truncToInt_intCast (z : Int) : truncToInt (z : ℚ) = z := by
  simp [truncToInt]

theorem truncToInt_step (Z a n : Int) :
    truncToInt ((Z : ℚ) + (a : ℚ) * ((n : Int) : ℚ)) = Z + a * n := by
  rw [← Int.cast_mul, ← Int.cast_add, truncToInt_intCast]

theorem computeZ_intCast (a b c d e f : Int) :
    computeZ ([a, b, c, d, e, f].map (fun z : Int => (z : ℚ)))
      = a * 1 + b * 6 + c * 8 + d * 7 + e * 18 + f * 1 := by
  have hr : List.range 6 = [0, 1, 2, 3, 4, 5] := by decide
  simp only [computeZ, hr, List.foldl_cons, List.foldl_nil, List.map_cons, List.map_nil,
    elementNumber]
  simp only [List.getD_cons_zero, List.getD_cons_succ, truncToInt_step]
  ring

theorem fillContents_intCast (tok : TString) (n : Int) :
    ∀ (names : List TString) (i : Nat) (zs : List Int),
      ∃ zs2 : List Int, zs2.length = zs.length
        ∧ fillContents tok n i names (zs.map (fun z : Int => (z : ℚ)))
            = zs2.map (fun z : Int => (z : ℚ)) := by
  intro names
  induction names with
  | nil => intro i zs; exact ⟨zs, rfl, rfl⟩
  | cons nm rest ih =>
    intro i zs
    by_cases h : Contains tok nm = true
    · refine ⟨zs.set i n, by simp, ?_⟩
      simp only [fillContents, h, if_true]
      rw [List.map_set]
    · simp only [fillContents, h, Bool.false_eq_true, if_false]
      exact ih (i + 1) zs

theorem foldl_parseToken_intCast : ∀ (toks : List TString) (zs : List Int),
    ∃ zs2 : List Int, zs2.length = zs.length
      ∧ toks.foldl parseToken (zs.map (fun z : Int => (z : ℚ)))
          = zs2.map (fun z : Int => (z : ℚ)) := by
  intro toks
  induction toks with
  | nil => intro zs; exact ⟨zs, rfl, rfl⟩
  | cons t ts ih =>
    intro zs
    obtain ⟨z1, h1, h2⟩ := fillContents_intCast t (multiplicity t) elementNames 0 zs
    obtain ⟨z2, h3, h4⟩ := ih z1
    refine ⟨z2, by rw [h3, h1], ?_⟩
    simp only [List.foldl_cons, parseToken, h2, h4]

/-- Claim C3 (proton count, `Spectrum::ParseName`).  For every name, after
`ParseName` on a record whose `contents` are all zero (as the constructors
leave them), `Z` is the sum over the six elements of
`contents[e] * elementNumber[e]`; for the name `C_O2` the contents are
`H:0, C:1, O:2, N:0, Ar:0, D:0` and `Z = 22`. -/
theorem proton_count (self : Spectrum) (name : TString) :
    (((self.beforeParseName name).ParseName.Z : Int) : ℚ)
      = ∑ i in Finset.range 6,
          (self.beforeParseName name).ParseName.contents.getD i 0
            * ((elementNumber.getD i 0 : Int) : ℚ)
    ∧ (self.beforeParseName "C_O2".toList).ParseName.contents = [0, 1, 2, 0, 0, 0]
    ∧ (self.beforeParseName "C_O2".toList).ParseName.Z = 22 := by
  have hz : (List.replicate 6 (0 : ℚ)) = (List.replicate 6 (0 : Int)).map (fun z : Int => (z : ℚ)) := by
    simp
  refine ⟨?_, ?_, ?_⟩
  · obtain ⟨zs, hlen, hzs⟩ := foldl_parseToken_intCast (tokenizeAll name '_')
      (List.replicate 6 (0 : Int))
    simp only [Spectrum.ParseName, Spectrum.beforeParseName, hz, hzs]
    match zs, hlen with
    | [a, b, c, d, e, f], _ =>
      rw [computeZ_intCast]
      simp [Finset.sum_range_succ, elementNumber]
  all_goals
    have htok : tokenizeAll "C_O2".toList '_' = [['C'], ['O', '2']] := by decide
    have h1 : parseToken (List.replicate 6 0) ['C'] = [0, ((1 : Int) : ℚ), 0, 0, 0, 0] := by
      have m : multiplicity ['C'] = 1 := by decide
      have c0 : Contains ['C'] ['H'] = false := by decide
      have c1 : Contains ['C'] ['C'] = true := by decide
      simp [parseToken, fillContents, elementNames, m, c0, c1]
    have h2 : parseToken [0, ((1 : Int) : ℚ), 0, 0, 0, 0] ['O', '2']
        = [0, ((1 : Int) : ℚ), ((2 : Int) : ℚ), 0, 0, 0] := by
      have m : multiplicity ['O', '2'] = 2 := by decide
      have c0 : Contains ['O', '2'] ['H'] = false := by decide
      have c1 : Contains ['O', '2'] ['C'] = false := by decide
      have c2 : Contains ['O', '2'] ['O'] = true := by decide
      simp [parseToken, fillContents, elementNames, m, c0, c1, c2]
    have h3 : computeZ [0, ((1 : Int) : ℚ), ((2 : Int) : ℚ), 0, 0, 0] = 22 := by
      have := computeZ_intCast 0 1 2 0 0 0
      simpa using this
    simp only [Spectrum.ParseName, Spectrum.beforeParseName, htok, List.foldl_cons,
      List.foldl_nil, h1, h2, h3]
    try norm_num

theorem Contains_singleton (s : TString) (c : Char) : Contains s [c] = true ↔ c ∈ s := by
  simp only [Contains, decide_eq_true_eq]
  constructor
  · rintro ⟨a, b, rfl⟩
    simp
  · intro h
    obtain ⟨a, b, rfl⟩ := List.append_of_mem h
    exact ⟨a, b, by simp⟩

theorem multiplicity_test (tok : TString) :
    (Contains tok ['1'] || Contains tok ['2'] || Contains tok ['3'] || Contains tok ['4']
      || Contains tok ['5'] || Contains tok ['6'] || Contains tok ['7'] || Contains tok ['8']
      || Contains tok ['9']) = hasNonzeroDigit tok := by
  rw [Bool.eq_iff_iff]
  simp only [Bool.or_eq_true, Contains_singleton, hasNonzeroDigit, List.any_eq_true,
    decide_eq_true_eq]
  constructor
  · intro h
    rcases h with (((((((h | h) | h) | h) | h) | h) | h) | h) | h
    all_goals exact ⟨_, h, by decide⟩
  · rintro ⟨c, hc, h1, h2⟩
    have h1n : 49 ≤ c.toNat := h1
    have h2n : c.toNat ≤ 57 := h2
    have hcases : c = '1' ∨ c = '2' ∨ c = '3' ∨ c = '4' ∨ c = '5' ∨ c = '6' ∨ c = '7'
        ∨ c = '8' ∨ c = '9' := by
      have key : ∀ n : Nat, 49 ≤ n → n ≤ 57 → ∀ d : Char, d.toNat = n →
          d = '1' ∨ d = '2' ∨ d = '3' ∨ d = '4' ∨ d = '5' ∨ d = '6' ∨ d = '7'
            ∨ d = '8' ∨ d = '9' := by
        intro n hn1 hn2 d hd
        have e : ∀ k : Char, d.toNat = k.toNat → d = k := fun k hk =>
          Char.ext (UInt32.ext (by simpa [Char.toNat, UInt32.toNat] using hk))
        interval_cases n
        · exact Or.inl (e '1' hd)
        · exact Or.inr (Or.inl (e '2' hd))
        · exact Or.inr (Or.inr (Or.inl (e '3' hd)))
        · exact Or.inr (Or.inr (Or.inr (Or.inl (e '4' hd))))
        · exact Or.inr (Or.inr (Or.inr (Or.inr (Or.inl (e '5' hd)))))
        · exact Or.inr (Or.inr (Or.inr (Or.inr (Or.inr (Or.inl (e '6' hd))))))
        · exact Or.inr (Or.inr (Or.inr (Or.inr (Or.inr (Or.inr (Or.inl (e '7' hd)))))))
        · exact Or.inr (Or.inr (Or.inr (Or.inr (Or.inr (Or.inr (Or.inr (Or.inl (e '8' hd))))))))
        · exact Or.inr (Or.inr (Or.inr (Or.inr (Or.inr (Or.inr (Or.inr (Or.inr (e '9' hd))))))))
      exact key c.toNat h1n h2n c rfl
    rcases hcases with h | h | h | h | h | h | h | h | h <;> subst h <;> simp [hc]

theorem isdigit_value_le (c : Char) (h : isdigit c = true) : c.toNat - 48 ≤ 9 := by
  simp only [isdigit, decide_eq_true_eq] at h
  have h2 : c.toNat ≤ 57 := h.2
  omega

theorem wrap_clamp_digit (n : Nat) (h : n ≤ 9) : wrapInt32 (clampLong (n : Int)) = n := by
  have h1 : clampLong (n : Int) = n := by
    unfold clampLong
    rw [min_eq_right (by omega), max_eq_right (by omega)]
  rw [h1]
  unfold wrapInt32
  omega

/-- `Atoi` of a one-character string: the digit's value, and 0 for any other character. -/
theorem Atoi_single (c : Char) :
    Atoi [c] = if isdigit c then ((c.toNat - 48 : Nat) : Int) else 0 := by
  have hz : wrapInt32 (clampLong 0) = 0 := by decide
  have hz2 : wrapInt32 (clampLong (-((0 : Nat) : Int))) = 0 := by decide
  have hz3 : wrapInt32 (clampLong ((0 : Nat) : Int)) = 0 := by decide
  by_cases hsp : c = ' '
  · subst hsp
    have : isdigit ' ' = false := by decide
    simp [Atoi, atoi, digitsValue, this, hz]
  · have hfil : [c].filter (fun x => x != ' ') = [c] := by simp [hsp]
    unfold Atoi
    rw [hfil]
    by_cases hw : isspace c = true
    · have hnd : isdigit c = false := by
        by_contra hd
        have hd2 : isdigit c = true := by simpa using hd
        simp only [isdigit, decide_eq_true_eq] at hd2
        have h1 : 48 ≤ c.toNat := hd2.1
        simp only [isspace, Bool.or_eq_true, decide_eq_true_eq] at hw
        rcases hw with ((((h | h) | h) | h) | h) | h
        · exact hsp h
        · subst h; revert h1; decide
        · subst h; revert h1; decide
        · subst h; revert h1; decide
        · omega
        · omega
      simp [atoi, List.dropWhile, hw, digitsValue, hnd, hz]
    · have hw2 : isspace c = false := by simpa using hw
      unfold atoi
      simp only [List.dropWhile, hw2]
      split
      · rename_i heq
        simp only [List.cons.injEq] at heq
        obtain ⟨h1, h2⟩ := heq
        subst h1; subst h2
        have : isdigit '-' = false := by decide
        simp [digitsValue, this, hz]
      · rename_i heq
        simp only [List.cons.injEq] at heq
        obtain ⟨h1, h2⟩ := heq
        subst h1; subst h2
        have : isdigit '+' = false := by decide
        simp [digitsValue, this, hz]
      · by_cases hd : isdigit c = true
        · simp only [digitsValue, hd, if_true, Nat.mul_zero, Nat.zero_add]
          exact wrap_clamp_digit _ (isdigit_value_le c hd)
        · have hd2 : isdigit c = false := by simpa using hd
          simp [digitsValue, hd2, hz]

theorem drop_length_pred (tok : TString) (c : Char) (h : tok.getLast? = some c) :
    tok.drop (tok.length - 1) = [c] := by
  obtain ⟨init, rfl⟩ : ∃ init, tok = init ++ [c] := by
    rcases List.eq_nil_or_concat tok with h0 | ⟨l, b, hb⟩
    · subst h0; simp at h
    · subst hb
      simp at h
      subst h
      exact ⟨l, by simp⟩
  simp

/-- Claim C4 as amended (multiplicity rule of `ParseName`).  A token without
any of the characters `1` .. `9` has multiplicity 1, also when it ends in
`0`.  A token with one of these characters has the value of its last
character as multiplicity when that character is a decimal digit, and 0 when
it is not. -/
theorem multiplicity_by_digit_test (tok : TString) :
    (hasNonzeroDigit tok = false → multiplicity tok = 1)
    ∧ (hasNonzeroDigit tok = true → ∀ c, tok.getLast? = some c →
        multiplicity tok = if isdigit c then ((c.toNat - 48 : Nat) : Int) else 0) := by
  constructor
  · intro h
    unfold multiplicity
    rw [multiplicity_test, h]
    rfl
  · intro h c hc
    unfold multiplicity
    rw [multiplicity_test, h, if_pos rfl, drop_length_pred tok c hc, Atoi_single]

/-- Claim C4 fails as stated: the token `O0` ends in the digit `0`, so the
stated rule gives 0, and the code gives 1; the token `C2H` does not end in a
digit, so the stated rule gives 1, and the code gives 0. -/
theorem multiplicity_rule_counterexample :
    ("O0".toList ≠ [] ∧ '_' ∉ "O0".toList ∧ multiplicity "O0".toList = 1
      ∧ lastDigitRule "O0".toList = 0)
    ∧ ("C2H".toList ≠ [] ∧ '_' ∉ "C2H".toList ∧ multiplicity "C2H".toList = 0
      ∧ lastDigitRule "C2H".toList = 1) := by
  decide

/-- Claim C5 (element matching of `ParseName`).  For every token and every
composition: when `i` is the first index in the order H, C, O, N, Ar, D whose
symbol occurs in the token, the entry `i` is set to the multiplicity of the
token and nothing else changes; when no symbol occurs in the token the
composition, and so `Z`, is unchanged; in every case at most one entry
changes; the token `CH4` sets H to 4 and leaves C as it is. -/
theorem element_matching (tok : TString) (contents : List ℚ) :
    (∀ i, i < 6 → Contains tok (elementNames.getD i []) = true →
        (∀ j, j < i → Contains tok (elementNames.getD j []) = false) →
        parseToken contents tok = contents.set i ((multiplicity tok : Int) : ℚ))
    ∧ ((∀ i, i < 6 → Contains tok (elementNames.getD i []) = false) →
        parseToken contents tok = contents
          ∧ computeZ (parseToken contents tok) = computeZ contents)
    ∧ (∃ i, i < 6 ∧ ∀ j, j ≠ i →
        (parseToken contents tok).getD j 0 = contents.getD j 0)
    ∧ parseToken contents "CH4".toList = contents.set 0 4 := by
  have none_case : (∀ i, i < 6 → Contains tok (elementNames.getD i []) = false) →
      parseToken contents tok = contents := by
    intro h
    have h0 := h 0 (by norm_num)
    have h1 := h 1 (by norm_num)
    have h2 := h 2 (by norm_num)
    have h3 := h 3 (by norm_num)
    have h4 := h 4 (by norm_num)
    have h5 := h 5 (by norm_num)
    simp only [elementNames, List.getD_cons_zero, List.getD_cons_succ] at h0 h1 h2 h3 h4 h5
    simp [parseToken, fillContents, elementNames, h0, h1, h2, h3, h4, h5]
  have first_case : ∀ i, i < 6 → Contains tok (elementNames.getD i []) = true →
      (∀ j, j < i → Contains tok (elementNames.getD j []) = false) →
      parseToken contents tok = contents.set i ((multiplicity tok : Int) : ℚ) := by
    intro i hi hc hfirst
    interval_cases i
    · simp only [elementNames, List.getD_cons_zero] at hc
      simp [parseToken, fillContents, elementNames, hc]
    · have h0 := hfirst 0 (by norm_num)
      simp only [elementNames, List.getD_cons_zero, List.getD_cons_succ] at hc h0
      simp [parseToken, fillContents, elementNames, hc, h0]
    · have h0 := hfirst 0 (by norm_num)
      have h1 := hfirst 1 (by norm_num)
      simp only [elementNames, List.getD_cons_zero, List.getD_cons_succ] at hc h0 h1
      simp [parseToken, fillContents, elementNames, hc, h0, h1]
    · have h0 := hfirst 0 (by norm_num)
      have h1 := hfirst 1 (by norm_num)
      have h2 := hfirst 2 (by norm_num)
      simp only [elementNames, List.getD_cons_zero, List.getD_cons_succ] at hc h0 h1 h2
      simp [parseToken, fillContents, elementNames, hc, h0, h1, h2]
    · have h0 := hfirst 0 (by norm_num)
      have h1 := hfirst 1 (by norm_num)
      have h2 := hfirst 2 (by norm_num)
      have h3 := hfirst 3 (by norm_num)
      simp only [elementNames, List.getD_cons_zero, List.getD_cons_succ] at hc h0 h1 h2 h3
      simp [parseToken, fillContents, elementNames, hc, h0, h1, h2, h3]
    · have h0 := hfirst 0 (by norm_num)
      have h1 := hfirst 1 (by norm_num)
      have h2 := hfirst 2 (by norm_num)
      have h3 := hfirst 3 (by norm_num)
      have h4 := hfirst 4 (by norm_num)
      simp only [elementNames, List.getD_cons_zero, List.getD_cons_succ] at hc h0 h1 h2 h3 h4
      simp [parseToken, fillContents, elementNames, hc, h0, h1, h2, h3, h4]
  refine ⟨first_case, ?_, ?_, ?_⟩
  · intro h
    rw [none_case h]
    exact ⟨rfl, rfl⟩
  · by_cases hex : ∃ i, i < 6 ∧ Contains tok (elementNames.getD i []) = true
    · classical
      let i := Nat.find hex
      have hi : i < 6 ∧ Contains tok (elementNames.getD i []) = true := Nat.find_spec hex
      have hmin : ∀ j, j < i → Contains tok (elementNames.getD j []) = false := by
        intro j hj
        have := Nat.find_min hex hj
        simp only [not_and, Bool.not_eq_true] at this
        exact this (lt_trans hj hi.1)
      refine ⟨i, hi.1, ?_⟩
      intro j hj
      rw [first_case i hi.1 hi.2 hmin]
      simp [List.getD_eq_getElem?_getD, List.getElem?_set, Ne.symm hj]
    · refine ⟨0, by norm_num, ?_⟩
      intro j _
      rw [none_case]
      intro i hi
      by_contra hc
      exact hex ⟨i, hi, by simpa using hc⟩
  · have m : multiplicity ['C', 'H', '4'] = 4 := by decide
    have c0 : Contains ['C', 'H', '4'] ['H'] = true := by decide
    simp [parseToken, fillContents, elementNames, m, c0]

/-! ## The collection: loops, design matrix, caches -/

theorem forLoop_zero {σ : Type} (body : Nat → σ → σ) (s : σ) : forLoop 0 body s = s := rfl

theorem forLoop_succ {σ : Type} (n : Nat) (body : Nat → σ → σ) (s : σ) :
    forLoop (n + 1) body s = body n (forLoop n body s) := by
  simp [forLoop, List.range_succ, List.foldl_append]

theorem TMatrixD.ext_iff3 (A B : TMatrixD) (h1 : A.nrows = B.nrows) (h2 : A.ncols = B.ncols)
    (h3 : ∀ a b, A.elem a b = B.elem a b) : A = B := by
  cases A; cases B
  simp only at h1 h2 h3
  subst h1; subst h2
  have : ‹Nat → Nat → ℚ› = ‹Nat → Nat → ℚ› := rfl
  congr
  funext a b
  exact h3 a b

/-- A loop that assigns `f i` to the entries `(i, col)`, `i < n`. -/
theorem forLoop_set_col (col : Nat) (f : Nat → ℚ) (M : TMatrixD) (n : Nat) :
    forLoop n (fun i X => X.set i col (f i)) M
      = { nrows := M.nrows, ncols := M.ncols,
          elem := fun a b => if b = col ∧ a < n then f a else M.elem a b } := by
  induction n with
  | zero => exact TMatrixD.ext_iff3 _ _ rfl rfl (fun a b => by simp [forLoop_zero])
  | succ n ih =>
    rw [forLoop_succ, ih]
    refine TMatrixD.ext_iff3 _ _ (by rfl) (by rfl) ?_
    intro a b
    simp only [TMatrixD.set]
    by_cases h1 : a = n
    · subst h1; by_cases h2 : b = col <;> simp [h2]
    · by_cases h2 : b = col
      · have : a < n + 1 ↔ a < n := by omega
        simp [h1, h2, this]
      · simp [h1, h2]

/-- The double loop of `Transpose`: entry `(j, i)` receives `g i j` for
`i < n`, `j < m`. -/
theorem forLoop_transpose (g : Nat → Nat → ℚ) (m : Nat) (M : TMatrixD) (n : Nat) :
    forLoop n (fun i Xt => forLoop m (fun j Xt => Xt.set j i (g i j)) Xt) M
      = { nrows := M.nrows, ncols := M.ncols,
          elem := fun a b => if b < n ∧ a < m then g b a else M.elem a b } := by
  induction n with
  | zero => exact TMatrixD.ext_iff3 _ _ rfl rfl (fun a b => by simp [forLoop_zero])
  | succ n ih =>
    rw [forLoop_succ, ih, forLoop_set_col n (fun j => g n j)]
    refine TMatrixD.ext_iff3 _ _ (by rfl) (by rfl) ?_
    intro a b
    simp only
    by_cases h1 : b = n
    · subst h1; by_cases h2 : a < m <;> simp [h2]
    · have : b < n + 1 ↔ b < n := by omega
      simp [h1, this]

/-- The innermost loop of `MatrixMultiply`. -/
theorem forLoop_accumulate (i j : Nat) (F : Nat → ℚ) (M : TMatrixD) (n : Nat) :
    forLoop n (fun k m => m.set i j (m.get i j + F k)) M
      = { nrows := M.nrows, ncols := M.ncols,
          elem := fun a b =>
            if a = i ∧ b = j then M.elem i j + ∑ k in Finset.range n, F k else M.elem a b } := by
  induction n with
  | zero => exact TMatrixD.ext_iff3 _ _ rfl rfl (fun a b => by
      by_cases h : a = i ∧ b = j
      · simp [forLoop_zero, h.1, h.2]
      · simp [forLoop_zero, h])
  | succ n ih =>
    rw [forLoop_succ, ih]
    refine TMatrixD.ext_iff3 _ _ (by rfl) (by rfl) ?_
    intro a b
    simp only [TMatrixD.set, TMatrixD.get]
    by_cases h : a = i ∧ b = j
    · simp [h, Finset.sum_range_succ, add_assoc]
    · simp [h]

/-- The loop over the columns in `MatrixMultiply`. -/
theorem forLoop_accumulate_row (i : Nat) (F : Nat → Nat → ℚ) (c1 : Nat) (M : TMatrixD)
    (n : Nat) :
    forLoop n (fun j m => forLoop c1 (fun k m => m.set i j (m.get i j + F j k)) m) M
      = { nrows := M.nrows, ncols := M.ncols,
          elem := fun a b =>
            if a = i ∧ b < n then M.elem a b + ∑ k in Finset.range c1, F b k
            else M.elem a b } := by
  induction n with
  | zero => exact TMatrixD.ext_iff3 _ _ rfl rfl (fun a b => by simp [forLoop_zero])
  | succ n ih =>
    rw [forLoop_succ, ih, forLoop_accumulate i n (F n)]
    refine TMatrixD.ext_iff3 _ _ (by rfl) (by rfl) ?_
    intro a b
    simp only
    by_cases h1 : a = i
    · subst h1
      by_cases h2 : b = n
      · subst h2; simp
      · have : b < n + 1 ↔ b < n := by omega
        simp [h2, this]
    · simp [h1]

/-- The three nested loops of `MatrixMultiply`. -/
theorem forLoop_accumulate_all (F : Nat → Nat → Nat → ℚ) (c1 c2 : Nat) (M : TMatrixD)
    (n : Nat) :
    forLoop n (fun i m => forLoop c2 (fun j m =>
        forLoop c1 (fun k m => m.set i j (m.get i j + F i j k)) m) m) M
      = { nrows := M.nrows, ncols := M.ncols,
          elem := fun a b =>
            if a < n ∧ b < c2 then M.elem a b + ∑ k in Finset.range c1, F a b k
            else M.elem a b } := by
  induction n with
  | zero => exact TMatrixD.ext_iff3 _ _ rfl rfl (fun a b => by simp [forLoop_zero])
  | succ n ih =>
    rw [forLoop_succ, ih, forLoop_accumulate_row n (F n)]
    refine TMatrixD.ext_iff3 _ _ (by rfl) (by rfl) ?_
    intro a b
    simp only
    by_cases h1 : a = n
    · subst h1; by_cases h2 : b < c2 <;> simp [h2]
    · have : a < n + 1 ↔ a < n := by omega
      simp [h1, this]

/-- `MatrixMultiply(a, b)` is the matrix product: `r1 × c2`, the entry
`(i, j)` being the sum over `k < c1` of `a[i][k] * b[k][j]`. -/
theorem MatrixMultiply_eq (a b : TMatrixD) :
    MatrixMultiply a b
      = { nrows := a.nrows, ncols := b.ncols,
          elem := fun i j =>
            if i < a.nrows ∧ j < b.ncols then
              ∑ k in Finset.range a.ncols, a.elem i k * b.elem k j
            else 0 } := by
  unfold MatrixMultiply
  simp only [TMatrixD.GetNrows, TMatrixD.GetNcols]
  have hinit : forLoop a.nrows (fun i m => forLoop b.ncols (fun j m => m.set i j 0) m)
      (TMatrixD.zeros a.nrows b.ncols) = TMatrixD.zeros a.nrows b.ncols := by
    have h1 : ∀ (i : Nat) (m : TMatrixD), forLoop b.ncols (fun j m => m.set i j 0) m
        = { nrows := m.nrows, ncols := m.ncols,
            elem := fun x y => if x = i ∧ y < b.ncols then 0 else m.elem x y } := by
      intro i m
      induction b.ncols with
      | zero => exact TMatrixD.ext_iff3 _ _ rfl rfl (fun x y => by simp [forLoop_zero])
      | succ n ih =>
        rw [forLoop_succ, ih]
        refine TMatrixD.ext_iff3 _ _ (by rfl) (by rfl) ?_
        intro x y
        simp only [TMatrixD.set]
        by_cases hx : x = i
        · subst hx
          by_cases hy : y = n
          · subst hy; simp
          · have : y < n + 1 ↔ y < n := by omega
            simp [hy, this]
        · simp [hx]
    simp only [h1]
    have h2 : ∀ (n : Nat) (Z : TMatrixD), (∀ x y, Z.elem x y = 0) →
        forLoop n (fun i (m : TMatrixD) => TMatrixD.mk m.nrows m.ncols
          (fun x y => if x = i ∧ y < b.ncols then 0 else m.elem x y)) Z = Z := by
      intro n Z hZ
      induction n with
      | zero => rfl
      | succ n ih =>
        rw [forLoop_succ, ih]
        refine TMatrixD.ext_iff3 _ _ (by rfl) (by rfl) ?_
        intro x y
        simp [hZ]
    exact h2 a.nrows _ (fun _ _ => rfl)
  rw [hinit, forLoop_accumulate_all (fun i j k => a.get i k * b.get k j)]
  refine TMatrixD.ext_iff3 _ _ (by rfl) (by rfl) ?_
  intro x y
  simp [TMatrixD.zeros, TMatrixD.get]

/-- The design matrix after `AddSpectrum`. -/
theorem AddSpectrum_X (c : SpectrumCollection) (a : Spectrum) :
    (c.AddSpectrum a).X
      = { nrows := 50, ncols := c.X.ncols + 1,
          elem := fun i j =>
            if j = c.X.ncols ∧ i < 50 then a.getY.getD i 0
            else if i < c.X.nrows ∧ i < 50 ∧ j < c.X.ncols then c.X.elem i j else 0 } := by
  simp only [SpectrumCollection.AddSpectrum, TMatrixD.GetNcols, forLoop_set_col]
  refine TMatrixD.ext_iff3 _ _ (by rfl) (by rfl) ?_
  intro i j
  simp only [TMatrixD.ResizeTo]
  by_cases h : j = c.X.ncols ∧ i < 50
  · simp [h]
  · simp only [h, if_false]
    by_cases h2 : i < c.X.nrows ∧ i < 50 ∧ j < c.X.ncols
    · have : i < c.X.nrows ∧ i < 50 ∧ j < c.X.ncols ∧ j < c.X.ncols + 1 :=
        ⟨h2.1, h2.2.1, h2.2.2, by omega⟩
      simp [h2, this]
    · have : ¬ (i < c.X.nrows ∧ i < 50 ∧ j < c.X.ncols ∧ j < c.X.ncols + 1) := by
        intro h3; exact h2 ⟨h3.1, h3.2.1, h3.2.2.1⟩
      simp [h2, this]

theorem AddSpectrum_fields (c : SpectrumCollection) (a : Spectrum) :
    (c.AddSpectrum a).gases = c.gases ++ [a] ∧ (c.AddSpectrum a).XtEval = false
      ∧ (c.AddSpectrum a).XtXEval = false ∧ (c.AddSpectrum a).XtXInvEval = false
      ∧ (c.AddSpectrum a).X.nrows = 50 ∧ (c.AddSpectrum a).X.ncols = c.X.ncols + 1 := by
  refine ⟨rfl, rfl, rfl, rfl, ?_, ?_⟩ <;> rw [AddSpectrum_X]

/-- The transpose that `Transpose` stores. -/
theorem Transpose_Xt (c : SpectrumCollection) :
    c.Transpose.Xt
      = { nrows := c.X.ncols, ncols := 50,
          elem := fun j i => if i < 50 ∧ j < c.X.ncols then c.X.elem i j else 0 } := by
  simp only [SpectrumCollection.Transpose, TMatrixD.GetNcols, TMatrixD.get]
  rw [forLoop_transpose (fun i j => c.X.elem i j)]
  refine TMatrixD.ext_iff3 _ _ (by rfl) (by rfl) ?_
  intro j i
  simp only [TMatrixD.ResizeTo]
  by_cases h : i < 50 ∧ j < c.X.ncols
  · simp [h]
  · simp only [h, if_false]
    have : ¬ (j < c.Xt.nrows ∧ j < c.X.ncols ∧ i < c.Xt.ncols ∧ i < 50) := by
      intro h3; exact h ⟨h3.2.2.2, h3.2.1⟩
    simp [this]

theorem Transpose_fields (c : SpectrumCollection) :
    c.Transpose.X = c.X ∧ c.Transpose.XtX = c.XtX ∧ c.Transpose.XtXInv = c.XtXInv
      ∧ c.Transpose.gases = c.gases ∧ c.Transpose.XtEval = true
      ∧ c.Transpose.XtXEval = c.XtXEval ∧ c.Transpose.XtXInvEval = c.XtXInvEval :=
  ⟨rfl, rfl, rfl, rfl, rfl, rfl, rfl⟩

theorem assign_resize (M prod : TMatrixD) :
    (M.ResizeTo prod.nrows prod.ncols).assign prod = prod := by
  simp [TMatrixD.assign, TMatrixD.ResizeTo]

/-- The Gram matrix that `SelfMultiply` stores, the cached transpose (if
there is one) being the transpose of `X`. -/
theorem SelfMultiply_XtX (c : SpectrumCollection) (h : c.XtEval = true → c.Xt = c.Transpose.Xt) :
    c.SelfMultiply.XtX
      = { nrows := c.X.ncols, ncols := c.X.ncols,
          elem := fun i j =>
            if i < c.X.ncols ∧ j < c.X.ncols then
              ∑ k in Finset.range 50, c.X.elem k i * c.X.elem k j
            else 0 }
    ∧ c.SelfMultiply.Xt = c.Transpose.Xt ∧ c.SelfMultiply.X = c.X
    ∧ c.SelfMultiply.XtXInv = c.XtXInv ∧ c.SelfMultiply.gases = c.gases
    ∧ c.SelfMultiply.XtEval = true ∧ c.SelfMultiply.XtXEval = true
    ∧ c.SelfMultiply.XtXInvEval = c.XtXInvEval := by
  have hs1 : (if (!c.XtEval) = true then c.Transpose else c).Xt = c.Transpose.Xt
      ∧ (if (!c.XtEval) = true then c.Transpose else c).X = c.X
      ∧ (if (!c.XtEval) = true then c.Transpose else c).XtXInv = c.XtXInv
      ∧ (if (!c.XtEval) = true then c.Transpose else c).gases = c.gases
      ∧ (if (!c.XtEval) = true then c.Transpose else c).XtEval = true
      ∧ (if (!c.XtEval) = true then c.Transpose else c).XtXInvEval = c.XtXInvEval := by
    cases hx : c.XtEval with
    | true => simp [h hx, hx]
    | false => simp [Transpose_fields]
  obtain ⟨e1, e2, e3, e4, e5, e6⟩ := hs1
  refine ⟨?_, ?_, ?_, ?_, ?_, ?_, ?_, ?_⟩
  · simp only [SpectrumCollection.SelfMultiply, assign_resize, e1, e2]
    rw [MatrixMultiply_eq, Transpose_Xt]
    refine TMatrixD.ext_iff3 _ _ (by rfl) (by rfl) ?_
    intro i j
    by_cases hij : i < c.X.ncols ∧ j < c.X.ncols
    · simp only [hij, and_self, if_true]
      apply Finset.sum_congr rfl
      intro k hk
      simp only [Finset.mem_range] at hk
      simp [hk, hij.1]
    · simp [hij]
  · simp only [SpectrumCollection.SelfMultiply, e1]
  · simp only [SpectrumCollection.SelfMultiply, e2]
  · simp only [SpectrumCollection.SelfMultiply, e3]
  · simp only [SpectrumCollection.SelfMultiply, e4]
  · simp only [SpectrumCollection.SelfMultiply, e5]
  · simp only [SpectrumCollection.SelfMultiply]
  · simp only [SpectrumCollection.SelfMultiply, e6]

theorem getGasNames_eq (c : SpectrumCollection) :
    c.getGasNames = c.gases.map Spectrum.getName := by
  have h : ∀ n, n ≤ c.gases.length →
      forLoop n (fun i names => names ++ [(c.gases.getD i Spectrum.default).getName]) []
        = (c.gases.take n).map Spectrum.getName := by
    intro n
    induction n with
    | zero => intro _; rfl
    | succ n ih =>
      intro hn
      rw [forLoop_succ, ih (by omega)]
      have hlt : n < c.gases.length := by omega
      rw [List.take_succ, List.map_append]
      congr 1
      simp [List.getD_eq_getElem?_getD, List.getElem?_eq_getElem hlt]
  unfold SpectrumCollection.getGasNames
  rw [h _ (le_refl _), List.take_length]

/-- What a sequence of `AddSpectrum` calls builds from the empty collection. -/
theorem foldl_AddSpectrum_spec (rs : List Spectrum) :
    let c := rs.foldl SpectrumCollection.AddSpectrum SpectrumCollection.init
    c.X.ncols = rs.length ∧ (rs ≠ [] → c.X.nrows = 50) ∧ c.gases = rs
      ∧ ∀ i j, i < 50 → ∀ hj : j < rs.length,
          c.X.elem i j = (rs.get ⟨j, hj⟩).getY.getD i 0 := by
  induction rs using List.reverseRecOn with
  | nil =>
    refine ⟨rfl, fun h => absurd rfl h, rfl, ?_⟩
    intro i j _ hj
    simp at hj
  | append_singleton rs a ih =>
    simp only [List.foldl_append, List.foldl_cons, List.foldl_nil]
    obtain ⟨h1, h2, h3, h4⟩ := ih
    set c := rs.foldl SpectrumCollection.AddSpectrum SpectrumCollection.init with hc
    refine ⟨?_, ?_, ?_, ?_⟩
    · rw [(AddSpectrum_fields c a).2.2.2.2.2, h1]; simp
    · intro _; exact (AddSpectrum_fields c a).2.2.2.2.1
    · rw [(AddSpectrum_fields c a).1, h3]
    · intro i j hi hj
      rw [AddSpectrum_X]
      simp only [h1]
      by_cases hjl : j = rs.length
      · subst hjl
        simp [hi]
      · have hj2 : j < rs.length := by
          simp only [List.length_append, List.length_singleton] at hj; omega
        have hne : rs ≠ [] := by
          intro h0; subst h0; simp at hj2
        simp only [hjl, false_and, if_false, h2 hne, hi, hj2, and_self, if_true]
        rw [h4 i j hi hj2]
        simp [List.getElem_append_left hj2]

/-- Claim C6 (design matrix).  After the records `rs` have been added with
`AddSpectrum` to an empty collection, `X` has as many columns as there are
records and (with at least one record) 50 rows; `X[i][j]` is the intensity
of record `j` at position `i` for `i < 50`; a further `AddSpectrum` leaves
these entries as they are; and `getGasNames()` returns the names of the
records in insertion order. -/
theorem design_matrix (rs : List Spectrum) :
    (rs.foldl SpectrumCollection.AddSpectrum SpectrumCollection.init).getX.ncols = rs.length
    ∧ (rs ≠ [] →
        (rs.foldl SpectrumCollection.AddSpectrum SpectrumCollection.init).getX.nrows = 50)
    ∧ (∀ i j, i < 50 → ∀ hj : j < rs.length,
        (rs.foldl SpectrumCollection.AddSpectrum SpectrumCollection.init).getX.elem i j
          = (rs.get ⟨j, hj⟩).relInt.getD i 0)
    ∧ (∀ (a : Spectrum) i j, i < 50 → j < rs.length →
        ((rs.foldl SpectrumCollection.AddSpectrum SpectrumCollection.init).AddSpectrum a).getX.elem
            i j
          = (rs.foldl SpectrumCollection.AddSpectrum SpectrumCollection.init).getX.elem i j)
    ∧ (rs.foldl SpectrumCollection.AddSpectrum SpectrumCollection.init).getGasNames
        = rs.map Spectrum.getName := by
  obtain ⟨h1, h2, h3, h4⟩ := foldl_AddSpectrum_spec rs
  refine ⟨h1, h2, h4, ?_, ?_⟩
  · intro a i j hi hj
    have hne : rs ≠ [] := by intro h0; subst h0; simp at hj
    simp only [SpectrumCollection.getX]
    rw [AddSpectrum_X]
    simp only [h1, h2 hne]
    have hjl : j ≠ rs.length := by omega
    simp [hjl, hi, hj]
  · rw [getGasNames_eq, h3]

/-- Claim C10 (cache invalidation).  For every collection state `c0`, whatever
its cached matrices and flags, after `AddSpectrum` has taken it from `n` to
`n+1` columns, `getXt()` returns the `(n+1) × 50` transpose of the new design
matrix and `getXtX()` the `(n+1) × (n+1)` product `Xᵀ X` of the new design
matrix, whichever of the two accessors is called first. -/
theorem cache_invalidation (c0 : SpectrumCollection) (a : Spectrum) :
    ((c0.AddSpectrum a).getXt.1.nrows = c0.X.ncols + 1
      ∧ (c0.AddSpectrum a).getXt.1.ncols = 50
      ∧ ∀ i j, i < 50 → j < c0.X.ncols + 1 →
          (c0.AddSpectrum a).getXt.1.elem j i = (c0.AddSpectrum a).X.elem i j)
    ∧ ((c0.AddSpectrum a).getXtX.1.nrows = c0.X.ncols + 1
      ∧ (c0.AddSpectrum a).getXtX.1.ncols = c0.X.ncols + 1
      ∧ ∀ i j, i < c0.X.ncols + 1 → j < c0.X.ncols + 1 →
          (c0.AddSpectrum a).getXtX.1.elem i j
            = ∑ k in Finset.range 50,
                (c0.AddSpectrum a).X.elem k i * (c0.AddSpectrum a).X.elem k j)
    ∧ ((c0.AddSpectrum a).getXt.2.getXtX.1 = (c0.AddSpectrum a).getXtX.1)
    ∧ ((c0.AddSpectrum a).getXtX.2.getXt.1 = (c0.AddSpectrum a).getXt.1) := by
  obtain ⟨_, f1, f2, _, f4, f5⟩ := AddSpectrum_fields c0 a
  set c := c0.AddSpectrum a with hc
  have hXt : c.getXt.1 = c.Transpose.Xt := by
    simp [SpectrumCollection.getXt, f1]
  have hXtX := SelfMultiply_XtX c (by rw [f1]; intro h; cases h)
  have hG : c.getXtX.1 = c.SelfMultiply.XtX := by
    simp [SpectrumCollection.getXtX, f2]
  refine ⟨?_, ?_, ?_, ?_⟩
  · rw [hXt, Transpose_Xt]
    refine ⟨f5, rfl, ?_⟩
    intro i j hi hj
    have : j < c.X.ncols := by rw [f5]; exact hj
    simp [hi, this]
  · rw [hG, hXtX.1]
    refine ⟨f5, f5, ?_⟩
    intro i j hi hj
    have h1 : i < c.X.ncols := by rw [f5]; exact hi
    have h2 : j < c.X.ncols := by rw [f5]; exact hj
    simp [h1, h2]
  · have hT := Transpose_fields c
    have e : c.getXt.2 = c.Transpose := by simp [SpectrumCollection.getXt, f1]
    rw [e, hG]
    have hG2 : c.Transpose.getXtX.1 = c.Transpose.SelfMultiply.XtX := by
      simp [SpectrumCollection.getXtX, hT.2.2.2.2.2.1, f2]
    rw [hG2, hXtX.1]
    have hXtX2 := SelfMultiply_XtX c.Transpose (by
      intro _
      rw [Transpose_Xt, Transpose_Xt, hT.1])
    rw [hXtX2.1, hT.1]
  · have e : c.getXtX.2 = c.SelfMultiply := by simp [SpectrumCollection.getXtX, f2]
    rw [e, hXt]
    simp [SpectrumCollection.getXt, hXtX.2.2.2.2.2.1, hXtX.2.1]

/-! ## Least squares -/

open Matrix

/-- The solution of the normal equations minimises the sum of squared residuals. -/
theorem ols_minimises {m n : Nat} (X : Matrix (Fin m) (Fin n) ℚ) (y : Fin m → ℚ)
    (hdet : (Xᵀ * X).det ≠ 0) (cv : Fin n → ℚ) :
    ∑ i, (y i - (X *ᵥ ((Xᵀ * X)⁻¹ *ᵥ (Xᵀ *ᵥ y))) i) ^ 2 ≤ ∑ i, (y i - (X *ᵥ cv) i) ^ 2 := by
  set b := (Xᵀ * X)⁻¹ *ᵥ (Xᵀ *ᵥ y) with hb
  have hunit : IsUnit (Xᵀ * X).det := isUnit_iff_ne_zero.2 hdet
  have hnormal : Xᵀ *ᵥ (y - X *ᵥ b) = 0 := by
    rw [Matrix.mulVec_sub, Matrix.mulVec_mulVec, hb, Matrix.mulVec_mulVec,
      Matrix.mul_nonsing_inv _ hunit, Matrix.one_mulVec, sub_self]
  have hcross : ∑ i, (y i - (X *ᵥ b) i) * (X *ᵥ (b - cv)) i = 0 := by
    have h1 : (y - X *ᵥ b) ⬝ᵥ (X *ᵥ (b - cv)) = 0 := by
      rw [Matrix.dotProduct_mulVec, ← Matrix.mulVec_transpose, hnormal, Matrix.zero_dotProduct]
    simpa [Matrix.dotProduct] using h1
  have hsplit : ∀ i, y i - (X *ᵥ cv) i = (y i - (X *ᵥ b) i) + (X *ᵥ (b - cv)) i := by
    intro i
    rw [Matrix.mulVec_sub]
    simp
  have hexp : ∑ i, (y i - (X *ᵥ cv) i) ^ 2
      = ∑ i, (y i - (X *ᵥ b) i) ^ 2 + ∑ i, ((X *ᵥ (b - cv)) i) ^ 2 := by
    have : ∀ i, (y i - (X *ᵥ cv) i) ^ 2
        = (y i - (X *ᵥ b) i) ^ 2 + 2 * ((y i - (X *ᵥ b) i) * (X *ᵥ (b - cv)) i)
          + ((X *ᵥ (b - cv)) i) ^ 2 := by
      intro i; rw [hsplit i]; ring
    simp only [this, Finset.sum_add_distrib, ← Finset.mul_sum, hcross]
    ring
  rw [hexp]
  have : 0 ≤ ∑ i, ((X *ᵥ (b - cv)) i) ^ 2 := Finset.sum_nonneg (fun i _ => sq_nonneg _)
  linarith

/-- A noise-free combination of the columns is fitted by its own coefficients. -/
theorem ols_roundtrip {m n : Nat} (X : Matrix (Fin m) (Fin n) ℚ) (cv : Fin n → ℚ)
    (hdet : (Xᵀ * X).det ≠ 0) :
    (Xᵀ * X)⁻¹ *ᵥ (Xᵀ *ᵥ (X *ᵥ cv)) = cv := by
  have hunit : IsUnit (Xᵀ * X).det := isUnit_iff_ne_zero.2 hdet
  rw [Matrix.mulVec_mulVec, Matrix.mulVec_mulVec, Matrix.mul_assoc,
    Matrix.nonsing_inv_mul _ hunit, Matrix.one_mulVec]

theorem Invert_mk (P : Platform) (n : Nat) (g : Nat → Nat → ℚ) :
    TMatrixD.Invert P { nrows := n, ncols := n, elem := g }
      = if (Matrix.det (fun (i j : Fin n) => g i j)) = 0 then
          P.singularInvert { nrows := n, ncols := n, elem := g }
        else
          { nrows := n, ncols := n,
            elem := fun i j =>
              if h : i < n ∧ j < n then
                ((Matrix.det (fun (i j : Fin n) => g i j))⁻¹
                  • Matrix.adjugate (fun (i j : Fin n) => g i j)) ⟨i, h.1⟩ ⟨j, h.2⟩
              else 0 } := by
  simp [TMatrixD.Invert]

theorem InvertXtX_cached (P : Platform) (s : SpectrumCollection) (h : s.XtXEval = true) :
    (s.InvertXtX P).XtXInv
        = (s.XtXInv.ResizeTo s.XtX.nrows s.XtX.ncols).assign (s.XtX.Invert P)
      ∧ (s.InvertXtX P).XtX = s.XtX.Invert P
      ∧ (s.InvertXtX P).Xt = s.Xt ∧ (s.InvertXtX P).X = s.X
      ∧ (s.InvertXtX P).gases = s.gases ∧ (s.InvertXtX P).XtEval = s.XtEval
      ∧ (s.InvertXtX P).XtXEval = true ∧ (s.InvertXtX P).XtXInvEval = true := by
  simp [SpectrumCollection.InvertXtX, h]

/-- The Gram matrix stored by `SelfMultiply`, read as a matrix over `Fin`,
is `Xᵀ * X` for the design matrix. -/
theorem gram_eq (c : SpectrumCollection) :
    (fun (i j : Fin c.X.ncols) =>
        (if (i : Nat) < c.X.ncols ∧ (j : Nat) < c.X.ncols then
          ∑ k in Finset.range 50, c.X.elem k i * c.X.elem k j
        else 0 : ℚ))
      = (designMatrix c)ᵀ * designMatrix c := by
  funext i j
  simp only [i.2, j.2, and_self, if_true, Matrix.mul_apply, Matrix.transpose_apply,
    designMatrix]
  rw [Finset.sum_range]

/-- The state in which `Evaluate` multiplies, for a collection without
cached matrices. -/
theorem Evaluate_fresh_state (P : Platform) (c : SpectrumCollection)
    (h1 : c.XtEval = false) (h2 : c.XtXEval = false) (h3 : c.XtXInvEval = false)
    (input : TMatrixD) :
    (c.Evaluate P input false).1
      = MatrixMultiply
          ((c.XtXInv.ResizeTo c.X.ncols c.X.ncols).assign
            (c.Transpose.SelfMultiply.XtX.Invert P))
          (MatrixMultiply c.Transpose.Xt input) := by
  have hT := Transpose_fields c
  have hS := SelfMultiply_XtX c.Transpose (by
    intro _; rw [Transpose_Xt, Transpose_Xt, hT.1])
  have e1 : (if (!c.XtEval) = true then c.Transpose else c) = c.Transpose := by simp [h1]
  have e2 : (if (!c.Transpose.XtXEval) = true then c.Transpose.SelfMultiply else c.Transpose)
      = c.Transpose.SelfMultiply := by simp [hT.2.2.2.2.2.1, h2]
  have e3 : (if (!c.Transpose.SelfMultiply.XtXInvEval) = true
      then c.Transpose.SelfMultiply.InvertXtX P else c.Transpose.SelfMultiply)
      = c.Transpose.SelfMultiply.InvertXtX P := by
    simp [hS.2.2.2.2.2.2.2, hT.2.2.2.2.2.2, h3]
  have hI := InvertXtX_cached P c.Transpose.SelfMultiply hS.2.2.2.2.2.2.1
  simp only [SpectrumCollection.Evaluate, e1, e2, e3, Bool.false_eq_true, if_false]
  rw [hI.1, hI.2.2.1, hS.2.1, hS.2.2.2.1, hT.2.2.1]
  have hd1 : c.Transpose.SelfMultiply.XtX.nrows = c.X.ncols := by rw [hS.1, hT.1]
  have hd2 : c.Transpose.SelfMultiply.XtX.ncols = c.X.ncols := by rw [hS.1, hT.1]
  rw [hd1, hd2]
  have : c.Transpose.Transpose.Xt = c.Transpose.Xt := by
    rw [Transpose_Xt, Transpose_Xt, hT.1]
  rw [this]

/-- `Evaluate` on a collection without cached matrices and with invertible
Gram matrix returns `(XᵀX)⁻¹ Xᵀ y`, column by column. -/
theorem Evaluate_fresh (P : Platform) (c : SpectrumCollection)
    (h1 : c.XtEval = false) (h2 : c.XtXEval = false) (h3 : c.XtXInvEval = false)
    (input : TMatrixD) (hdet : ((designMatrix c)ᵀ * designMatrix c).det ≠ 0) :
    (c.Evaluate P input false).1.nrows = c.X.ncols
    ∧ (c.Evaluate P input false).1.ncols = input.ncols
    ∧ ∀ (i : Fin c.X.ncols) (j : Nat), j < input.ncols →
        (c.Evaluate P input false).1.elem i j
          = (((designMatrix c)ᵀ * designMatrix c)⁻¹
              *ᵥ ((designMatrix c)ᵀ *ᵥ observedColumn input j)) i := by
  have hT := Transpose_fields c
  have hS := SelfMultiply_XtX c.Transpose (by
    intro _; rw [Transpose_Xt, Transpose_Xt, hT.1])
  rw [Evaluate_fresh_state P c h1 h2 h3 input, hS.1, hT.1, Invert_mk, gram_eq, if_neg hdet]
  have hassign : ∀ M : TMatrixD, ((c.XtXInv.ResizeTo c.X.ncols c.X.ncols).assign
      { nrows := c.X.ncols, ncols := c.X.ncols, elem := M.elem })
      = { nrows := c.X.ncols, ncols := c.X.ncols, elem := M.elem } := by
    intro M; simp [TMatrixD.assign, TMatrixD.ResizeTo]
  have := hassign { nrows := 0, ncols := 0, elem := fun i j =>
      if h : i < c.X.ncols ∧ j < c.X.ncols then
        (((designMatrix c)ᵀ * designMatrix c).det⁻¹
          • Matrix.adjugate ((designMatrix c)ᵀ * designMatrix c)) ⟨i, h.1⟩ ⟨j, h.2⟩
      else 0 }
  simp only at this
  rw [this, MatrixMultiply_eq, MatrixMultiply_eq, Transpose_Xt]
  refine ⟨rfl, rfl, ?_⟩
  intro i j hj
  have hinv : ((designMatrix c)ᵀ * designMatrix c)⁻¹
      = ((designMatrix c)ᵀ * designMatrix c).det⁻¹
          • Matrix.adjugate ((designMatrix c)ᵀ * designMatrix c) := by
    rw [Matrix.inv_def, Ring.inverse_eq_inv']
  simp only [i.2, hj, and_self, if_true, Finset.sum_range, Matrix.mulVec, Matrix.dotProduct,
    hinv]
  apply Finset.sum_congr rfl
  intro k _
  have hk : (k : Nat) < c.X.ncols := k.2
  simp only [hk, i.2, and_self, dite_true, Fin.eta, Matrix.transpose_apply, designMatrix,
    observedColumn, if_true]
  congr 1

/-- Claim C7 (least squares).  For a collection right after `AddSpectrum`
whose Gram matrix `XᵀX` has non-zero determinant and an observed matrix `y`
with 50 rows and one column, `Evaluate(y)` returns the column
`b = (XᵀX)⁻¹ Xᵀ y`, one row per reference spectrum, and the returned
coefficients minimise the sum of squared residuals: for every coefficient
vector `cv`, `|y - X b|² ≤ |y - X cv|²`. -/
theorem least_squares (P : Platform) (c0 : SpectrumCollection) (a : Spectrum) (y : TMatrixD)
    (hy : y.nrows = 50 ∧ y.ncols = 1)
    (hG : ((designMatrix (c0.AddSpectrum a))ᵀ * designMatrix (c0.AddSpectrum a)).det ≠ 0) :
    ((c0.AddSpectrum a).Evaluate P y false).1.nrows = (c0.AddSpectrum a).X.ncols
    ∧ ((c0.AddSpectrum a).Evaluate P y false).1.ncols = 1
    ∧ (∀ j : Fin (c0.AddSpectrum a).X.ncols,
        ((c0.AddSpectrum a).Evaluate P y false).1.elem j 0
          = (((designMatrix (c0.AddSpectrum a))ᵀ * designMatrix (c0.AddSpectrum a))⁻¹
              *ᵥ ((designMatrix (c0.AddSpectrum a))ᵀ *ᵥ observedColumn y 0)) j)
    ∧ ∀ cv : Fin (c0.AddSpectrum a).X.ncols → ℚ,
        ∑ i, (observedColumn y 0 i
            - (designMatrix (c0.AddSpectrum a)
                *ᵥ (fun j => ((c0.AddSpectrum a).Evaluate P y false).1.elem j 0)) i) ^ 2
          ≤ ∑ i, (observedColumn y 0 i - (designMatrix (c0.AddSpectrum a) *ᵥ cv) i) ^ 2 := by
  obtain ⟨_, f1, f2, f3, _, _⟩ := AddSpectrum_fields c0 a
  obtain ⟨e1, e2, e3⟩ := Evaluate_fresh P (c0.AddSpectrum a) f1 f2 f3 y hG
  refine ⟨e1, by rw [e2, hy.2], fun j => e3 j 0 (by rw [hy.2]; norm_num), ?_⟩
  intro cv
  have hb : (fun j : Fin (c0.AddSpectrum a).X.ncols =>
      ((c0.AddSpectrum a).Evaluate P y false).1.elem j 0)
      = ((designMatrix (c0.AddSpectrum a))ᵀ * designMatrix (c0.AddSpectrum a))⁻¹
          *ᵥ ((designMatrix (c0.AddSpectrum a))ᵀ *ᵥ observedColumn y 0) := by
    funext j
    exact e3 j 0 (by rw [hy.2]; norm_num)
  rw [hb]
  exact ols_minimises _ _ hG cv

/-- Claim C8 (fit round trip).  For a collection right after `AddSpectrum`
whose Gram matrix has non-zero determinant, every coefficient vector `cv`
and the observed column `y = X cv`, `Evaluate(y)` returns exactly `cv`. -/
theorem fit_roundtrip (P : Platform) (c0 : SpectrumCollection) (a : Spectrum)
    (cv : Fin (c0.AddSpectrum a).X.ncols → ℚ) (y : TMatrixD)
    (hy : y.nrows = 50 ∧ y.ncols = 1)
    (hobs : ∀ i : Fin 50, y.elem i 0 = (designMatrix (c0.AddSpectrum a) *ᵥ cv) i)
    (hG : ((designMatrix (c0.AddSpectrum a))ᵀ * designMatrix (c0.AddSpectrum a)).det ≠ 0) :
    ((c0.AddSpectrum a).Evaluate P y false).1.nrows = (c0.AddSpectrum a).X.ncols
    ∧ ((c0.AddSpectrum a).Evaluate P y false).1.ncols = 1
    ∧ ∀ j : Fin (c0.AddSpectrum a).X.ncols,
        ((c0.AddSpectrum a).Evaluate P y false).1.elem j 0 = cv j := by
  obtain ⟨_, f1, f2, f3, _, _⟩ := AddSpectrum_fields c0 a
  obtain ⟨e1, e2, e3⟩ := Evaluate_fresh P (c0.AddSpectrum a) f1 f2 f3 y hG
  refine ⟨e1, by rw [e2, hy.2], ?_⟩
  intro j
  rw [e3 j 0 (by rw [hy.2]; norm_num)]
  have hcol : observedColumn y 0 = designMatrix (c0.AddSpectrum a) *ᵥ cv := by
    funext i; exact hobs i
  rw [hcol, ols_roundtrip _ cv hG]

theorem assign_dims (dst src : TMatrixD) :
    (dst.assign src).nrows = dst.nrows ∧ (dst.assign src).ncols = dst.ncols := by
  unfold TMatrixD.assign
  split
  · rename_i h; exact ⟨h.1.symm, h.2.symm⟩
  · exact ⟨rfl, rfl⟩

theorem evaluateError_dims (P : Platform) (s : SpectrumCollection) (input soln : TMatrixD) :
    (evaluateError P s input soln).nrows = soln.nrows
      ∧ (evaluateError P s input soln).ncols = 2 := by
  simp only [evaluateError, TMatrixD.GetNrows, forLoop_set_col]
  exact ⟨rfl, rfl⟩

/-- Claim C9 as amended (singular case).  `Evaluate` has no failure path: for
every collection right after `AddSpectrum`, whatever `TMatrixD::Invert`
leaves for a singular Gram matrix, `Evaluate(y)` returns a matrix with one
row per reference spectrum, with the columns of `y` without the error
estimate and with two columns with it. -/
theorem evaluate_total (P : Platform) (c0 : SpectrumCollection) (a : Spectrum) (y : TMatrixD) :
    (((c0.AddSpectrum a).Evaluate P y false).1.nrows = c0.X.ncols + 1
      ∧ ((c0.AddSpectrum a).Evaluate P y false).1.ncols = y.ncols)
    ∧ (((c0.AddSpectrum a).Evaluate P y true).1.nrows = c0.X.ncols + 1
      ∧ ((c0.AddSpectrum a).Evaluate P y true).1.ncols = 2) := by
  obtain ⟨_, f1, f2, f3, _, f5⟩ := AddSpectrum_fields c0 a
  have h := Evaluate_fresh_state P (c0.AddSpectrum a) f1 f2 f3 y
  have hfalse : ((c0.AddSpectrum a).Evaluate P y false).1.nrows = c0.X.ncols + 1
      ∧ ((c0.AddSpectrum a).Evaluate P y false).1.ncols = y.ncols := by
    rw [h, MatrixMultiply_eq, MatrixMultiply_eq]
    simp only [(assign_dims _ _).1, TMatrixD.ResizeTo, f5, and_self]
  refine ⟨hfalse, ?_⟩
  have htrue : ∀ s : SpectrumCollection,
      ((c0.AddSpectrum a).Evaluate P y true).1
        = evaluateError P ((c0.AddSpectrum a).Evaluate P y true).2
            y ((c0.AddSpectrum a).Evaluate P y false).1 := by
    intro _
    simp [SpectrumCollection.Evaluate]
  rw [htrue SpectrumCollection.init]
  exact ⟨by rw [(evaluateError_dims _ _ _ _).1, hfalse.1], (evaluateError_dims _ _ _ _).2⟩

theorem unitSpectrum_getY (i : Nat) (h : i < 50) : unitSpectrum.getY.getD i 0 = 1 := by
  have : i < nMassSpecEntries := by simp only [nMassSpecEntries]; omega
  simp [unitSpectrum, Spectrum.getY, List.getD_eq_getElem?_getD, List.getElem?_replicate, this]

theorem unit_collection_X :
    (SpectrumCollection.init.AddSpectrum unitSpectrum).X.ncols = 1
      ∧ ∀ i, i < 50 → (SpectrumCollection.init.AddSpectrum unitSpectrum).X.elem i 0 = 1 := by
  obtain ⟨h1, _, _, h4⟩ := foldl_AddSpectrum_spec [unitSpectrum]
  refine ⟨h1, ?_⟩
  intro i hi
  exact (h4 i 0 hi (by simp)).trans (unitSpectrum_getY i hi)

theorem sum_fin_one (n : Nat) (h : n = 1) (g : Fin n → ℚ) :
    ∑ j, g j = g ⟨0, by omega⟩ := by
  subst h
  simp

theorem gram_det_one_column (n : Nat) (h : n = 1) (X : Matrix (Fin 50) (Fin n) ℚ) :
    (Xᵀ * X).det = ∑ k : Fin 50, X k ⟨0, by omega⟩ * X k ⟨0, by omega⟩ := by
  subst h
  rw [Matrix.det_fin_one]
  simp [Matrix.mul_apply]

/-- The Gram matrix of the collection holding `unitSpectrum` alone is invertible. -/
theorem unit_gram_det :
    ((designMatrix (SpectrumCollection.init.AddSpectrum unitSpectrum))ᵀ
      * designMatrix (SpectrumCollection.init.AddSpectrum unitSpectrum)).det ≠ 0 := by
  rw [gram_det_one_column _ unit_collection_X.1]
  have : ∀ k : Fin 50,
      designMatrix (SpectrumCollection.init.AddSpectrum unitSpectrum) k
          ⟨0, by rw [unit_collection_X.1]; norm_num⟩
        * designMatrix (SpectrumCollection.init.AddSpectrum unitSpectrum) k
          ⟨0, by rw [unit_collection_X.1]; norm_num⟩ = 1 := by
    intro k
    simp only [designMatrix]
    rw [unit_collection_X.2 k k.2]
    norm_num
  simp only [this]
  simp

theorem least_squares_witness :
    ((SpectrumCollection.init.AddSpectrum unitSpectrum).Evaluate examplePlatform
        (TMatrixD.mk 50 1 (fun _ _ => 2)) false).1.nrows
      = (SpectrumCollection.init.AddSpectrum unitSpectrum).X.ncols :=
  (least_squares examplePlatform SpectrumCollection.init unitSpectrum
    (TMatrixD.mk 50 1 (fun _ _ => 2)) ⟨rfl, rfl⟩ unit_gram_det).1

theorem fit_roundtrip_witness :
    ((SpectrumCollection.init.AddSpectrum unitSpectrum).Evaluate examplePlatform
        (TMatrixD.mk 50 1 (fun _ _ => 2)) false).1.elem 0 0 = 2 :=
  (fit_roundtrip examplePlatform SpectrumCollection.init unitSpectrum (fun _ => 2)
    (TMatrixD.mk 50 1 (fun _ _ => 2)) ⟨rfl, rfl⟩
    (fun i => by
      simp only [Matrix.mulVec, Matrix.dotProduct]
      rw [sum_fin_one _ unit_collection_X.1]
      simp only [designMatrix]
      rw [unit_collection_X.2 i i.2]
      norm_num)
    unit_gram_det).2.2 ⟨0, by rw [unit_collection_X.1]; norm_num⟩

theorem gram_det_equal_columns (n : Nat) (X : Matrix (Fin 50) (Fin n) ℚ) (j1 j2 : Fin n)
    (hne : j1 ≠ j2) (heq : ∀ k : Fin 50, X k j1 = X k j2) : (Xᵀ * X).det = 0 := by
  apply Matrix.det_zero_of_column_eq hne
  intro k
  simp only [Matrix.mul_apply, Matrix.transpose_apply]
  apply Finset.sum_congr rfl
  intro l _
  rw [heq l]

/-- Claim C9 fails as stated: after the same reference spectrum has been added
twice the Gram matrix has determinant 0, and `Evaluate` still returns a
matrix of two rows for every observed matrix, on every platform. -/
theorem singular_case_counterexample :
    ((designMatrix ((SpectrumCollection.init.AddSpectrum unitSpectrum).AddSpectrum unitSpectrum))ᵀ
        * designMatrix
            ((SpectrumCollection.init.AddSpectrum unitSpectrum).AddSpectrum unitSpectrum)).det = 0
    ∧ ∀ (P : Platform) (y : TMatrixD),
        (((SpectrumCollection.init.AddSpectrum unitSpectrum).AddSpectrum unitSpectrum).Evaluate
            P y false).1.nrows = 2
        ∧ (((SpectrumCollection.init.AddSpectrum unitSpectrum).AddSpectrum unitSpectrum).Evaluate
            P y false).1.ncols = y.ncols := by
  obtain ⟨h1, _, _, h4⟩ := foldl_AddSpectrum_spec [unitSpectrum, unitSpectrum]
  simp only [List.foldl_cons, List.foldl_nil, List.length_cons, List.length_nil] at h1 h4
  constructor
  · apply gram_det_equal_columns _ _ ⟨0, by rw [h1]; norm_num⟩ ⟨1, by rw [h1]; norm_num⟩
    · intro h; exact absurd (Fin.mk.inj h) (by norm_num)
    · intro k
      simp only [designMatrix]
      rw [h4 k 0 k.2 (by norm_num), h4 k 1 k.2 (by norm_num)]
      rfl
  · intro P y
    obtain ⟨_, f1, f2, f3, _, f5⟩ := AddSpectrum_fields
      (SpectrumCollection.init.AddSpectrum unitSpectrum) unitSpectrum
    have h := Evaluate_fresh_state P
      ((SpectrumCollection.init.AddSpectrum unitSpectrum).AddSpectrum unitSpectrum) f1 f2 f3 y
    rw [h, MatrixMultiply_eq, MatrixMultiply_eq]
    simp only [(assign_dims _ _).1, TMatrixD.ResizeTo, h1, and_self]

/-! ## `Evaluate` twice, and the intensity query -/

theorem SelfMultiply_flags (c : SpectrumCollection) :
    c.SelfMultiply.XtEval = true ∧ c.SelfMultiply.XtXEval = true
      ∧ c.SelfMultiply.XtXInvEval = c.XtXInvEval ∧ c.SelfMultiply.X = c.X
      ∧ c.SelfMultiply.gases = c.gases := by
  cases h : c.XtEval <;> simp [SpectrumCollection.SelfMultiply, SpectrumCollection.Transpose, h]

theorem InvertXtX_flags (P : Platform) (c : SpectrumCollection) (h : c.XtEval = true) :
    (c.InvertXtX P).XtEval = true ∧ (c.InvertXtX P).XtXEval = true
      ∧ (c.InvertXtX P).XtXInvEval = true ∧ (c.InvertXtX P).X = c.X
      ∧ (c.InvertXtX P).gases = c.gases := by
  cases h2 : c.XtXEval
  · have := SelfMultiply_flags c
    simp [SpectrumCollection.InvertXtX, h2, this]
  · simp [SpectrumCollection.InvertXtX, h2, h]

/-- The state `Evaluate` leaves does not depend on `withError`, all its
cache flags are set, and the returned matrix is computed from that state. -/
theorem Evaluate_state (P : Platform) (c : SpectrumCollection) (y : TMatrixD) (w : Bool) :
    (c.Evaluate P y w).2 = (c.Evaluate P y false).2
    ∧ (c.Evaluate P y false).2.XtEval = true
    ∧ (c.Evaluate P y false).2.XtXEval = true
    ∧ (c.Evaluate P y false).2.XtXInvEval = true
    ∧ (c.Evaluate P y false).2.X = c.X
    ∧ (c.Evaluate P y false).2.gases = c.gases
    ∧ (c.Evaluate P y false).1
        = MatrixMultiply (c.Evaluate P y false).2.XtXInv
            (MatrixMultiply (c.Evaluate P y false).2.Xt y)
    ∧ (c.Evaluate P y true).1
        = evaluateError P (c.Evaluate P y false).2 y (c.Evaluate P y false).1 := by
  have hw : (c.Evaluate P y w).2 = (c.Evaluate P y false).2 := by
    cases w <;> simp [SpectrumCollection.Evaluate]
  refine ⟨hw, ?_⟩
  have key : ∀ s1 : SpectrumCollection, s1.XtEval = true → s1.X = c.X → s1.gases = c.gases →
      ∀ s2 : SpectrumCollection, s2 = (if (!s1.XtXEval) = true then s1.SelfMultiply else s1) →
      s2.XtEval = true ∧ s2.XtXEval = true ∧ s2.X = c.X ∧ s2.gases = c.gases := by
    intro s1 h1 hX hg s2 hs2
    cases h2 : s1.XtXEval
    · have := SelfMultiply_flags s1
      simp only [h2, Bool.not_false, if_true] at hs2
      rw [hs2]
      exact ⟨this.1, this.2.1, by rw [this.2.2.2.1, hX], by rw [this.2.2.2.2, hg]⟩
    · simp only [h2, Bool.not_true, Bool.false_eq_true, if_false] at hs2
      rw [hs2]
      exact ⟨h1, h2, hX, hg⟩
  have h1 : (if (!c.XtEval) = true then c.Transpose else c).XtEval = true
      ∧ (if (!c.XtEval) = true then c.Transpose else c).X = c.X
      ∧ (if (!c.XtEval) = true then c.Transpose else c).gases = c.gases := by
    cases h : c.XtEval <;> simp [SpectrumCollection.Transpose, h]
  obtain ⟨a1, a2, a3, a4⟩ := key _ h1.1 h1.2.1 h1.2.2 _ rfl
  set s2 := (if (!(if (!c.XtEval) = true then c.Transpose else c).XtXEval) = true
    then (if (!c.XtEval) = true then c.Transpose else c).SelfMultiply
    else (if (!c.XtEval) = true then c.Transpose else c)) with hs2
  have h3 : (if (!s2.XtXInvEval) = true then s2.InvertXtX P else s2).XtEval = true
      ∧ (if (!s2.XtXInvEval) = true then s2.InvertXtX P else s2).XtXEval = true
      ∧ (if (!s2.XtXInvEval) = true then s2.InvertXtX P else s2).XtXInvEval = true
      ∧ (if (!s2.XtXInvEval) = true then s2.InvertXtX P else s2).X = c.X
      ∧ (if (!s2.XtXInvEval) = true then s2.InvertXtX P else s2).gases = c.gases := by
    cases h : s2.XtXInvEval
    · have := InvertXtX_flags P s2 a1
      simp only [Bool.not_false, if_true]
      exact ⟨this.1, this.2.1, this.2.2.1, by rw [this.2.2.2.1, a3], by rw [this.2.2.2.2, a4]⟩
    · simp only [Bool.not_true, Bool.false_eq_true, if_false]
      exact ⟨a1, a2, h, a3, a4⟩
  have e2 : (c.Evaluate P y false).2 = (if (!s2.XtXInvEval) = true then s2.InvertXtX P else s2) := by
    simp [SpectrumCollection.Evaluate, hs2]
  rw [e2]
  refine ⟨h3.1, h3.2.1, h3.2.2.1, h3.2.2.2.1, h3.2.2.2.2, ?_, ?_⟩
  · simp [SpectrumCollection.Evaluate, hs2]
  · simp [SpectrumCollection.Evaluate, hs2]

/-- `Evaluate` on a state whose three cache flags are set changes nothing
and multiplies the cached matrices. -/
theorem Evaluate_cached (P : Platform) (s : SpectrumCollection) (y : TMatrixD)
    (h1 : s.XtEval = true) (h2 : s.XtXEval = true) (h3 : s.XtXInvEval = true) :
    (s.Evaluate P y false).2 = s
      ∧ (s.Evaluate P y false).1 = MatrixMultiply s.XtXInv (MatrixMultiply s.Xt y) := by
  simp [SpectrumCollection.Evaluate, h1, h2, h3]

/-- Claim C12 (idempotence of `Evaluate`).  For every collection state, every
platform and every observed matrix, a second call of `Evaluate` right after
the first returns the same matrix and leaves the state as the first call left
it; after the first call the three cache flags are set, so the second call
computes no transpose, product or inverse again. -/
theorem evaluate_idempotent (P : Platform) (c : SpectrumCollection) (y : TMatrixD) :
    ((c.Evaluate P y false).2.Evaluate P y false).1 = (c.Evaluate P y false).1
    ∧ ((c.Evaluate P y false).2.Evaluate P y false).2 = (c.Evaluate P y false).2
    ∧ (c.Evaluate P y false).2.XtEval = true
    ∧ (c.Evaluate P y false).2.XtXEval = true
    ∧ (c.Evaluate P y false).2.XtXInvEval = true := by
  obtain ⟨_, f1, f2, f3, _, _, hres, _⟩ := Evaluate_state P c y false
  obtain ⟨g1, g2⟩ := Evaluate_cached P (c.Evaluate P y false).2 y f1 f2 f3
  exact ⟨by rw [g2, ← hres], g1, f1, f2, f3⟩

/-- Claim C14 (bounds-checked intensity query).  For every record and every
integer `mz`, `getRelativeIntensity(mz)` is -1 when `mz < 1` or `mz > 50`, so
for 0 and for 51, and it is the entry `mz - 1` of the intensity vector when
`1 ≤ mz ≤ 50`, a position inside a vector of `nMassSpecEntries` entries. -/
theorem bounds_checked_query (self : Spectrum) (mz : Int) :
    ((mz < 1 ∨ mz > 50) → self.getRelativeIntensity mz = -1)
    ∧ ((1 ≤ mz ∧ mz ≤ 50) →
        self.getRelativeIntensity mz = self.relInt.getD (mz - 1).toNat 0
          ∧ (self.relInt.length = nMassSpecEntries → (mz - 1).toNat < self.relInt.length))
    ∧ self.getRelativeIntensity 0 = -1
    ∧ self.getRelativeIntensity 51 = -1 := by
  refine ⟨?_, ?_, ?_, ?_⟩
  · intro h
    simp [Spectrum.getRelativeIntensity, h]
  · intro h
    have hn : ¬ (mz < 1 ∨ mz > 50) := by omega
    refine ⟨by simp [Spectrum.getRelativeIntensity, hn], ?_⟩
    intro hl
    rw [hl]
    simp only [nMassSpecEntries]
    omega
  · simp [Spectrum.getRelativeIntensity]
  · simp [Spectrum.getRelativeIntensity]

/-! ## `getXtX()` after `Evaluate` -/

/-- The state `Evaluate` leaves for a collection without cached matrices. -/
theorem Evaluate_fresh_final (P : Platform) (c : SpectrumCollection)
    (h1 : c.XtEval = false) (h2 : c.XtXEval = false) (h3 : c.XtXInvEval = false)
    (input : TMatrixD) :
    (c.Evaluate P input false).2 = c.Transpose.SelfMultiply.InvertXtX P := by
  have hT := Transpose_fields c
  have hS := SelfMultiply_XtX c.Transpose (by
    intro _; rw [Transpose_Xt, Transpose_Xt, hT.1])
  have e1 : (if (!c.XtEval) = true then c.Transpose else c) = c.Transpose := by simp [h1]
  have e2 : (if (!c.Transpose.XtXEval) = true then c.Transpose.SelfMultiply else c.Transpose)
      = c.Transpose.SelfMultiply := by simp [hT.2.2.2.2.2.1, h2]
  have e3 : (if (!c.Transpose.SelfMultiply.XtXInvEval) = true
      then c.Transpose.SelfMultiply.InvertXtX P else c.Transpose.SelfMultiply)
      = c.Transpose.SelfMultiply.InvertXtX P := by
    simp [hS.2.2.2.2.2.2.2, hT.2.2.2.2.2.2, h3]
  simp only [SpectrumCollection.Evaluate, e1, e2, e3, Bool.false_eq_true, if_false]

/-- After `Evaluate` on a collection without cached matrices and with
invertible Gram matrix, the member `XtX` holds the inverse of the Gram matrix
and `getXtX()` returns it. -/
theorem getXtX_after_Evaluate (P : Platform) (c : SpectrumCollection)
    (h1 : c.XtEval = false) (h2 : c.XtXEval = false) (h3 : c.XtXInvEval = false)
    (input : TMatrixD) (hdet : ((designMatrix c)ᵀ * designMatrix c).det ≠ 0) :
    ∀ i j : Fin c.X.ncols,
      (c.Evaluate P input false).2.getXtX.1.elem i j
        = ((designMatrix c)ᵀ * designMatrix c)⁻¹ i j := by
  obtain ⟨_, _, f2, _, _, _, _, _⟩ := Evaluate_state P c input false
  have hget : (c.Evaluate P input false).2.getXtX.1 = (c.Evaluate P input false).2.XtX := by
    simp [SpectrumCollection.getXtX, f2]
  have hT := Transpose_fields c
  have hS := SelfMultiply_XtX c.Transpose (by
    intro _; rw [Transpose_Xt, Transpose_Xt, hT.1])
  have hI := InvertXtX_cached P c.Transpose.SelfMultiply hS.2.2.2.2.2.2.1
  rw [hget, Evaluate_fresh_final P c h1 h2 h3 input, hI.2.1, hS.1, hT.1, Invert_mk, gram_eq,
    if_neg hdet]
  intro i j
  have hinv : ((designMatrix c)ᵀ * designMatrix c)⁻¹
      = ((designMatrix c)ᵀ * designMatrix c).det⁻¹
          • Matrix.adjugate ((designMatrix c)ᵀ * designMatrix c) := by
    rw [Matrix.inv_def, Ring.inverse_eq_inv']
  simp only [i.2, j.2, and_self, dite_true, Fin.eta, hinv]

theorem inv_one_by_one (n : Nat) (h : n = 1) (A : Matrix (Fin n) (Fin n) ℚ) :
    A⁻¹ ⟨0, by omega⟩ ⟨0, by omega⟩ = (A ⟨0, by omega⟩ ⟨0, by omega⟩)⁻¹ := by
  subst h
  rw [Matrix.inv_def, Ring.inverse_eq_inv']
  simp [Matrix.det_fin_one, Matrix.adjugate_fin_one]

theorem gram_one_column (n : Nat) (h : n = 1) (X : Matrix (Fin 50) (Fin n) ℚ) :
    (Xᵀ * X) ⟨0, by omega⟩ ⟨0, by omega⟩
      = ∑ k : Fin 50, X k ⟨0, by omega⟩ * X k ⟨0, by omega⟩ := by
  subst h
  simp [Matrix.mul_apply]

theorem unit_gram_entry :
    ((designMatrix (SpectrumCollection.init.AddSpectrum unitSpectrum))ᵀ
      * designMatrix (SpectrumCollection.init.AddSpectrum unitSpectrum))
        ⟨0, by rw [unit_collection_X.1]; norm_num⟩ ⟨0, by rw [unit_collection_X.1]; norm_num⟩
      = 50 := by
  rw [gram_one_column _ unit_collection_X.1]
  have : ∀ k : Fin 50,
      designMatrix (SpectrumCollection.init.AddSpectrum unitSpectrum) k
          ⟨0, by rw [unit_collection_X.1]; norm_num⟩
        * designMatrix (SpectrumCollection.init.AddSpectrum unitSpectrum) k
          ⟨0, by rw [unit_collection_X.1]; norm_num⟩ = 1 := by
    intro k
    simp only [designMatrix]
    rw [unit_collection_X.2 k k.2]
    norm_num
  simp only [this]
  simp

/-- Claim C11 (the Gram accessor after `Evaluate`) does not hold for the code.
For the collection that holds the all-ones spectrum, `getXtX()` returns the
1 x 1 matrix (50) before `Evaluate`; after `Evaluate`, on every platform and
for every observed matrix, it returns (1/50), the inverse, although the
design matrix is the same: `InvertXtX` inverts the member `XtX` in place and
leaves `XtXEval` set. -/
theorem gram_accessor_after_evaluate :
    (SpectrumCollection.init.AddSpectrum unitSpectrum).getXtX.1.elem 0 0 = 50
    ∧ ∀ (P : Platform) (y : TMatrixD),
        ((SpectrumCollection.init.AddSpectrum unitSpectrum).Evaluate P y false).2.getXtX.1.elem
          0 0 = 1 / 50
        ∧ ((SpectrumCollection.init.AddSpectrum unitSpectrum).Evaluate P y false).2.X
          = (SpectrumCollection.init.AddSpectrum unitSpectrum).X := by
  obtain ⟨_, f1, f2, f3, _, f5⟩ := AddSpectrum_fields SpectrumCollection.init unitSpectrum
  have hn := unit_collection_X.1
  constructor
  · have hG : (SpectrumCollection.init.AddSpectrum unitSpectrum).getXtX.1
        = (SpectrumCollection.init.AddSpectrum unitSpectrum).SelfMultiply.XtX := by
      simp [SpectrumCollection.getXtX, f2]
    rw [hG, (SelfMultiply_XtX _ (by rw [f1]; intro h; cases h)).1]
    simp only [hn, Nat.lt_one_iff, and_self, if_true]
    have := unit_gram_entry
    rw [gram_one_column _ hn] at this
    rw [Finset.sum_range]
    simpa [designMatrix] using this
  · intro P y
    refine ⟨?_, (Evaluate_state P _ y false).2.2.2.2.1⟩
    have h := getXtX_after_Evaluate P _ f1 f2 f3 y unit_gram_det
      ⟨0, by rw [hn]; norm_num⟩ ⟨0, by rw [hn]; norm_num⟩
    rw [inv_one_by_one _ hn, unit_gram_entry] at h
    simpa using h

/-! ## Streams that end inside the formula or the peak table -/

theorem read_cons_any (t : TString) (rest : List TString) (tw b : Bool) :
    (IFStream.mk (t :: rest) tw true b).read
      = (t, IFStream.mk rest tw true (b || (rest.isEmpty && !tw))) := by
  cases rest <;> simp [IFStream.read]

/-- The formula loop never returns on a stream without a token containing `#`. -/
theorem formulaLoop_no_hash : ∀ (fuel : Nat) (ts : List TString) (tw b : Bool) (e : TString),
    ts.all (fun t => !Contains t ['#']) = true →
    formulaLoop fuel (IFStream.mk ts tw true b) e = Outcome.timeout := by
  intro fuel
  induction fuel with
  | zero => intro ts tw b e _; rfl
  | succ k ih =>
    intro ts tw b e hts
    cases ts with
    | nil =>
      have h0 : Contains [] ['#'] = false := by decide
      simp only [formulaLoop, read_nil, h0, Bool.false_eq_true, if_false]
      exact ih [] tw true _ (by simp)
    | cons t rest =>
      simp only [List.all_cons, Bool.and_eq_true, Bool.not_eq_true'] at hts
      simp only [formulaLoop, read_cons_any, hts.1, Bool.false_eq_true, if_false]
      exact ih rest tw _ _ hts.2

theorem tokenizeAll_nil (d : Char) : tokenizeAll [] d = [] := by
  simp [tokenizeAll, tokensFrom, Tokenize]

theorem peakToken_nil (rel : List ℚ) : peakToken [] rel = Outcome.ok rel := by
  simp [peakToken, tokenizeAll_nil, peakParts, Outcome.bind]

/-- The peak-table loop never returns on a stream without the token `##END=`
(the peak tokens storing inside the vector): it uses up any fuel. -/
theorem tableLoop_no_end (len : Nat) : ∀ (fuel : Nat) (peaks : List TString) (tw b : Bool)
    (rel : List ℚ),
    peaks.all (fun p => decide (p ≠ endTag) && peakInRange len p) = true → rel.length = len →
    tableLoop fuel (IFStream.mk peaks tw true b) rel = Outcome.timeout := by
  intro fuel
  induction fuel with
  | zero => intro peaks tw b rel _ _; rfl
  | succ k ih =>
    intro peaks tw b rel hp hl
    cases peaks with
    | nil =>
      have h0 : ([] : TString) ≠ endTag := by decide
      simp only [tableLoop, read_nil, if_neg h0, peakToken_nil, Outcome.bind]
      exact ih [] tw true rel (by simp) hl
    | cons p rest =>
      simp only [List.all_cons, Bool.and_eq_true, decide_eq_true_eq] at hp
      obtain ⟨h1, h2⟩ := applyPeak_of_inRange hp.1.2 rel hl
      simp only [tableLoop, read_cons_any, if_neg hp.1.1, h1, Outcome.bind]
      exact ih rest tw _ _ hp.2 h2

set_option maxRecDepth 100000 in
theorem one_peak_inRange :
    (["1,5".toList].all fun p => decide (p ≠ endTag) && peakInRange 51 p) = true := by
  decide

/-- Claim C17 (parser termination) does not hold for the code.  On a stream
that ends while the formula is collected (a marker token followed by tokens
without `#`) and on a stream that ends inside the peak table (no `##END=`),
`readFile` returns for no amount of fuel: the inner loops keep reading the
empty word at end of file, which the outer loop alone tests.  Examples: the
files `##MOLFORM=C O2` and `TABLE=(XY..XY) 1,5`. -/
theorem parser_nontermination :
    (∀ (m : TString) (ts : List TString) (tw : Bool) (self : Spectrum) (fuel : Nat),
        Contains m molformTag = true → ts.all (fun t => !Contains t ['#']) = true →
        Spectrum.readFile fuel (IFStream.ofFile (m :: ts) tw) self = Outcome.timeout)
    ∧ (∀ (peaks : List TString) (tw : Bool) (self : Spectrum) (fuel : Nat),
        peaks.all (fun p => decide (p ≠ endTag) && peakInRange self.relInt.length p) = true →
        Spectrum.readFile fuel (IFStream.ofFile (tableTag :: peaks) tw) self
          = Outcome.timeout)
    ∧ (∀ (tw : Bool) (file : TString) (fuel : Nat),
        (Spectrum.ofFile fuel file
          (IFStream.ofFile ["##MOLFORM=C".toList, "O2".toList] tw)).map Spectrum.name
            = Outcome.timeout)
    ∧ (∀ (tw : Bool) (file : TString) (fuel : Nat),
        (Spectrum.ofFile fuel file
          (IFStream.ofFile ["TABLE=(XY..XY)".toList, "1,5".toList] tw)).map Spectrum.name
            = Outcome.timeout) := by
  have hform : ∀ (m : TString) (ts : List TString) (tw : Bool) (self : Spectrum) (fuel : Nat),
      Contains m molformTag = true → ts.all (fun t => !Contains t ['#']) = true →
      Spectrum.readFile fuel (IFStream.ofFile (m :: ts) tw) self = Outcome.timeout := by
    intro m ts tw self fuel hm hts
    cases fuel with
    | zero => rfl
    | succ k =>
      simp only [Spectrum.readFile, IFStream.ofFile, readLoop, read_cons_any, hm, if_true,
        formulaLoop_no_hash (k + 1) ts tw _ _ hts, Outcome.bind]
  have htab : ∀ (peaks : List TString) (tw : Bool) (self : Spectrum) (fuel : Nat),
      peaks.all (fun p => decide (p ≠ endTag) && peakInRange self.relInt.length p) = true →
      Spectrum.readFile fuel (IFStream.ofFile (tableTag :: peaks) tw) self
        = Outcome.timeout := by
    intro peaks tw self fuel hp
    cases fuel with
    | zero => rfl
    | succ k =>
      have h1 : Contains tableTag molformTag = false := by decide
      simp only [Spectrum.readFile, IFStream.ofFile, readLoop, read_cons_any, h1,
        Bool.false_eq_true, if_false, Outcome.bind, if_true,
        tableLoop_no_end self.relInt.length (k + 1) peaks tw _ self.relInt hp rfl]
  refine ⟨hform, htab, ?_, ?_⟩
  · intro tw file fuel
    simp only [Spectrum.ofFile, Outcome.map]
    rw [hform _ _ tw _ fuel (by decide) (by decide)]
    rfl
  · intro tw file fuel
    have h2 : "TABLE=(XY..XY)".toList = tableTag := by decide
    have hin := one_peak_inRange
    simp only [Spectrum.ofFile, Outcome.map, h2]
    rw [htab _ tw _ fuel hin]
    rfl

/-! ## Peak tokens without second part -/

/-- A non-empty string without the delimiter is its own single token. -/
theorem tokenizeAll_single (d : Char) (a : TString) (ha : d ∉ a) (hne : a ≠ []) :
    tokenizeAll a d = [a] := by
  have hlen : 0 < a.length := List.length_pos.2 hne
  have step1 : Tokenize a 0 d = (true, a, -1) := by
    rw [Tokenize_inside _ _ _ (le_refl _) (by exact_mod_cast hlen)]
    simp only [Int.toNat_zero, List.drop_zero, takeWhile_ne_self d a ha, if_true]
    cases a with
    | nil => exact absurd rfl hne
    | cons x xs => rfl
  have step2 : Tokenize a (-1) d = (false, [], -1) := Tokenize_outside _ _ _ (by norm_num)
  unfold tokenizeAll
  have hf : a.length + 1 = (a.length - 1) + 1 + 1 := by omega
  rw [hf]
  simp only [tokensFrom, step1, step2]

/-- A string `a,` whose part `a` is free of the delimiter has the single token `a`. -/
theorem tokenizeAll_trailing (d : Char) (a : TString) (ha : d ∉ a) :
    tokenizeAll (a ++ [d]) d = [a] := by
  have hlen : (a ++ [d]).length = a.length + 1 := by simp
  have step1 : Tokenize (a ++ [d]) 0 d = (true, a, (a.length : Int) + 1) := by
    rw [Tokenize_inside _ _ _ (le_refl _) (by rw [hlen]; push_cast; omega)]
    simp only [Int.toNat_zero, List.drop_zero, takeWhile_ne_append d a [] ha, hlen]
    rw [if_neg (by omega)]
    simp only [zero_add, Prod.mk.injEq, true_and]
    push_cast; omega
  have step2 : (Tokenize (a ++ [d]) ((a.length : Int) + 1) d).1 = false := by
    unfold Tokenize
    have hc : (((a ++ [d]).length : Int) ≤ 0 ∨ (a.length : Int) + 1 > ((a ++ [d]).length : Int) - 1
        ∨ (a.length : Int) + 1 < 0) := by rw [hlen]; push_cast; omega
    simp only [if_pos hc]
  unfold tokenizeAll
  rw [hlen]
  simp only [tokensFrom, step1]
  cases h2 : Tokenize (a ++ [d]) ((a.length : Int) + 1) d with
  | mk f rest =>
    rw [h2] at step2
    simp only at step2
    subst step2
    rfl

theorem peakToken_one_part (w a : TString) (rel : List ℚ) (h : tokenizeAll w ',' = [a]) :
    peakToken w rel = Outcome.ok rel := by
  simp [peakToken, h, peakParts, peakPart, Outcome.bind]

/-- Claim C15 as amended (a peak token without second part is skipped).  A
token without comma, and such a token followed by one comma, leaves the
intensity vector as it is, and the peak-table loop goes on with the next
token of the stream: nothing is raised and the run is not aborted. -/
theorem malformed_peak_skipped (a : TString) (rel : List ℚ) (ha : ',' ∉ a) :
    peakToken a rel = Outcome.ok rel
    ∧ peakToken (a ++ [',']) rel = Outcome.ok rel
    ∧ (a ≠ endTag → ∀ (fuel : Nat) (rest : List TString) (tw b : Bool),
        tableLoop (fuel + 1) (IFStream.mk (a :: rest) tw true b) rel
          = tableLoop fuel (IFStream.mk rest tw true (b || (rest.isEmpty && !tw))) rel)
    ∧ (∀ (fuel : Nat) (rest : List TString) (tw b : Bool),
        tableLoop (fuel + 1) (IFStream.mk ((a ++ [',']) :: rest) tw true b) rel
          = tableLoop fuel (IFStream.mk rest tw true (b || (rest.isEmpty && !tw))) rel) := by
  have h1 : peakToken a rel = Outcome.ok rel := by
    by_cases hne : a = []
    · subst hne; exact peakToken_nil rel
    · exact peakToken_one_part a a rel (tokenizeAll_single ',' a ha hne)
  have h2 : peakToken (a ++ [',']) rel = Outcome.ok rel :=
    peakToken_one_part _ a rel (tokenizeAll_trailing ',' a ha)
  have hend : a ++ [','] ≠ endTag := by
    intro h
    have := congrArg List.getLast? h
    simp [endTag] at this
  refine ⟨h1, h2, ?_, ?_⟩
  · intro hne fuel rest tw b
    simp only [tableLoop, read_cons_any, if_neg hne, h1, Outcome.bind]
  · intro fuel rest tw b
    simp only [tableLoop, read_cons_any, if_neg hend, h2, Outcome.bind]

/-- The tokens `7` and `7,` leave the intensity vector of a new record as it
is. -/
theorem malformed_peak_skipped_witness :
    peakToken "7".toList initRelInt = Outcome.ok initRelInt
      ∧ peakToken "7,".toList initRelInt = Outcome.ok initRelInt :=
  ⟨(malformed_peak_skipped "7".toList initRelInt (by decide)).1,
   (malformed_peak_skipped "7".toList initRelInt (by decide)).2.1⟩

set_option maxRecDepth 100000 in
/-- Claim C15 fails as stated: on a peak table that holds the tokens `7` and
`7,` the constructor returns a record, with every intensity 0. -/
theorem malformed_peak_counterexample :
    (Spectrum.ofFile 20 []
        (IFStream.ofFile ["TABLE=(XY..XY)".toList, "7".toList, "7,".toList, "##END=".toList]
          true)).map (fun r => r.relInt) = Outcome.ok initRelInt := by
  rfl

/-! ## The length of the intensity vector -/

theorem peakToken_length {p : TString} {rel r : List ℚ} (h : peakToken p rel = Outcome.ok r) :
    r.length = rel.length := by
  unfold peakToken at h
  cases hp : peakParts { index := -1, first := true, relInt := rel } (tokenizeAll p ',') with
  | ok st =>
    rw [hp] at h
    simp only [Outcome.bind, Outcome.ok.injEq] at h
    rw [← h]
    exact peakParts_length _ _ _ hp
  | timeout => rw [hp] at h; simp [Outcome.bind] at h
  | undefinedStore => rw [hp] at h; simp [Outcome.bind] at h

theorem tableLoop_length : ∀ (fuel : Nat) (s s1 : IFStream) (rel r : List ℚ),
    tableLoop fuel s rel = Outcome.ok (s1, r) → r.length = rel.length := by
  intro fuel
  induction fuel with
  | zero => intro s s1 rel r h; cases h
  | succ k ih =>
    intro s s1 rel r h
    simp only [tableLoop] at h
    split at h
    · cases h; rfl
    · cases hp : peakToken s.read.1 rel with
      | ok r1 =>
        rw [hp] at h
        simp only [Outcome.bind] at h
        rw [ih _ _ _ _ h, peakToken_length hp]
      | timeout => rw [hp] at h; simp [Outcome.bind] at h
      | undefinedStore => rw [hp] at h; simp [Outcome.bind] at h

/-- Whatever the stream, a run of the outer loop that returns leaves the
length of the intensity vector as it was. -/
theorem readLoop_length (inner : Nat) : ∀ (fuel : Nat) (s : IFStream) (e e1 : TString)
    (rel r : List ℚ),
    readLoop inner fuel s e rel = Outcome.ok (e1, r) → r.length = rel.length := by
  intro fuel
  induction fuel with
  | zero => intro s e e1 rel r h; cases h
  | succ k ih =>
    intro s e e1 rel r h
    simp only [readLoop] at h
    -- the formula part
    generalize hA : (if Contains s.read.1 molformTag = true then
        (formulaLoop inner s.read.2 (e ++ ReplaceAll s.read.1 molformTag [])).bind
          (fun p => Outcome.ok (ReplaceAll s.read.1 molformTag [], p.1, p.2))
      else Outcome.ok (s.read.1, s.read.2, e)) = A at h
    cases A with
    | timeout => simp [Outcome.bind] at h
    | undefinedStore => simp [Outcome.bind] at h
    | ok a =>
      obtain ⟨w, s2, e2⟩ := a
      simp only [Outcome.bind] at h
      generalize hB : (if w = tableTag then tableLoop inner s2 rel else Outcome.ok (s2, rel))
        = B at h
      cases B with
      | timeout => simp at h
      | undefinedStore => simp at h
      | ok b =>
        obtain ⟨s3, r3⟩ := b
        simp only at h
        have hr3 : r3.length = rel.length := by
          split at hB
          · exact tableLoop_length _ _ _ _ _ hB
          · cases hB; rfl
        split at h
        · cases h; exact hr3
        · rw [ih _ _ _ _ _ h, hr3]

theorem readFile_length {fuel : Nat} {s : IFStream} {self r : Spectrum}
    (h : Spectrum.readFile fuel s self = Outcome.ok r) : r.relInt.length = self.relInt.length := by
  unfold Spectrum.readFile at h
  cases hp : readLoop fuel fuel s [] self.relInt with
  | ok p =>
    rw [hp] at h
    simp only [Outcome.bind, Outcome.ok.injEq] at h
    rw [← h]
    exact readLoop_length fuel fuel s [] p.1 self.relInt p.2 hp
  | timeout => rw [hp] at h; simp [Outcome.bind] at h
  | undefinedStore => rw [hp] at h; simp [Outcome.bind] at h

theorem bind_ok_inv {α β : Type} {x : Outcome α} {f : α → Outcome β} {b : β}
    (h : x.bind f = Outcome.ok b) : ∃ a, x = Outcome.ok a ∧ f a = Outcome.ok b := by
  cases x with
  | ok a => exact ⟨a, rfl, h⟩
  | timeout => simp [Outcome.bind] at h
  | undefinedStore => simp [Outcome.bind] at h

/-- Every record the constructor returns has 51 intensities; `setFile` keeps
the length of the vector. -/
theorem record_length :
    Spectrum.default.relInt.length = nMassSpecEntries
    ∧ (∀ (fuel : Nat) (file : TString) (s : IFStream) (r : Spectrum),
        Spectrum.ofFile fuel file s = Outcome.ok r → r.relInt.length = nMassSpecEntries)
    ∧ (∀ (fuel : Nat) (file : TString) (s : IFStream) (self r : Spectrum),
        Spectrum.setFile fuel file s self = Outcome.ok r →
          r.relInt.length = self.relInt.length) := by
  refine ⟨by simp [Spectrum.default, initRelInt], ?_, ?_⟩
  · intro fuel file s r h
    obtain ⟨r1, hp, hr⟩ := bind_ok_inv h
    simp only [Outcome.ok.injEq] at hr
    rw [← hr]
    have := readFile_length hp
    simpa [Spectrum.ParseName, initRelInt] using this
  · intro fuel file s self r h
    obtain ⟨r1, hp, hr⟩ := bind_ok_inv h
    simp only [Outcome.ok.injEq] at hr
    rw [← hr]
    have := readFile_length hp
    simpa [Spectrum.ParseName] using this

/-! ## The range of the intensities -/

/-- What `readFile` returns on a stream made of well-formed chunks. -/
theorem readFile_chunks (chunks : List Chunk) (tw : Bool) (self : Spectrum) (fuel : Nat)
    (hall : chunks.all (Chunk.wellFormed self.relInt.length) = true)
    (hfuel : (chunkToks chunks).length < fuel) :
    Spectrum.readFile fuel (IFStream.ofFile (chunkToks chunks) tw) self
      = Outcome.ok { self with name := chunks.foldl Chunk.nameAfter [],
                               relInt := chunks.foldl Chunk.relIntAfter self.relInt } := by
  have hrun := readLoop_chunks self.relInt.length tw fuel chunks fuel [] self.relInt hall rfl
    (lt_of_le_of_lt (chunkToks_length _) hfuel) hfuel
  simp only [Spectrum.readFile, IFStream.ofFile, hrun, Outcome.bind]

theorem table_chunk_wellFormed (len : Nat) (table : List (Nat × Nat))
    (h : ∀ p ∈ table, p.1 ≤ len ∧ p.1 < 2 ^ 31 ∧ p.2 < 2 ^ 31) :
    (Chunk.table (table.map peakOf)).wellFormed len = true := by
  simp only [Chunk.wellFormed, List.all_eq_true, List.mem_map, Bool.and_eq_true,
    decide_eq_true_eq]
  rintro q ⟨p, hp, rfl⟩
  have := h p hp
  exact ⟨peakOf_ne_endTag p, peakInRange_peakOf _ p this.1 this.2.1 this.2.2⟩

theorem lastWithIndex_mem (i : Nat) : ∀ (table : List (Nat × Nat)) (v : Nat),
    lastWithIndex i table = some v → (i, v) ∈ table := by
  intro table
  induction table with
  | nil => intro v h; simp [lastWithIndex] at h
  | cons p rest ih =>
    intro v h
    simp only [lastWithIndex] at h
    cases hl : lastWithIndex i rest with
    | some w =>
      rw [hl] at h
      simp only [Option.some.injEq] at h
      subst h
      exact List.mem_cons_of_mem _ (ih w hl)
    | none =>
      rw [hl] at h
      simp only at h
      split at h
      · rename_i hp
        simp only [Option.some.injEq] at h
        subst h
        subst hp
        exact List.mem_cons_self _ _
      · cases h

/-- Claim C16 as amended (intensity range for raw values up to 9999).  For a
file with one peak table whose tokens are `i,v` with `i ≤ 51` and `v ≤ 9999`,
the constructor returns a record whose intensity vector has 51 entries, each
of them in [0, 1].  The default record has 51 entries, every record the
constructor returns has 51 entries, and `setFile` keeps the length. -/
theorem intensity_range (pre post : List Chunk) (table : List (Nat × Nat)) (tw : Bool)
    (file : TString) (fuel : Nat)
    (hpre : pre.all (fun c => c.wellFormed nMassSpecEntries && c.noTable) = true)
    (hpost : post.all (fun c => c.wellFormed nMassSpecEntries && c.noTable) = true)
    (htable : ∀ p ∈ table, p.1 ≤ nMassSpecEntries ∧ p.2 ≤ 9999)
    (hfuel : (chunkToks pre ++ tableTag :: table.map peakOf ++ endTag :: chunkToks post).length
      < fuel) :
    (∃ r, Spectrum.ofFile fuel file
        (IFStream.ofFile
          (chunkToks pre ++ tableTag :: table.map peakOf ++ endTag :: chunkToks post) tw)
          = Outcome.ok r
      ∧ r.relInt.length = nMassSpecEntries
      ∧ ∀ x ∈ r.relInt, 0 ≤ x ∧ x ≤ 1)
    ∧ Spectrum.default.relInt.length = nMassSpecEntries
    ∧ (∀ (fuel1 : Nat) (file1 : TString) (s : IFStream) (r : Spectrum),
        Spectrum.ofFile fuel1 file1 s = Outcome.ok r → r.relInt.length = nMassSpecEntries)
    ∧ (∀ (fuel1 : Nat) (file1 : TString) (s : IFStream) (self r : Spectrum),
        Spectrum.setFile fuel1 file1 s self = Outcome.ok r →
          r.relInt.length = self.relInt.length) := by
  refine ⟨?_, record_length.1, record_length.2.1, record_length.2.2⟩
  obtain ⟨hpre1, hpre2⟩ := all_and_split _ _ _ hpre
  obtain ⟨hpost1, hpost2⟩ := all_and_split _ _ _ hpost
  have hshape : chunkToks pre ++ tableTag :: table.map peakOf ++ endTag :: chunkToks post
      = chunkToks (pre ++ Chunk.table (table.map peakOf) :: post) := by
    simp [chunkToks_append, chunkToks, Chunk.toks]
  have hlen0 : initRelInt.length = nMassSpecEntries := by simp [initRelInt]
  have htab2 : ∀ p ∈ table, p.1 ≤ initRelInt.length ∧ p.1 < 2 ^ 31 ∧ p.2 < 2 ^ 31 := by
    intro p hp
    have := htable p hp
    rw [hlen0]
    have h51 := this.1
    simp only [nMassSpecEntries] at h51
    exact ⟨this.1, by omega, by omega⟩
  have hall : (pre ++ Chunk.table (table.map peakOf) :: post).all
      (Chunk.wellFormed nMassSpecEntries) = true := by
    simp only [List.all_append, List.all_cons, Bool.and_eq_true]
    exact ⟨hpre1, table_chunk_wellFormed _ table (by rw [← hlen0]; exact htab2), hpost1⟩
  rw [hshape] at hfuel ⊢
  have hrun := readFile_chunks (pre ++ Chunk.table (table.map peakOf) :: post) tw
    { filename := file, contents := List.replicate 6 0, MZ := initMZ, relInt := initRelInt,
      name := [], Z := 0 } fuel (by simpa [hlen0] using hall) hfuel
  simp only [Spectrum.ofFile, hrun, Outcome.bind]
  have hL : ((table.map peakOf).foldl applyPeak initRelInt).length = nMassSpecEntries :=
    foldl_applyPeak_length nMassSpecEntries _ _ (by
      have := table_chunk_wellFormed nMassSpecEntries table (by rw [← hlen0]; exact htab2)
      simpa [Chunk.wellFormed] using this) hlen0
  have hrel : (pre ++ Chunk.table (table.map peakOf) :: post).foldl Chunk.relIntAfter initRelInt
      = (table.map peakOf).foldl applyPeak initRelInt := by
    simp only [List.foldl_append, List.foldl_cons, foldl_relIntAfter_noTable pre _ hpre2,
      Chunk.relIntAfter]
    rw [foldl_relIntAfter_noTable post _ hpost2]
  refine ⟨_, rfl, ?_, ?_⟩
  · simp only [Spectrum.ParseName, hrel]
    exact hL
  · simp only [Spectrum.ParseName, hrel]
    intro x hx
    obtain ⟨k, hk, hkx⟩ := List.getElem_of_mem hx
    have hk2 : k < initRelInt.length := by rw [hlen0, ← hL]; exact hk
    have hget := foldl_applyPeak_getD table initRelInt k htab2 hk2
    have hgd : ((table.map peakOf).foldl applyPeak initRelInt).getD k 0 = x := by
      rw [List.getD_eq_getElem _ _ hk, hkx]
    rw [hgd] at hget
    rw [hget]
    cases hl : lastWithIndex (k + 1) table with
    | some v =>
      simp only
      have hv := (htable _ (lastWithIndex_mem _ _ _ hl)).2
      have hv2 : ((v : ℕ) : ℚ) ≤ 9999 := by exact_mod_cast hv
      constructor
      · positivity
      · rw [div_le_one (by norm_num)]; exact hv2
    | none =>
      simp [initRelInt, List.getD_eq_getElem?_getD]

/-! ## Values and indices outside the expected range -/

set_option maxRecDepth 100000 in
/-- The table `1,210 2,9999`: the record has 51 intensities, all in [0, 1]. -/
theorem intensity_range_witness :
    ∃ r, Spectrum.ofFile 20 []
        (IFStream.ofFile
          (chunkToks [Chunk.formula "##MOLFORM=C".toList ["O2".toList] "##PEAK".toList]
            ++ tableTag :: [(1, 210), (2, 9999)].map peakOf ++ endTag :: chunkToks []) true)
          = Outcome.ok r
      ∧ r.relInt.length = nMassSpecEntries
      ∧ ∀ x ∈ r.relInt, 0 ≤ x ∧ x ≤ 1 :=
  (intensity_range [Chunk.formula "##MOLFORM=C".toList ["O2".toList] "##PEAK".toList] []
    [(1, 210), (2, 9999)] true [] 20 (by decide) (by decide) (by decide) (by decide)).1

set_option maxRecDepth 100000 in
/-- Claim C16 fails as stated: the token `1,20000` stores 20000/9999, above 1,
and the token `1,-5` stores -5/9999, below 0. -/
theorem intensity_range_counterexample :
    ((Spectrum.ofFile 20 []
        (IFStream.ofFile ["TABLE=(XY..XY)".toList, "1,20000".toList, "##END=".toList]
          true)).map (fun r => r.relInt.getD 0 0) = Outcome.ok (((20000 : Int) : ℚ) / 9999)
      ∧ (1 : ℚ) < ((20000 : Int) : ℚ) / 9999)
    ∧ ((Spectrum.ofFile 20 []
        (IFStream.ofFile ["TABLE=(XY..XY)".toList, "1,-5".toList, "##END=".toList]
          true)).map (fun r => r.relInt.getD 0 0) = Outcome.ok (((-5 : Int) : ℚ) / 9999)
      ∧ ((-5 : Int) : ℚ) / 9999 < 0) := by
  refine ⟨⟨rfl, by norm_num⟩, ⟨rfl, by norm_num⟩⟩

/-- Claim C18 (in-bounds peak stores) does not hold for the code.  The tokens
`52,5` and `-3,5` make the parser store outside the vector of 51 entries, as
does every token `i,v` whose index exceeds the length of the vector, and the
constructor on a table holding `52,5` ends in that store.  The tokens `0,5`
and `x,5` leave the vector as it is. -/
theorem out_of_range_store :
    peakToken "52,5".toList initRelInt = Outcome.undefinedStore
    ∧ peakToken "-3,5".toList initRelInt = Outcome.undefinedStore
    ∧ (Spectrum.ofFile 20 []
        (IFStream.ofFile ["TABLE=(XY..XY)".toList, "52,5".toList, "##END=".toList] true)).map
          Spectrum.name = Outcome.undefinedStore
    ∧ (∀ (i v : Nat) (rel : List ℚ), rel.length < i → i < 2 ^ 31 → v < 2 ^ 31 →
        peakToken (peakOf (i, v)) rel = Outcome.undefinedStore)
    ∧ peakToken "0,5".toList initRelInt = Outcome.ok initRelInt
    ∧ peakToken "x,5".toList initRelInt = Outcome.ok initRelInt := by
  refine ⟨by decide, by decide, by decide, ?_, rfl, rfl⟩
  intro i v rel hi hi2 hv
  rw [peakToken_peakOf (i, v) hi2 hv rel]
  have h0 : i ≠ 0 := by omega
  simp only [h0, if_false, storeAt]
  rw [if_neg (by omega)]

/-! ## Mass index 51 -/

/-- The design matrix after `AddSpectrum` depends on the record only through
its first 50 intensities. -/
theorem AddSpectrum_X_congr (c : SpectrumCollection) (a b : Spectrum)
    (h : ∀ i, i < 50 → a.relInt.getD i 0 = b.relInt.getD i 0) :
    (c.AddSpectrum a).X = (c.AddSpectrum b).X := by
  rw [AddSpectrum_X, AddSpectrum_X]
  refine TMatrixD.ext_iff3 _ _ (by rfl) (by rfl) ?_
  intro i j
  by_cases hc : j = c.X.ncols ∧ i < 50
  · simp only [hc, and_self, if_true, Spectrum.getY]
    exact h i hc.2
  · simp only [hc, if_false]

/-- The fit returned by `Evaluate` right after `AddSpectrum` depends on the
added record only through the design matrix. -/
theorem Evaluate_congr (P : Platform) (c : SpectrumCollection) (a b : Spectrum) (y : TMatrixD)
    (h : (c.AddSpectrum a).X = (c.AddSpectrum b).X) :
    ((c.AddSpectrum a).Evaluate P y false).1 = ((c.AddSpectrum b).Evaluate P y false).1 := by
  obtain ⟨_, a1, a2, a3, _, _⟩ := AddSpectrum_fields c a
  obtain ⟨_, b1, b2, b3, _, _⟩ := AddSpectrum_fields c b
  rw [Evaluate_fresh_state P _ a1 a2 a3, Evaluate_fresh_state P _ b1 b2 b3]
  have hTa := Transpose_fields (c.AddSpectrum a)
  have hTb := Transpose_fields (c.AddSpectrum b)
  have hSa := SelfMultiply_XtX (c.AddSpectrum a).Transpose (by
    intro _; rw [Transpose_Xt, Transpose_Xt, hTa.1])
  have hSb := SelfMultiply_XtX (c.AddSpectrum b).Transpose (by
    intro _; rw [Transpose_Xt, Transpose_Xt, hTb.1])
  have hInv : (c.AddSpectrum a).XtXInv = (c.AddSpectrum b).XtXInv := rfl
  rw [hSa.1, hSb.1, hTa.1, hTb.1, Transpose_Xt, Transpose_Xt, h, hInv]

/-- Claim C20 (mass index 51 is stored but never used).  The default record
and every record the constructor returns have 51 intensities; the token
`51,v` stores `v/9999` at position 50; `getRelativeIntensity(51)` is -1; two
records that differ at position 50 alone give the same design matrix and the
same result of `Evaluate`; `AddSpectrum` appends such a record, and the
design matrix has 50 rows. -/
theorem index_51_unused (s : Spectrum) (rel : List ℚ) (x y : ℚ) (c : SpectrumCollection)
    (P : Platform) (input : TMatrixD) (v : Nat) :
    (Spectrum.default.relInt.length = 51
      ∧ ∀ (fuel : Nat) (file : TString) (stream : IFStream) (r : Spectrum),
          Spectrum.ofFile fuel file stream = Outcome.ok r → r.relInt.length = 51)
    ∧ (rel.length = 51 → v < 2 ^ 31 →
        peakToken (peakOf (51, v)) rel = Outcome.ok (rel.set 50 ((v : ℚ) / 9999)))
    ∧ s.getRelativeIntensity 51 = -1
    ∧ (c.AddSpectrum { s with relInt := rel.set 50 x }).X
        = (c.AddSpectrum { s with relInt := rel.set 50 y }).X
    ∧ ((c.AddSpectrum { s with relInt := rel.set 50 x }).Evaluate P input false).1
        = ((c.AddSpectrum { s with relInt := rel.set 50 y }).Evaluate P input false).1
    ∧ ((c.AddSpectrum { s with relInt := rel.set 50 x }).X.nrows = 50
        ∧ (c.AddSpectrum { s with relInt := rel.set 50 x }).gases
            = c.gases ++ [{ s with relInt := rel.set 50 x }]) := by
  have hX : (c.AddSpectrum { s with relInt := rel.set 50 x }).X
      = (c.AddSpectrum { s with relInt := rel.set 50 y }).X := by
    apply AddSpectrum_X_congr
    intro i hi
    have : 50 ≠ i := by omega
    simp [List.getD_eq_getElem?_getD, List.getElem?_set, this]
  refine ⟨⟨record_length.1, record_length.2.1⟩, ?_, ?_, hX, Evaluate_congr P c _ _ input hX,
    (AddSpectrum_fields c _).2.2.2.2.1, (AddSpectrum_fields c _).1⟩
  · intro hl hv
    have := (applyPeak_peakOf (51, v) rel (by simp [hl]) (by norm_num) hv).1
    simpa using this
  · simp [Spectrum.getRelativeIntensity]

/-! ## The error estimate of `Evaluate` -/

/-- The double loop that builds `appliedSoln` in `Evaluate`. -/
theorem forLoop_applied (F : Nat → Nat → ℚ) (g : Nat) (M : TMatrixD) (n : Nat) :
    forLoop n (fun i m => forLoop g (fun j m => m.set i 0 (m.get i 0 + F i j)) m) M
      = { nrows := M.nrows, ncols := M.ncols,
          elem := fun a b =>
            if a < n ∧ b = 0 then M.elem a 0 + ∑ j in Finset.range g, F a j
            else M.elem a b } := by
  induction n with
  | zero => exact TMatrixD.ext_iff3 _ _ rfl rfl (fun a b => by simp [forLoop_zero])
  | succ n ih =>
    rw [forLoop_succ, ih, forLoop_accumulate n 0 (F n)]
    refine TMatrixD.ext_iff3 _ _ (by rfl) (by rfl) ?_
    intro a b
    simp only
    by_cases h1 : a = n
    · subst h1
      by_cases h2 : b = 0
      · subst h2; simp
      · simp [h2]
    · have : a < n + 1 ↔ a < n := by omega
      simp [h1, this]

/-- The loop that accumulates `sum` and `sumSq` in `Evaluate`. -/
theorem forLoop_sums (d : Nat → ℚ) (a0 b0 : ℚ) (n : Nat) :
    forLoop n (fun i (acc : ℚ × ℚ) => (acc.1 + d i, acc.2 + d i * d i)) (a0, b0)
      = (a0 + ∑ i in Finset.range n, d i, b0 + ∑ i in Finset.range n, d i * d i) := by
  induction n with
  | zero => simp [forLoop_zero]
  | succ n ih =>
    rw [forLoop_succ, ih]
    simp [Finset.sum_range_succ, add_assoc]

/-- The matrix the error branch of `Evaluate` returns. -/
theorem evaluateError_eq (P : Platform) (s : SpectrumCollection) (input soln : TMatrixD) :
    evaluateError P s input soln
      = { nrows := soln.nrows, ncols := 2,
          elem := fun a b =>
            if b = 1 ∧ a < soln.nrows then P.sqrt (s.XtXInv.elem a a * sigmaSq P s input soln)
            else if a < soln.nrows ∧ b < soln.ncols ∧ b < 2 then soln.elem a b else 0 } := by
  unfold evaluateError
  simp only [TMatrixD.GetNrows, TMatrixD.GetNcols]
  rw [forLoop_applied (fun i j => soln.get j 0
    * ((s.gases.getD j Spectrum.default).getY.getD i 0))]
  rw [forLoop_sums (fun i => (input.sub _).get i 0)]
  rw [forLoop_set_col]
  simp only [TMatrixD.sub, TMatrixD.zeros, zero_add, TMatrixD.get]
  refine TMatrixD.ext_iff3 _ _ (by rfl) (by rfl) ?_
  intro a b
  simp only [TMatrixD.ResizeTo, TMatrixD.scale]
  by_cases h1 : b = 1 ∧ a < soln.nrows
  · simp only [h1, and_self, if_true]
    congr 2
    simp only [sigmaSq, residual, and_true]
  · simp only [h1, if_false]
    by_cases h2 : a < soln.nrows ∧ b < soln.ncols ∧ b < 2
    · have : a < soln.nrows ∧ a < soln.nrows ∧ b < soln.ncols ∧ b < 2 := ⟨h2.1, h2⟩
      simp [h2, this]
    · have : ¬ (a < soln.nrows ∧ a < soln.nrows ∧ b < soln.ncols ∧ b < 2) := fun h => h2 h.2
      simp [h2, this]

/-- After `Evaluate` on a collection without cached matrices and with
invertible Gram matrix, the member `XtXInv` holds the inverse of the Gram
matrix. -/
theorem XtXInv_after_Evaluate (P : Platform) (c : SpectrumCollection)
    (h1 : c.XtEval = false) (h2 : c.XtXEval = false) (h3 : c.XtXInvEval = false)
    (input : TMatrixD) (hdet : ((designMatrix c)ᵀ * designMatrix c).det ≠ 0) :
    ∀ i j : Fin c.X.ncols,
      (c.Evaluate P input false).2.XtXInv.elem i j
        = ((designMatrix c)ᵀ * designMatrix c)⁻¹ i j := by
  have hT := Transpose_fields c
  have hS := SelfMultiply_XtX c.Transpose (by
    intro _; rw [Transpose_Xt, Transpose_Xt, hT.1])
  have hI := InvertXtX_cached P c.Transpose.SelfMultiply hS.2.2.2.2.2.2.1
  rw [Evaluate_fresh_final P c h1 h2 h3 input, hI.1, hS.1, hT.1, Invert_mk, gram_eq,
    if_neg hdet]
  intro i j
  have hinv : ((designMatrix c)ᵀ * designMatrix c)⁻¹
      = ((designMatrix c)ᵀ * designMatrix c).det⁻¹
          • Matrix.adjugate ((designMatrix c)ᵀ * designMatrix c) := by
    rw [Matrix.inv_def, Ring.inverse_eq_inv']
  simp only [TMatrixD.assign, TMatrixD.ResizeTo, and_self, if_true, i.2, j.2, dite_true,
    Fin.eta, hinv]

/-- After `Evaluate` on the collection of the all-ones spectrum the member
`XtXInv` holds `1/50`. -/
theorem unit_XtXInv (P : Platform) (y : TMatrixD) :
    ((SpectrumCollection.init.AddSpectrum unitSpectrum).Evaluate P y false).2.XtXInv.elem 0 0
      = 1 / 50 := by
  obtain ⟨_, f1, f2, f3, _, f5⟩ := AddSpectrum_fields SpectrumCollection.init unitSpectrum
  have hn := unit_collection_X.1
  have h := XtXInv_after_Evaluate P _ f1 f2 f3 y unit_gram_det
    ⟨0, by rw [hn]; norm_num⟩ ⟨0, by rw [hn]; norm_num⟩
  rw [inv_one_by_one _ hn, unit_gram_entry] at h
  simpa using h

/-- The coefficient `Evaluate` returns for the all-ones spectrum observed as
itself is 1. -/
theorem unit_fit (P : Platform) :
    ((SpectrumCollection.init.AddSpectrum unitSpectrum).Evaluate P
        (TMatrixD.mk 50 1 (fun _ _ => 1)) false).1.nrows = 1
    ∧ ((SpectrumCollection.init.AddSpectrum unitSpectrum).Evaluate P
        (TMatrixD.mk 50 1 (fun _ _ => 1)) false).1.ncols = 1
    ∧ ((SpectrumCollection.init.AddSpectrum unitSpectrum).Evaluate P
        (TMatrixD.mk 50 1 (fun _ _ => 1)) false).1.elem 0 0 = 1 := by
  obtain ⟨_, f1, f2, f3, _, f5⟩ := AddSpectrum_fields SpectrumCollection.init unitSpectrum
  have hn := unit_collection_X.1
  obtain ⟨e1, e2, e3⟩ := Evaluate_fresh P _ f1 f2 f3 (TMatrixD.mk 50 1 (fun _ _ => 1))
    unit_gram_det
  refine ⟨e1.trans hn, e2, ?_⟩
  have h := e3 ⟨0, by rw [hn]; norm_num⟩ 0 (by norm_num)
  have hy : observedColumn (TMatrixD.mk 50 1 (fun _ _ => 1)) 0
      = designMatrix (SpectrumCollection.init.AddSpectrum unitSpectrum) *ᵥ (fun _ => 1) := by
    funext i
    simp only [Matrix.mulVec, Matrix.dotProduct, observedColumn]
    rw [sum_fin_one _ hn]
    simp only [designMatrix]
    rw [unit_collection_X.2 i i.2]
    norm_num
  rw [hy, ols_roundtrip _ _ unit_gram_det] at h
  exact h

/-- The residuals of the exact fit of the all-ones spectrum are 0. -/
theorem unit_residual (P : Platform) (i : Nat) (hi : i < 50) :
    residual ((SpectrumCollection.init.AddSpectrum unitSpectrum).Evaluate P
        (TMatrixD.mk 50 1 (fun _ _ => 1)) false).2 (TMatrixD.mk 50 1 (fun _ _ => 1))
      ((SpectrumCollection.init.AddSpectrum unitSpectrum).Evaluate P
        (TMatrixD.mk 50 1 (fun _ _ => 1)) false).1 i = 0 := by
  obtain ⟨_, _, _, _, _, g, _, _⟩ := Evaluate_state P
    (SpectrumCollection.init.AddSpectrum unitSpectrum) (TMatrixD.mk 50 1 (fun _ _ => 1)) false
  have hg : ((SpectrumCollection.init.AddSpectrum unitSpectrum).Evaluate P
      (TMatrixD.mk 50 1 (fun _ _ => 1)) false).2.gases = [unitSpectrum] := by
    rw [g]; rfl
  simp only [residual, hg, hi, if_true, List.length_singleton, Finset.sum_range_one,
    List.getD_cons_zero, (unit_fit P).2.2, unitSpectrum_getY i hi]
  norm_num

/-- The variance estimate of the exact fit of the all-ones spectrum is made of
the start values of the two accumulators alone. -/
theorem unit_sigmaSq (P : Platform) :
    sigmaSq P ((SpectrumCollection.init.AddSpectrum unitSpectrum).Evaluate P
        (TMatrixD.mk 50 1 (fun _ _ => 1)) false).2 (TMatrixD.mk 50 1 (fun _ _ => 1))
      ((SpectrumCollection.init.AddSpectrum unitSpectrum).Evaluate P
        (TMatrixD.mk 50 1 (fun _ _ => 1)) false).1
      = P.sumSq0 / 50 - (P.sum0 / 50) * (P.sum0 / 50) := by
  have h0 : ∀ i ∈ Finset.range 50, residual
      ((SpectrumCollection.init.AddSpectrum unitSpectrum).Evaluate P
        (TMatrixD.mk 50 1 (fun _ _ => 1)) false).2 (TMatrixD.mk 50 1 (fun _ _ => 1))
      ((SpectrumCollection.init.AddSpectrum unitSpectrum).Evaluate P
        (TMatrixD.mk 50 1 (fun _ _ => 1)) false).1 i = 0 :=
    fun i hi => unit_residual P i (Finset.mem_range.1 hi)
  have h1 : ∀ i ∈ Finset.range 50, residual
      ((SpectrumCollection.init.AddSpectrum unitSpectrum).Evaluate P
        (TMatrixD.mk 50 1 (fun _ _ => 1)) false).2 (TMatrixD.mk 50 1 (fun _ _ => 1))
      ((SpectrumCollection.init.AddSpectrum unitSpectrum).Evaluate P
        (TMatrixD.mk 50 1 (fun _ _ => 1)) false).1 i
      * residual
      ((SpectrumCollection.init.AddSpectrum unitSpectrum).Evaluate P
        (TMatrixD.mk 50 1 (fun _ _ => 1)) false).2 (TMatrixD.mk 50 1 (fun _ _ => 1))
      ((SpectrumCollection.init.AddSpectrum unitSpectrum).Evaluate P
        (TMatrixD.mk 50 1 (fun _ _ => 1)) false).1 i = 0 :=
    fun i hi => by rw [h0 i hi]; norm_num
  simp only [sigmaSq]
  rw [Finset.sum_eq_zero h0, Finset.sum_eq_zero h1]
  norm_num

/-- Claim C13 (uncertainty on an exact fit) does not hold for the code.  For
the collection that holds the all-ones spectrum, observed as itself,
`Evaluate` with `withError` returns a 1 x 2 matrix whose coefficient is 1 and
whose second entry is `sqrt((1/50) * (sumSq0/50 - (sum0/50)^2))`, where `sum0`
and `sumSq0` are the values that `sum` and `sumSq`, declared without initial
value, hold before the loop: the entry is 0 where both start at 0, and 1/50
where `sumSq` starts at 50 (the square root taken as the identity). -/
theorem exact_fit_uncertainty :
    (∀ P : Platform,
      ((SpectrumCollection.init.AddSpectrum unitSpectrum).Evaluate P
          (TMatrixD.mk 50 1 (fun _ _ => 1)) true).1.nrows = 1
      ∧ ((SpectrumCollection.init.AddSpectrum unitSpectrum).Evaluate P
          (TMatrixD.mk 50 1 (fun _ _ => 1)) true).1.ncols = 2
      ∧ ((SpectrumCollection.init.AddSpectrum unitSpectrum).Evaluate P
          (TMatrixD.mk 50 1 (fun _ _ => 1)) true).1.elem 0 0 = 1
      ∧ ((SpectrumCollection.init.AddSpectrum unitSpectrum).Evaluate P
          (TMatrixD.mk 50 1 (fun _ _ => 1)) true).1.elem 0 1
        = P.sqrt (1 / 50 * (P.sumSq0 / 50 - (P.sum0 / 50) * (P.sum0 / 50))))
    ∧ ((SpectrumCollection.init.AddSpectrum unitSpectrum).Evaluate examplePlatform
          (TMatrixD.mk 50 1 (fun _ _ => 1)) true).1.elem 0 1 = 0
    ∧ ((SpectrumCollection.init.AddSpectrum unitSpectrum).Evaluate garbagePlatform
          (TMatrixD.mk 50 1 (fun _ _ => 1)) true).1.elem 0 1 = 1 / 50 := by
  have key : ∀ P : Platform,
      ((SpectrumCollection.init.AddSpectrum unitSpectrum).Evaluate P
          (TMatrixD.mk 50 1 (fun _ _ => 1)) true).1.nrows = 1
      ∧ ((SpectrumCollection.init.AddSpectrum unitSpectrum).Evaluate P
          (TMatrixD.mk 50 1 (fun _ _ => 1)) true).1.ncols = 2
      ∧ ((SpectrumCollection.init.AddSpectrum unitSpectrum).Evaluate P
          (TMatrixD.mk 50 1 (fun _ _ => 1)) true).1.elem 0 0 = 1
      ∧ ((SpectrumCollection.init.AddSpectrum unitSpectrum).Evaluate P
          (TMatrixD.mk 50 1 (fun _ _ => 1)) true).1.elem 0 1
        = P.sqrt (1 / 50 * (P.sumSq0 / 50 - (P.sum0 / 50) * (P.sum0 / 50))) := by
    intro P
    obtain ⟨_, _, _, _, _, _, _, g⟩ := Evaluate_state P
      (SpectrumCollection.init.AddSpectrum unitSpectrum) (TMatrixD.mk 50 1 (fun _ _ => 1)) false
    obtain ⟨u1, u2, u3⟩ := unit_fit P
    rw [g, evaluateError_eq]
    refine ⟨u1, rfl, ?_, ?_⟩
    · simp [u1, u2, u3]
    · simp only [u1, unit_XtXInv, unit_sigmaSq]
      simp
  refine ⟨key, ?_, ?_⟩
  · rw [(key examplePlatform).2.2.2]
    simp [examplePlatform]
  · rw [(key garbagePlatform).2.2.2]
    simp only [garbagePlatform]
    norm_num

/-! ## `setFile` on a record that was loaded before -/

/-- Once the index is read, the parts of a peak token store at that index alone. -/
theorem peakParts_frame (k : Nat) : ∀ (parts : List TString) (st st1 : PeakState),
    st.first = false → st.index ≠ (k : Int) → peakParts st parts = Outcome.ok st1 →
    st1.relInt.getD k 0 = st.relInt.getD k 0 := by
  intro parts
  induction parts with
  | nil =>
    intro st st1 _ _ h
    simp only [peakParts, Outcome.ok.injEq] at h
    rw [h]
  | cons tok rest ih =>
    intro st st1 hf hi h
    obtain ⟨index, first, relInt⟩ := st
    simp only at hf hi
    subst hf
    simp only [peakParts, peakPart, Bool.false_eq_true, if_false] at h
    by_cases hm : index = -1
    · subst hm
      simp only [ne_eq, not_true_eq_false, if_false, Outcome.bind] at h
      exact ih _ st1 rfl hi h
    · simp only [ne_eq, hm, not_false_eq_true, if_true, storeAt] at h
      by_cases hr : 0 ≤ index ∧ index < relInt.length
      · simp only [hr, and_self, if_true, Outcome.bind] at h
        have := ih _ st1 rfl hi h
        rw [this]
        have hne : index.toNat ≠ k := by
          intro hk
          apply hi
          rw [← hk, Int.toNat_of_nonneg hr.1]
        simp only [List.getD_eq_getElem?_getD]
        rw [List.getElem?_set_ne hne]
      · simp only [hr, if_false, Outcome.bind] at h
        cases h

/-- A peak token whose mass index is not `k + 1` leaves position `k` as it was. -/
theorem peakToken_frame (k : Nat) (p : TString) (rel r : List ℚ)
    (hidx : Atoi ((tokenizeAll p ',').headD []) ≠ (k : Int) + 1)
    (h : peakToken p rel = Outcome.ok r) : r.getD k 0 = rel.getD k 0 := by
  unfold peakToken at h
  obtain ⟨st, hp, hr⟩ := bind_ok_inv h
  simp only [Outcome.ok.injEq] at hr
  rw [← hr]
  cases hparts : tokenizeAll p ',' with
  | nil =>
    rw [hparts] at hp
    simp only [peakParts, Outcome.ok.injEq] at hp
    rw [← hp]
  | cons a rest =>
    rw [hparts] at hp hidx
    simp only [List.headD_cons] at hidx
    simp only [peakParts, peakPart, if_true, Outcome.bind] at hp
    have := peakParts_frame k rest _ st rfl (by
      simp only
      intro hk
      apply hidx
      omega) hp
    simpa using this

theorem applyPeak_frame (k : Nat) (p : TString) (rel : List ℚ)
    (hidx : Atoi ((tokenizeAll p ',').headD []) ≠ (k : Int) + 1) :
    (applyPeak rel p).getD k 0 = rel.getD k 0 := by
  unfold applyPeak
  cases hp : peakToken p rel with
  | ok r => exact peakToken_frame k p rel r hidx hp
  | timeout => rfl
  | undefinedStore => rfl

theorem foldl_applyPeak_frame (k : Nat) : ∀ (peaks : List TString) (rel : List ℚ),
    (∀ p ∈ peaks, Atoi ((tokenizeAll p ',').headD []) ≠ (k : Int) + 1) →
    (peaks.foldl applyPeak rel).getD k 0 = rel.getD k 0 := by
  intro peaks
  induction peaks with
  | nil => intro rel _; rfl
  | cons p ps ih =>
    intro rel h
    rw [List.foldl_cons, ih _ (fun q hq => h q (List.mem_cons_of_mem _ hq)),
      applyPeak_frame k p rel (h p (List.mem_cons_self _ _))]

/-- The peak tables of a file leave a position as it was when none of their
tokens has its mass index. -/
theorem foldl_relIntAfter_frame (k : Nat) : ∀ (chunks : List Chunk) (rel : List ℚ),
    (∀ peaks, Chunk.table peaks ∈ chunks →
      ∀ p ∈ peaks, Atoi ((tokenizeAll p ',').headD []) ≠ (k : Int) + 1) →
    (chunks.foldl Chunk.relIntAfter rel).getD k 0 = rel.getD k 0 := by
  intro chunks
  induction chunks with
  | nil => intro rel _; rfl
  | cons c cs ih =>
    intro rel h
    rw [List.foldl_cons, ih _ (fun peaks hm => h peaks (List.mem_cons_of_mem _ hm))]
    cases c with
    | plain w => rfl
    | formula m ts hh => rfl
    | table peaks =>
      exact foldl_applyPeak_frame k peaks rel (h peaks (List.mem_cons_self _ _))

/-- The element loop of `ParseName` changes the entry of the first element
whose symbol occurs in the token, and no other. -/
theorem fillContents_frame (tok : TString) (n : Int) (e : Nat) :
    ∀ (names : List TString) (i : Nat) (c : List ℚ),
      (e < i ∨ (∃ j, j + i < e ∧ Contains tok (names.getD j []) = true)
        ∨ Contains tok (names.getD (e - i) []) = false) →
      (fillContents tok n i names c).getD e 0 = c.getD e 0 := by
  intro names
  induction names with
  | nil => intro i c _; rfl
  | cons nm rest ih =>
    intro i c h
    by_cases hc : Contains tok nm = true
    · simp only [fillContents, hc, if_true]
      have hne : i ≠ e := by
        rcases h with h | ⟨j, hj, _⟩ | h
        · omega
        · omega
        · intro hie
          subst hie
          simp only [Nat.sub_self, List.getD_cons_zero] at h
          rw [h] at hc
          cases hc
      simp only [List.getD_eq_getElem?_getD]
      rw [List.getElem?_set_ne hne]
    · simp only [fillContents, hc, Bool.false_eq_true, if_false]
      apply ih
      rcases h with h | ⟨j, hj, hj2⟩ | h
      · left; omega
      · cases j with
        | zero => simp only [List.getD_cons_zero] at hj2; exact absurd hj2 hc
        | succ j =>
          right; left
          exact ⟨j, by omega, by simpa using hj2⟩
      · by_cases hle : e ≤ i
        · left; omega
        · right; right
          have : e - i = (e - (i + 1)) + 1 := by omega
          rw [this, List.getD_cons_succ] at h
          exact h

theorem parseToken_frame (tok : TString) (c : List ℚ) (e : Nat)
    (h : (∃ j, j < e ∧ Contains tok (elementNames.getD j []) = true)
      ∨ Contains tok (elementNames.getD e []) = false) :
    (parseToken c tok).getD e 0 = c.getD e 0 := by
  apply fillContents_frame
  rcases h with ⟨j, hj, hj2⟩ | h
  · right; left; exact ⟨j, by omega, hj2⟩
  · right; right; simpa using h

theorem foldl_parseToken_frame (e : Nat) : ∀ (toks : List TString) (c : List ℚ),
    (∀ tok ∈ toks, (∃ j, j < e ∧ Contains tok (elementNames.getD j []) = true)
      ∨ Contains tok (elementNames.getD e []) = false) →
    (toks.foldl parseToken c).getD e 0 = c.getD e 0 := by
  intro toks
  induction toks with
  | nil => intro c _; rfl
  | cons t ts ih =>
    intro c h
    rw [List.foldl_cons, ih _ (fun q hq => h q (List.mem_cons_of_mem _ hq)),
      parseToken_frame t c e (h t (List.mem_cons_self _ _))]

set_option maxRecDepth 100000 in
theorem reloadExample_wellFormed :
    reloadExample.all (Chunk.wellFormed loadedExample.relInt.length) = true := by
  decide

theorem reloadExample_length : (chunkToks reloadExample).length < 100 := by
  simp [reloadExample, chunkToks, Chunk.toks]

/-- What `setFile` returns on a stream made of well-formed chunks. -/
theorem setFile_chunks (chunks : List Chunk) (tw : Bool) (r : Spectrum) (fuel : Nat)
    (file : TString) (hall : chunks.all (Chunk.wellFormed r.relInt.length) = true)
    (hfuel : (chunkToks chunks).length < fuel) :
    Spectrum.setFile fuel file (IFStream.ofFile (chunkToks chunks) tw) r
      = Outcome.ok (Spectrum.ParseName
          { r with filename := file, name := chunks.foldl Chunk.nameAfter [],
                   relInt := chunks.foldl Chunk.relIntAfter r.relInt }) := by
  have hread := readFile_chunks chunks tw { r with filename := file } fuel hall hfuel
  simp only [Spectrum.setFile, hread, Outcome.bind]

/-- What the constructor `Spectrum(file)` returns on a stream made of
well-formed chunks. -/
theorem ofFile_chunks (chunks : List Chunk) (tw : Bool) (fuel : Nat) (file : TString)
    (hall : chunks.all (Chunk.wellFormed nMassSpecEntries) = true)
    (hfuel : (chunkToks chunks).length < fuel) :
    Spectrum.ofFile fuel file (IFStream.ofFile (chunkToks chunks) tw)
      = Outcome.ok (Spectrum.ParseName
          { filename := file, contents := List.replicate 6 0, MZ := initMZ,
            relInt := chunks.foldl Chunk.relIntAfter initRelInt,
            name := chunks.foldl Chunk.nameAfter [], Z := 0 }) := by
  have hread := readFile_chunks chunks tw
    { filename := file, contents := List.replicate 6 0, MZ := initMZ, relInt := initRelInt,
      name := [], Z := 0 } fuel hall hfuel
  simp only [Spectrum.ofFile, hread, Outcome.bind]

set_option maxRecDepth 100000 in
theorem reloadExample_name : reloadExample.foldl Chunk.nameAfter [] = ['H', '2'] := by
  decide

theorem reloadExample_parse (c : List ℚ) :
    (tokenizeAll ['H', '2'] '_').foldl parseToken c = c.set 0 2 := by
  have htok : tokenizeAll ['H', '2'] '_' = [['H', '2']] := by decide
  have m : multiplicity ['H', '2'] = 2 := by decide
  have c0 : Contains ['H', '2'] ['H'] = true := by decide
  simp [htok, parseToken, fillContents, elementNames, m, c0]

theorem reloadExample_peaks : ∀ peaks, Chunk.table peaks ∈ reloadExample →
    ∀ p ∈ peaks, Atoi ((tokenizeAll p ',').headD []) ≠ ((0 : Nat) : Int) + 1 := by
  intro peaks hm p hp
  simp only [reloadExample, List.mem_cons, List.mem_singleton, Chunk.table.injEq,
    List.not_mem_nil, or_false, false_or] at hm
  rcases hm with hm | hm
  · cases hm
  · subst hm
    simp only [List.mem_singleton] at hp
    subst hp
    decide

/-- Re-loading the example record from the example file: the peak at mass
index 1 and the counts of C and O stay, and `Z` is 24. -/
theorem reloadExample_setFile :
    ∃ r1, Spectrum.setFile 100 [] (IFStream.ofFile (chunkToks reloadExample) true)
          loadedExample = Outcome.ok r1
      ∧ r1.name = "H2".toList ∧ r1.relInt.getD 0 0 = 1
      ∧ r1.contents = [2, 1, 2, 0, 0, 0] ∧ r1.Z = 24 := by
  have hZ : computeZ [2, 1, 2, 0, 0, 0] = 24 := by
    have := computeZ_intCast 2 1 2 0 0 0
    simpa using this
  have hc : (tokenizeAll ['H', '2'] '_').foldl parseToken loadedExample.contents
      = [2, 1, 2, 0, 0, 0] := by
    rw [reloadExample_parse]; simp [loadedExample]
  refine ⟨_, setFile_chunks reloadExample true loadedExample 100 []
    reloadExample_wellFormed reloadExample_length, ?_, ?_, ?_, ?_⟩
  · simp only [Spectrum.ParseName, reloadExample_name]; rfl
  · simp only [Spectrum.ParseName]
    rw [foldl_relIntAfter_frame 0 reloadExample _ reloadExample_peaks]
    rfl
  · simp only [Spectrum.ParseName, reloadExample_name, hc]
  · simp only [Spectrum.ParseName, reloadExample_name, hc, hZ]

/-- A fresh record built from the example file: no peak at mass index 1, no
C and no O, and `Z` is 2. -/
theorem reloadExample_fresh :
    ∃ r2, Spectrum.ofFile 100 [] (IFStream.ofFile (chunkToks reloadExample) true)
          = Outcome.ok r2
      ∧ r2.name = "H2".toList ∧ r2.relInt.getD 0 0 = 0
      ∧ r2.contents = [2, 0, 0, 0, 0, 0] ∧ r2.Z = 2 := by
  have hZ : computeZ [2, 0, 0, 0, 0, 0] = 2 := by
    have := computeZ_intCast 2 0 0 0 0 0
    simpa using this
  have hc : (tokenizeAll ['H', '2'] '_').foldl parseToken (List.replicate 6 0)
      = [2, 0, 0, 0, 0, 0] := by
    rw [reloadExample_parse]; simp
  refine ⟨_, ofFile_chunks reloadExample true 100 []
    reloadExample_wellFormed reloadExample_length, ?_, ?_, ?_, ?_⟩
  · simp only [Spectrum.ParseName, reloadExample_name]; rfl
  · simp only [Spectrum.ParseName]
    rw [foldl_relIntAfter_frame 0 reloadExample _ reloadExample_peaks]
    rfl
  · simp only [Spectrum.ParseName, reloadExample_name, hc]
  · simp only [Spectrum.ParseName, reloadExample_name, hc, hZ]

set_option maxRecDepth 100000 in
theorem firstLoadExample_wellFormed :
    firstLoadExample.all (Chunk.wellFormed nMassSpecEntries) = true := by
  decide

set_option maxRecDepth 100000 in
theorem firstLoadExample_name :
    firstLoadExample.foldl Chunk.nameAfter [] = ['C', '_', 'O', '2'] := by
  decide

/-- The example record is what the constructor returns on the file of carbon
dioxide with one peak at mass index 1. -/
theorem loadedExample_loaded :
    Spectrum.ofFile 100 [] (IFStream.ofFile (chunkToks firstLoadExample) true)
      = Outcome.ok loadedExample := by
  rw [ofFile_chunks firstLoadExample true 100 [] firstLoadExample_wellFormed
    (by simp [firstLoadExample, chunkToks, Chunk.toks])]
  have htok : tokenizeAll ['C', '_', 'O', '2'] '_' = [['C'], ['O', '2']] := by decide
  have h1 : parseToken (List.replicate 6 0) ['C'] = [0, 1, 0, 0, 0, 0] := by
    have m : multiplicity ['C'] = 1 := by decide
    have c0 : Contains ['C'] ['H'] = false := by decide
    have c1 : Contains ['C'] ['C'] = true := by decide
    simp [parseToken, fillContents, elementNames, m, c0, c1]
  have h2 : parseToken [0, 1, 0, 0, 0, 0] ['O', '2'] = [0, 1, 2, 0, 0, 0] := by
    have m : multiplicity ['O', '2'] = 2 := by decide
    have c0 : Contains ['O', '2'] ['H'] = false := by decide
    have c1 : Contains ['O', '2'] ['C'] = false := by decide
    have c2 : Contains ['O', '2'] ['O'] = true := by decide
    simp [parseToken, fillContents, elementNames, m, c0, c1, c2]
  have h3 : computeZ [0, 1, 2, 0, 0, 0] = 22 := by
    have := computeZ_intCast 0 1 2 0 0 0
    simpa using this
  have hp : "1,9999".toList = peakOf (1, 9999) := by decide
  have hrel : firstLoadExample.foldl Chunk.relIntAfter initRelInt = initRelInt.set 0 1 := by
    simp only [firstLoadExample, List.foldl_cons, List.foldl_nil, Chunk.relIntAfter, hp]
    rw [(applyPeak_peakOf (1, 9999) initRelInt (by decide) (by norm_num) (by norm_num)).2]
    norm_num
  simp only [Spectrum.ParseName, firstLoadExample_name, htok, List.foldl_cons, List.foldl_nil,
    h1, h2, h3, hrel, loadedExample]
  rfl

/-- Claim C19 (re-load keeps stale state).  For every record and every file
made of well-formed chunks, `setFile` returns a record whose file name is the
new one and whose name is the formula of the file alone; every position of
the intensity vector for which the tables of the file hold no token of that
mass index keeps its value; every element that is the first match of no token
of the new name keeps its count; `Z` is computed from the resulting counts.
Example: for the record loaded from the file of `C O2` with a peak at mass
index 1, `setFile` on a file of `H2` with a peak at mass index 2 leaves the
peak at 1, the counts C:1 and O:2, and gives `Z = 24`, where a fresh record
of that file has intensity 0 at mass index 1, no C, no O and `Z = 2`. -/
theorem reload_keeps_stale_state (chunks : List Chunk) (tw : Bool) (r : Spectrum)
    (fuel : Nat) (file : TString)
    (hall : chunks.all (Chunk.wellFormed r.relInt.length) = true)
    (hfuel : (chunkToks chunks).length < fuel) :
    (∃ r1, Spectrum.setFile fuel file (IFStream.ofFile (chunkToks chunks) tw) r = Outcome.ok r1
      ∧ r1.filename = file
      ∧ r1.name = chunks.foldl Chunk.nameAfter []
      ∧ (∀ k : Nat,
          (∀ peaks, Chunk.table peaks ∈ chunks →
            ∀ p ∈ peaks, Atoi ((tokenizeAll p ',').headD []) ≠ (k : Int) + 1) →
          r1.relInt.getD k 0 = r.relInt.getD k 0)
      ∧ (∀ e : Nat,
          (∀ tok ∈ tokenizeAll r1.name '_',
            (∃ j, j < e ∧ Contains tok (elementNames.getD j []) = true)
              ∨ Contains tok (elementNames.getD e []) = false) →
          r1.contents.getD e 0 = r.contents.getD e 0)
      ∧ r1.Z = computeZ r1.contents)
    ∧ Spectrum.ofFile 100 [] (IFStream.ofFile (chunkToks firstLoadExample) true)
        = Outcome.ok loadedExample
    ∧ (∃ r1, Spectrum.setFile 100 [] (IFStream.ofFile (chunkToks reloadExample) true)
          loadedExample = Outcome.ok r1
        ∧ r1.name = "H2".toList ∧ r1.relInt.getD 0 0 = 1
        ∧ r1.contents = [2, 1, 2, 0, 0, 0] ∧ r1.Z = 24)
    ∧ (∃ r2, Spectrum.ofFile 100 [] (IFStream.ofFile (chunkToks reloadExample) true)
          = Outcome.ok r2
        ∧ r2.name = "H2".toList ∧ r2.relInt.getD 0 0 = 0
        ∧ r2.contents = [2, 0, 0, 0, 0, 0] ∧ r2.Z = 2) := by
  refine ⟨?_, loadedExample_loaded, reloadExample_setFile, reloadExample_fresh⟩
  refine ⟨_, setFile_chunks chunks tw r fuel file hall hfuel, rfl, rfl, ?_, ?_, rfl⟩
  · intro k hk
    exact foldl_relIntAfter_frame k chunks r.relInt hk
  · intro e he
    exact foldl_parseToken_frame e _ r.contents he

/-- Re-loading the example record from the file of `H2`: the name is `H2`,
and the peak at mass index 1 and the counts of C and O are those of the
earlier load. -/
theorem reload_keeps_stale_state_witness :
    ∃ r1, Spectrum.setFile 100 [] (IFStream.ofFile (chunkToks reloadExample) true) loadedExample
        = Outcome.ok r1
      ∧ r1.name = "H2".toList
      ∧ r1.relInt.getD 0 0 = 1
      ∧ r1.contents.getD 1 0 = 1 ∧ r1.contents.getD 2 0 = 2 := by
  obtain ⟨r1, h1, _, h3, h4, h5, _⟩ :=
    (reload_keeps_stale_state reloadExample true loadedExample 100 []
      reloadExample_wellFormed reloadExample_length).1
  refine ⟨r1, h1, h3, ?_, ?_, ?_⟩
  · rw [h4 0 reloadExample_peaks]
    rfl
  · have hname : tokenizeAll r1.name '_' = ["H2".toList] := by rw [h3]; rfl
    rw [h5 1 (by
      rw [hname]
      intro tok ht
      simp only [List.mem_singleton] at ht
      subst ht
      left
      exact ⟨0, by norm_num, by decide⟩)]
    rfl
  · have hname : tokenizeAll r1.name '_' = ["H2".toList] := by rw [h3]; rfl
    rw [h5 2 (by
      rw [hname]
      intro tok ht
      simp only [List.mem_singleton] at ht
      subst ht
      left
      exact ⟨0, by norm_num, by decide⟩)]
    rfl

end MassSpectrum
